import Mathlib

/-!
# Inverted-index search engine: shallow embedding

The development follows the C sources of the repository:
`include/common.c` (stemmer, variable-byte codec, big-endian integers),
`include/rbtree.c` (the dictionary tree), `include/linked_list.c`
(posting lists), `indexer.c` and `searcher.c`.

Conventions of the embedding.
* A byte (`unsigned char`) is a `Nat` below 256; a file is the `List Nat` of its bytes.
* A C string is the list of its bytes before the terminating NUL.
* A C `int` is an `Int`. The codecs are modelled at 32 bits: the decoder keeps the bit
  pattern of its accumulators as a `Nat` below `2^32` and reads it back with `toInt32`,
  and the big-endian writer and reader work on the pattern `ofInt32`. Counters that only
  count lines, bytes or occurrences (`doc_index`, `freq`, `byte_offset`, sums of
  frequencies) are modelled exactly; they stay in range on inputs of fewer than `2^31`
  lines and bytes, and signed overflow beyond that is undefined in C.
* A C `float` that holds a converted int is the integer value of the float after
  rounding to 24 significant bits (`float_of_int`); floats compare by value.
* Undefined behaviour of the C code is `none` in the model.
* A `LinkedList` whose nodes are only ever appended at the tail is the `List` of its
  `data` fields, head first; `tail` is its last element.
-/

namespace SearchEngine

/-! ## common.h -/

/-- Width of a dictionary key field (`MAX_KEY_SIZE`). -/
def MAX_KEY_SIZE : Nat := 60

/-- Width of a stored posting-file offset (`OFFSET_SIZE`). -/
def OFFSET_SIZE : Nat := 4

/-- Width of a document identifier (`DOC_ID_SIZE`). -/
def DOC_ID_SIZE : Nat := 14

/-- The `Posting` struct: two C ints. -/
structure Posting where
  doc_id : Int
  freq : Int
  deriving DecidableEq

/-- Value of a 32-bit pattern read as a two's-complement `int`. -/
def toInt32 (p : Nat) : Int :=
  if p % 2 ^ 32 < 2 ^ 31 then ((p % 2 ^ 32 : Nat) : Int) else ((p % 2 ^ 32 : Nat) : Int) - 2 ^ 32

/-- The 32-bit pattern of an `int` value. -/
def ofInt32 (v : Int) : Nat := (v % 2 ^ 32).toNat

/-- Result of an `int` operation, reduced to the range of a 32-bit `int`. -/
def wrap32 (v : Int) : Int := toInt32 (ofInt32 v)

/-! ## common.c: variable-byte encoder -/

/-- The `while (n > 0)` loop of `variable_byte_encode`: the 7-bit groups stored in
`buffer`, lowest group first. The first argument bounds the number of iterations;
`n` itself always suffices because every iteration shifts `n` right by 7 bits. -/
def vb_buffer : Nat → Nat → List Nat
  | 0, _ => []
  | fuel + 1, n => if n > 0 then (n &&& 127) :: vb_buffer fuel (n >>> 7) else []

/-- The bytes `variable_byte_encode(n, fp)` writes to `fp`, in file order. For `n <= 0`
the loop body never runs and the single group 0 is used. The C function returns the
length of this list. -/
def variable_byte_encode (n : Int) : List Nat :=
  let buffer := vb_buffer n.toNat n.toNat
  let buffer := if buffer.length = 0 then [0] else buffer
  let buffer := match buffer with
    | [] => []
    | b0 :: rest => (b0 ||| 128) :: rest
  buffer.reverse

/-! ## searcher.c: posting decoder -/

/-- Local variables of the loop of `decode_posting_list`. `res` and `prev_id` hold the
32-bit patterns of the C ints; `posting` is the `doc_id` stored in the posting that
was allocated last (the pointer is NULL only before the first number, which is
always an id); `list` is the list built so far. -/
structure DecodeState where
  res : Nat
  is_id : Bool
  prev_id : Nat
  posting : Int
  list : List Posting
  deriving DecidableEq

/-- The branch of the loop body taken when a number is complete (`res` already holds
it): ids are summed into `prev_id`, frequencies complete the pending posting. -/
def decode_emit (s : DecodeState) (res : Nat) : DecodeState :=
  if s.is_id then
    let prev_id := (s.prev_id + res) % 2 ^ 32
    { res := 0, is_id := false, prev_id := prev_id, posting := toInt32 prev_id, list := s.list }
  else
    { res := 0, is_id := true, prev_id := s.prev_id, posting := s.posting,
      list := s.list ++ [⟨s.posting, toInt32 res⟩] }

/-- One iteration of the `for` loop of `decode_posting_list` on byte `b = data[i]`. -/
def decode_step (s : DecodeState) (b : Nat) : DecodeState :=
  if b &&& 128 = 0 then
    { s with res := ((s.res ||| b) <<< 7) % 2 ^ 32 }
  else
    decode_emit s (s.res ||| (b ^^^ 128))

/-- State of `decode_posting_list` before the loop. -/
def decode_init : DecodeState :=
  { res := 0, is_id := true, prev_id := 0, posting := 0, list := [] }

/-- The posting list `decode_posting_list(data, size)` returns, `data` holding `size` bytes. -/
def decode_posting_list (data : List Nat) : List Posting :=
  (data.foldl decode_step decode_init).list

/-! ## indexer.c: posting-list writer -/

/-- The `while (current != NULL)` loop of `_write_dict_postings` over one posting list:
the bytes written to the postings file, starting from `prev_doc_id`. The loop adds the
length of this list to `*byte_offset`. -/
def write_postings (prev_doc_id : Int) : List Posting → List Nat
  | [] => []
  | posting :: rest =>
    let doc_id_delta := wrap32 (posting.doc_id - prev_doc_id)
    variable_byte_encode doc_id_delta ++ variable_byte_encode posting.freq
      ++ write_postings posting.doc_id rest

/-! ## C strings -/

/-- Bytes of a string literal of the source. -/
def bytes (s : String) : List Nat := s.toList.map Char.toNat

/-- The C function `strcmp` on C strings; bytes compare as `unsigned char`. C fixes only the sign of
the result: the model returns -1, 0 or 1. -/
def strcmp : List Nat → List Nat → Int
  | [], [] => 0
  | [], _ :: _ => -1
  | _ :: _, [] => 1
  | a :: as, b :: bs => if a < b then -1 else if b < a then 1 else strcmp as bs

/-! ## common.c: stemmer -/

/-- The C function `tolower` in the C locale. -/
def tolower (c : Nat) : Nat := if 65 ≤ c ∧ c ≤ 90 then c + 32 else c

/-- The value of `ends_with(str, suffix)`. -/
def ends_with (str suffix : List Nat) : Bool :=
  let lenstr := str.length
  let lensuffix := suffix.length
  if lensuffix > lenstr then false
  else str.drop (lenstr - lensuffix) == suffix

/-- The `suffixes` array of `stem`, without its NULL terminator. -/
def suffixes : List (List Nat) :=
  [bytes "able", bytes "ible", bytes "ness", bytes "ment", bytes "ions", bytes "ings",
   bytes "ies", bytes "ion", bytes "ing", bytes "ate", bytes "ize", bytes "ise",
   bytes "ant", bytes "ent", bytes "ful", bytes "ous", bytes "ive",
   bytes "es", bytes "er", bytes "or", bytes "al", bytes "ic", bytes "ly", bytes "ed",
   bytes "en", bytes "fy", bytes "'s", bytes "s"]

/-- Minimum length of a word after stemming (`too_short`). -/
def too_short : Int := 3

/-- The `while (*suffix != NULL)` loop of `stem` on the lowercased `word`. -/
def stem_loop (word : List Nat) : List (List Nat) → List Nat
  | [] => word
  | suffix :: rest =>
    let result_len : Int := (word.length : Int) - (suffix.length : Int)
    if ends_with word suffix && decide (result_len ≥ too_short) then
      word.take (word.length - suffix.length)
    else stem_loop word rest

/-- The contents of `word` after `stem(word)`. -/
def stem (word : List Nat) : List Nat :=
  stem_loop (word.map tolower) suffixes

/-! ## rbtree.h, rbtree.c -/

/-- Node colours. -/
inductive RBColor where
  | RED
  | BLACK
  deriving DecidableEq

/-- A subtree, given by the node at its root: either the sentinel `tree->nil` or a node
with its `key` (as a C string), `value`, `color`, `left` and `right`. The `parent`
links are not stored: while the code walks upwards they are given by a path of
frames (see `Frame`). -/
inductive RBTreeNode (V : Type) where
  | nil : RBTreeNode V
  | node (key : List Nat) (value : V) (color : RBColor) (left right : RBTreeNode V) :
      RBTreeNode V
  deriving DecidableEq

/-- Side of a parent on which a child hangs. -/
inductive Dir where
  | L
  | R
  deriving DecidableEq

/-- An ancestor seen from below: the fields of the node, the side `dir` on which the
walk came up, and the subtree `sibling` hanging on the other side. -/
structure Frame (V : Type) where
  key : List Nat
  value : V
  color : RBColor
  dir : Dir
  sibling : RBTreeNode V
  deriving DecidableEq

namespace RBTreeNode

variable {V : Type}

/-- The `color` field; the sentinel is black. -/
def color_of : RBTreeNode V → RBColor
  | nil => RBColor.BLACK
  | node _ _ c _ _ => c

/-- Assignment to the `color` field of a node. -/
def set_color (c : RBColor) : RBTreeNode V → RBTreeNode V
  | nil => nil
  | node k v _ l r => node k v c l r

/-- The subtree that replaces the one rooted at `x` after `left_rotate(tree, x)`;
`x->right` is a node wherever the code calls it. -/
def left_rotate : RBTreeNode V → RBTreeNode V
  | node k v c l (node k2 v2 c2 l2 r2) => node k2 v2 c2 (node k v c l l2) r2
  | t => t

/-- The subtree that replaces the one rooted at `x` after `right_rotate(tree, x)`;
`x->left` is a node wherever the code calls it. -/
def right_rotate : RBTreeNode V → RBTreeNode V
  | node k v c (node k2 v2 c2 l2 r2) r => node k2 v2 c2 l2 (node k v c r2 r)
  | t => t

end RBTreeNode

open RBTreeNode RBColor

variable {V : Type}

/-- The ancestor node with the subtree `t` hung on the side the walk came from. -/
def Frame.attach (f : Frame V) (t : RBTreeNode V) : RBTreeNode V :=
  match f.dir with
  | Dir.L => node f.key f.value f.color t f.sibling
  | Dir.R => node f.key f.value f.color f.sibling t

/-- The whole tree, given the subtree `t` and the path of its ancestors, nearest first. -/
def fill : List (Frame V) → RBTreeNode V → RBTreeNode V
  | [], t => t
  | f :: path, t => fill path (f.attach t)

/-- The descent loop of `rb_insert` (`while (x != tree->nil)`): the ancestors of the
sentinel position where the new node is linked, nearest first (`y` is the head). -/
def insert_descend (key : List Nat) : RBTreeNode V → List (Frame V) → List (Frame V)
  | nil, path => path
  | node k v c l r, path =>
    if strcmp key k < 0 then insert_descend key l (⟨k, v, c, Dir.L, r⟩ :: path)
    else insert_descend key r (⟨k, v, c, Dir.R, l⟩ :: path)

/-- The `while (z->parent->color == RED)` loop of `rb_insert_fixup`, `z` being the
root of the given subtree and the list its ancestors. The result is the whole tree.
After a rotation case `z->parent` is black and the loop stops. A red parent without
a grandparent (a red root) does not occur, because every insertion leaves the root
black; the C code would then dereference fields of the sentinel, and the model gives
`none`. -/
def rb_insert_fixup_loop : RBTreeNode V → List (Frame V) → Option (RBTreeNode V)
  | z, [] => some z
  | z, p :: above =>
    if p.color = RED then
      match above with
      | [] => none
      | g :: rest =>
        match g.dir with
        | Dir.L =>
          let y := g.sibling
          if color_of y = RED then
            rb_insert_fixup_loop
              (node g.key g.value RED ({ p with color := BLACK }.attach z) (set_color BLACK y))
              rest
          else
            let zp := p.attach z
            let zp := match p.dir with
              | Dir.R => left_rotate zp
              | Dir.L => zp
            some (fill rest (right_rotate (node g.key g.value RED (set_color BLACK zp) y)))
        | Dir.R =>
          let y := g.sibling
          if color_of y = RED then
            rb_insert_fixup_loop
              (node g.key g.value RED (set_color BLACK y) ({ p with color := BLACK }.attach z))
              rest
          else
            let zp := p.attach z
            let zp := match p.dir with
              | Dir.L => right_rotate zp
              | Dir.R => zp
            some (fill rest (left_rotate (node g.key g.value RED y (set_color BLACK zp))))
    else some (fill (p :: above) z)

/-- The tree after `rb_insert_fixup(tree, z)`: the loop, then `tree->root->color = BLACK`. -/
def rb_insert_fixup (z : RBTreeNode V) (path : List (Frame V)) : Option (RBTreeNode V) :=
  (rb_insert_fixup_loop z path).map (set_color BLACK)

/-- The tree after `rb_insert(tree, key, value)`. `strcpy` copies `key` and its
terminator into the 60-byte array `newNode->key`: a key of `MAX_KEY_SIZE` bytes or
more overruns the array (undefined behaviour, `none`). -/
def rb_insert (tree : RBTreeNode V) (key : List Nat) (value : V) : Option (RBTreeNode V) :=
  if key.length < MAX_KEY_SIZE then
    rb_insert_fixup (node key value RED nil nil) (insert_descend key tree [])
  else none

/-- The node `rb_search(tree, key)` returns (the subtree rooted there), or the sentinel. -/
def rb_search : RBTreeNode V → List Nat → RBTreeNode V
  | nil, _ => nil
  | node k v c l r, key =>
    if strcmp key k ≠ 0 then
      if strcmp key k < 0 then rb_search l key else rb_search r key
    else node k v c l r

/-- The tree after the object `value` points to, in the node `rb_search(tree, key)`
returns, has been changed in place from `value` to `f value`. -/
def update_found (f : V → V) : RBTreeNode V → List Nat → RBTreeNode V
  | nil, _ => nil
  | node k v c l r, key =>
    if strcmp key k ≠ 0 then
      if strcmp key k < 0 then node k v c (update_found f l key) r
      else node k v c l (update_found f r key)
    else node k (f v) c l r

/-! ## linked_list.c -/

/-- The list after `linkedlist_add_tail(list, data)`. -/
def linkedlist_add_tail {α : Type} (list : List α) (data : α) : List α := list ++ [data]

/-! ## linked_list.c: sorting -/

section Sorting

variable {α : Type}

/-- The `while (fast != NULL)` loop of `split_list`, given the nodes from `fast` on:
the number of times `slow` advances. -/
def split_steps : List α → Nat
  | [] => 0
  | [_] => 0
  | _ :: _ :: rest => split_steps rest + 1

/-- The two halves `split_list(source, &front, &back)` produces (`source` is not NULL):
`slow` starts at the first node, `fast` at the second, and the list is cut after `slow`. -/
def split_list (source : List α) : List α × List α :=
  let slow := split_steps source.tail
  (source.take (slow + 1), source.drop (slow + 1))

/-- The list `merge_sorted_lists(a, b, cmp)` returns. The first argument bounds the
depth of the C recursion; the total length of `a` and `b` suffices. -/
def merge_sorted_lists (cmp : α → α → Int) : Nat → List α → List α → List α
  | _, [], b => b
  | _, a :: as, [] => a :: as
  | 0, a :: as, _ :: _ => a :: as
  | fuel + 1, a :: as, b :: bs =>
    if cmp a b ≤ 0 then a :: merge_sorted_lists cmp fuel as (b :: bs)
    else b :: merge_sorted_lists cmp fuel (a :: as) bs

/-- The list `*headRef` after `merge_sort(headRef, cmp)`. The first argument bounds the
depth of the C recursion; the length of the list suffices, both halves being shorter. -/
def merge_sort (cmp : α → α → Int) : Nat → List α → List α
  | 0, head => head
  | fuel + 1, head =>
    match head with
    | [] => head
    | [_] => head
    | _ :: _ :: _ =>
      let ab := split_list head
      let a := merge_sort cmp fuel ab.1
      let b := merge_sort cmp fuel ab.2
      merge_sorted_lists cmp (a.length + b.length) a b

/-- The list after `linkedlist_sort(list)`, `cmp` being `list->cmp`. -/
def linkedlist_sort (cmp : α → α → Int) (list : List α) : List α :=
  merge_sort cmp list.length list

end Sorting

/-! ## common.c: big-endian integers -/

/-- The four bytes `write_int_big_endian(file, value)` writes. -/
def write_int_big_endian (value : Int) : List Nat :=
  let v := ofInt32 value
  [(v >>> 24) &&& 0xFF, (v >>> 16) &&& 0xFF, (v >>> 8) &&& 0xFF, v &&& 0xFF]

/-- The value `read_int_big_endian(file)` returns when `fread` stored `bytes`
(a byte that could not be read is taken as 0). -/
def read_int_big_endian (bytes : List Nat) : Int :=
  toInt32 ((bytes.getD 0 0 <<< 24) ||| (bytes.getD 1 0 <<< 16) ||| (bytes.getD 2 0 <<< 8)
    ||| bytes.getD 3 0)

/-- The bytes `fread` delivers for a request of `n` bytes at position `pos` of `file`. -/
def fread_at (file : List Nat) (pos n : Nat) : List Nat := (file.drop pos).take n

/-! ## indexer.c -/

/-- The local variables of `main` that the reading loop changes. `doc_index` is a C int
counting blank lines; it is modelled exactly (it cannot overflow on a stream of fewer
than `2^31` lines), and so are the `freq` counters. -/
structure Indexer where
  id_list : List (List Nat)
  myTree : RBTreeNode (List Posting)
  doc_index : Int
  deriving DecidableEq

/-- The tail posting with `freq += 1`. -/
def bump_tail (posting_list : List Posting) (last_posting : Posting) : List Posting :=
  posting_list.dropLast ++ [⟨last_posting.doc_id, last_posting.freq + 1⟩]

/-- The body of the reading loop for a content line `line` (newline already removed):
search the tree, then insert a new list or update the list found. `none` stands for
undefined behaviour: an oversize key in `rb_insert`, or a list without tail. -/
def index_word (st : Indexer) (line : List Nat) : Option Indexer :=
  match rb_search st.myTree line with
  | nil =>
    let new_list := linkedlist_add_tail [] (⟨st.doc_index, 1⟩ : Posting)
    (rb_insert st.myTree line new_list).map (fun t => { st with myTree := t })
  | node _ posting_list _ _ _ =>
    match posting_list.getLast? with
    | none => none
    | some last_posting =>
      if last_posting.doc_id = st.doc_index then
        let t := update_found (fun l => bump_tail l last_posting) st.myTree line
        some { st with myTree := t }
      else
        let t := update_found (fun l => linkedlist_add_tail l ⟨st.doc_index, 1⟩) st.myTree line
        some { st with myTree := t }

/-- The reading loop of `main` over the remaining lines of the stream. A line is what one
call of `fgets` delivers (at most 254 bytes), given as a C string without its newline,
so the blank line (`strcmp(line, "\n") == 0`) is `[]`. After a
blank line the next line is taken as an identifier; when there is none, `fgets` leaves
the buffer holding the blank line and the empty identifier is recorded. -/
def indexer_loop : Indexer → List (List Nat) → Option Indexer
  | st, [] => some st
  | st, line :: rest =>
    if line = [] then
      match rest with
      | [] =>
        some { st with id_list := linkedlist_add_tail st.id_list [],
                       doc_index := st.doc_index + 1 }
      | next :: rest' =>
        indexer_loop
          { st with id_list := linkedlist_add_tail st.id_list next,
                    doc_index := st.doc_index + 1 }
          rest'
    else
      match index_word st line with
      | none => none
      | some st' => indexer_loop st' rest

/-- The bytes `save_id_list(list)` writes to the doc-id file. -/
def save_id_list : List (List Nat) → List Nat
  | [] => []
  | [data] => data
  | data :: next :: rest => data ++ [10] ++ save_id_list (next :: rest)

/-- The array `node->key`: the key followed by the zero bytes left by `memset`. -/
def key_field (key : List Nat) : List Nat :=
  (key ++ List.replicate MAX_KEY_SIZE 0).take MAX_KEY_SIZE

/-- The two output files and the running `*byte_offset` of `_write_dict_postings`.
`byte_offset` is a C int; it is modelled exactly. -/
structure Writer where
  fp_post : List Nat
  fp_dict : List Nat
  byte_offset : Int
  deriving DecidableEq

/-- The state after `_write_dict_postings(tree, node, fp_post, fp_dict, byte_offset)`. -/
def _write_dict_postings : RBTreeNode (List Posting) → Writer → Writer
  | nil, w => w
  | node key list _ left right, w =>
    let w := _write_dict_postings left w
    let w := { w with fp_dict := w.fp_dict ++ key_field key ++ write_int_big_endian w.byte_offset }
    let posted := write_postings 0 list
    let w := { w with fp_post := w.fp_post ++ posted,
                      byte_offset := w.byte_offset + (posted.length : Int) }
    _write_dict_postings right w

/-- The state after `write_dict_postings(tree)`. -/
def write_dict_postings (tree : RBTreeNode (List Posting)) : Writer :=
  _write_dict_postings tree ⟨[], [], 0⟩

/-- The three files of the index. -/
structure IndexFiles where
  ID_FILE : List Nat
  DICT_FILE : List Nat
  POSTING_FILE : List Nat
  deriving DecidableEq

/-- The state of `main` of the indexer when the reading loop ends, given the lines of
the word stream. On an empty stream the first `fgets` fails and `line` is read
uninitialised (`none`). -/
def indexer_read (stream : List (List Nat)) : Option Indexer :=
  match stream with
  | [] => none
  | line :: rest => indexer_loop ⟨linkedlist_add_tail [] line, nil, 0⟩ rest

/-- The files `main` of the indexer produces from the lines of the word stream. -/
def indexer_main (stream : List (List Nat)) : Option IndexFiles :=
  match indexer_read stream with
  | none => none
  | some st =>
    let w := write_dict_postings st.myTree
    some ⟨save_id_list st.id_list, w.fp_dict, w.fp_post⟩

/-! ## searcher.c -/

/-- The spacing of the values of a C `float` (IEEE 754 binary32, 24 significant bits)
around the magnitude `a`: 1 below `2^24`, and twice as much for every further bit. The
first argument bounds the recursion; `a` itself suffices. -/
def float_ulp : Nat → Nat → Nat
  | 0, _ => 1
  | fuel + 1, a => if a < 2 ^ 24 then 1 else 2 * float_ulp fuel (a / 2)

/-- The value of the `float` to which an int `v` is converted by an assignment such as
`result->score = posting->freq`: `v` itself when it has at most 24 significant bits,
otherwise the nearest multiple of the spacing, the even one of two that are equally
near (round to nearest, ties to even). The value is again an integer. -/
def float_of_int (v : Int) : Int :=
  let a := v.natAbs
  let ulp := float_ulp a a
  let q := a / ulp
  let r := a % ulp
  let q := if 2 * r < ulp then q else if ulp < 2 * r then q + 1 else q + q % 2
  if v < 0 then -((q * ulp : Nat) : Int) else ((q * ulp : Nat) : Int)

/-- The `SearchResult` struct. `doc_id` holds the bytes `fread` stored (the rest of the
buffer is not written when fewer than `DOC_ID_SIZE` are available). `score` is a C
float; the searcher only ever stores floats converted from an int, which are integers,
and the model keeps the value of the float. -/
structure SearchResult where
  doc_id : List Nat
  score : Int
  deriving DecidableEq

/-- The loop of `calculate_rank` over `results`, `pos` being the position of `id_file`:
the results appended to `ranked_results`. `fseek` to a negative offset fails and
leaves the position where it was. The assignment `result->score = posting->freq`
converts the int to a float. -/
def calculate_rank_loop (id_file : List Nat) : Nat → List Posting → List SearchResult
  | _, [] => []
  | pos, posting :: rest =>
    let target := posting.doc_id * ((DOC_ID_SIZE : Int) + 1)
    let pos := if 0 ≤ target then target.toNat else pos
    let doc_id := fread_at id_file pos DOC_ID_SIZE
    ⟨doc_id, float_of_int posting.freq⟩ :: calculate_rank_loop id_file (pos + doc_id.length) rest

/-- The list `ranked_results` after `calculate_rank(ranked_results, results, id_file)`
on an empty `ranked_results` and a freshly opened `id_file`. -/
def calculate_rank (results : List Posting) (id_file : List Nat) : List SearchResult :=
  calculate_rank_loop id_file 0 results

/-- The list `copy_posting_list(original)` returns. -/
def copy_posting_list (original : List Posting) : List Posting :=
  original.map (fun originalPosting => ⟨originalPosting.doc_id, originalPosting.freq⟩)

/-- The innermost loop of `intersect_posting_lists`: the first posting of `currentList`
with the doc index of `resultPosting`, if any. -/
def find_current (resultPosting : Posting) : List Posting → Option Posting
  | [] => none
  | currentPosting :: rest =>
    if currentPosting.doc_id = resultPosting.doc_id then some currentPosting
    else find_current resultPosting rest

/-- One iteration of the outer loop of `intersect_posting_lists`: `newResults` built from
`results` and `currentList`. Frequencies are C ints; the sum
`resultPosting->freq += currentPosting->freq` is modelled exactly, which is the value the
code computes whenever the sum is in the range of an int (beyond it the signed addition
overflows, which is undefined in C). -/
def intersect_step (results currentList : List Posting) : List Posting :=
  results.filterMap (fun resultPosting =>
    match find_current resultPosting currentList with
    | some currentPosting => some ⟨resultPosting.doc_id, resultPosting.freq + currentPosting.freq⟩
    | none => none)

/-- The list stored in `*resultList` by `intersect_posting_lists(all_word_plist, resultList)`;
`none` when the function returns early and leaves `*resultList` untouched. -/
def intersect_posting_lists : List (List Posting) → Option (List Posting)
  | [] => none
  | first :: rest => some (rest.foldl intersect_step (copy_posting_list first))

/-- The value of `cmp_search_results(a, b)`: the comparison of the two float scores. -/
def cmp_search_results (a b : SearchResult) : Int :=
  if a.score < b.score then 1
  else if a.score > b.score then -1
  else 0

/-- The C string in the 60-byte array `word` after `fread(word, MAX_KEY_SIZE, 1, dict_file)`
at record `mid`: the array is read up to its first NUL. (A field without NUL would make
`strcmp` read past the array; the model then takes the 60 bytes.) -/
def read_word (dict_file : List Nat) (mid : Nat) : List Nat :=
  (fread_at dict_file (mid * (MAX_KEY_SIZE + OFFSET_SIZE)) MAX_KEY_SIZE).takeWhile (· ≠ 0)

/-- The offset stored in record `mid` of the dictionary file, read by `read_int_big_endian`. -/
def read_offset (dict_file : List Nat) (mid : Nat) : Int :=
  read_int_big_endian
    (fread_at dict_file (mid * (MAX_KEY_SIZE + OFFSET_SIZE) + MAX_KEY_SIZE) OFFSET_SIZE)

/-- The binary search loop of `get_posting_list` for the stemmed `search_word`: the pair
`(posting_begin_offset, posting_end_offset)` when the loop ends. The first argument
bounds the number of iterations; `dict_size` suffices because the range
`low..high` shrinks at every iteration. -/
def binary_search (search_word dict_file posting_file : List Nat) (dict_size : Int) :
    Nat → Int → Int → Int × Int
  | 0, _, _ => (-1, -1)
  | fuel + 1, low, high =>
    if low ≤ high then
      let mid := low + (high - low) / 2
      let word := read_word dict_file mid.toNat
      let cmp := strcmp search_word word
      if cmp = 0 then
        let posting_begin_offset := read_offset dict_file mid.toNat
        let posting_end_offset :=
          if mid < dict_size - 1 then read_offset dict_file (mid.toNat + 1)
          else (posting_file.length : Int)
        (posting_begin_offset, posting_end_offset)
      else if cmp < 0 then
        binary_search search_word dict_file posting_file dict_size fuel low (mid - 1)
      else
        binary_search search_word dict_file posting_file dict_size fuel (mid + 1) high
    else (-1, -1)

/-- The offsets `(posting_begin_offset, posting_end_offset)` of `get_posting_list` after
its binary search, which starts from `low = 0` and `high = dict_size - 1`, for the
stemmed `search_word`. -/
def dict_lookup (search_word dict_file posting_file : List Nat) (dict_size : Int) : Int × Int :=
  binary_search search_word dict_file posting_file dict_size dict_size.toNat 0 (dict_size - 1)

/-- The posting list `get_posting_list` appends to `all_word_plist` for the argument
`search_word`, or `none` when it returns false. The buffer `data` holds the bytes read
from the postings file at `posting_begin_offset`, at most `p_size` of them; the decoder
receives `p_size` converted to int as its `size`. The offset is a byte offset into the
postings file, hence not negative: for a negative offset other than -1 `fseek` fails and
the code reads on from wherever the file position is, which the model does not follow
(it reads from the start of the file). -/
def get_posting_list (search_word dict_file posting_file : List Nat) (dict_size : Int) :
    Option (List Posting) :=
  let search_word := stem search_word
  let found := dict_lookup search_word dict_file posting_file dict_size
  let posting_begin_offset := found.1
  let posting_end_offset := found.2
  if posting_begin_offset = -1 then none
  else
    let p_size := ofInt32 (posting_end_offset - posting_begin_offset)
    let data := fread_at posting_file posting_begin_offset.toNat p_size
    let size := toInt32 p_size
    some (decode_posting_list (data.take size.toNat))

/-- The loop of `main` over the arguments: the list `all_word_plist`, or `none` when a
word is not found. -/
def collect_posting_lists (dict_file posting_file : List Nat) (dict_size : Int) :
    List (List Nat) → Option (List (List Posting))
  | [] => some []
  | word :: rest =>
    match get_posting_list word dict_file posting_file dict_size with
    | none => none
    | some word_plist =>
      (collect_posting_lists dict_file posting_file dict_size rest).map (fun l => word_plist :: l)

/-- The exit code of the searcher's `main` and the results it prints, in order, for
the arguments `words` (`argv[1]`, `argv[2]`, ...). -/
def searcher_main (files : IndexFiles) (words : List (List Nat)) : Int × List SearchResult :=
  if words = [] then (1, [])
  else
    let dict_size : Int := ((files.DICT_FILE.length / (MAX_KEY_SIZE + OFFSET_SIZE) : Nat) : Int)
    match collect_posting_lists files.DICT_FILE files.POSTING_FILE dict_size words with
    | none => (0, [])
    | some all_word_plist =>
      match intersect_posting_lists all_word_plist with
      | none => (0, [])
      | some results =>
        let ranked_results := calculate_rank results files.ID_FILE
        (0, linkedlist_sort cmp_search_results ranked_results)

/-! ## Observations on trees -/

/-- The `(key, value)` pairs of the nodes in the order in which `_write_dict_postings`
(and `rb_inorder_traversal`) visits them: left subtree, node, right subtree. -/
def inorder : RBTreeNode V → List (List Nat × V)
  | nil => []
  | node k v _ l r => inorder l ++ (k, v) :: inorder r

/-- The pairs visited before the subtree a path leads to. -/
def path_before : List (Frame V) → List (List Nat × V)
  | [] => []
  | f :: path =>
    match f.dir with
    | Dir.L => path_before path
    | Dir.R => path_before path ++ inorder f.sibling ++ [(f.key, f.value)]

/-- The pairs visited after the subtree a path leads to. -/
def path_after : List (Frame V) → List (List Nat × V)
  | [] => []
  | f :: path =>
    match f.dir with
    | Dir.L => (f.key, f.value) :: inorder f.sibling ++ path_after path
    | Dir.R => path_after path

/-- The topmost ancestor of a path (the root of the tree) is black. -/
def path_root_black (path : List (Frame V)) : Prop :=
  ∀ f, path.getLast? = some f → f.color = BLACK

/-- Search-tree order: the keys met by the in-order walk are strictly ascending. -/
def ordered (t : RBTreeNode V) : Prop :=
  (inorder t).Pairwise (fun a b => a.1 < b.1)

/-- The posting list the dictionary holds for `key`: the `value` of the node
`rb_search` returns, and the empty list when it returns the sentinel. -/
def posting_list_of (tree : RBTreeNode (List Posting)) (key : List Nat) : List Posting :=
  match rb_search tree key with
  | nil => []
  | node _ value _ _ _ => value

/-- The list paired with the first occurrence of `key` in a sequence of `(key, list)`
pairs; the empty list when there is none. -/
def alookup (key : List Nat) : List (List Nat × List Posting) → List Posting
  | [] => []
  | p :: rest => if p.1 = key then p.2 else alookup key rest

/-- The in-order sequence after the value paired with `key` has been changed by `f`. -/
def aupdate {V : Type} (f : V → V) (key : List Nat) (l : List (List Nat × V)) :
    List (List Nat × V) :=
  l.map (fun p => if p.1 = key then (p.1, f p.2) else p)

/-! ## The stream format, in the words of the specification

"First non-empty line is a document identifier string. Subsequent non-blank lines are
content words belonging to the current document. A blank line separates documents; the
line immediately following a blank line is the next document identifier string." -/

/-- The content words of the documents of a stream, given the lines that follow the
first identifier: one list of words per document, in doc-index order. -/
def doc_words_after_id : List (List Nat) → List (List (List Nat))
  | [] => [[]]
  | line :: rest =>
    if line = [] then
      match rest with
      | [] => [[], []]
      | _ :: rest' => [] :: doc_words_after_id rest'
    else
      match doc_words_after_id rest with
      | [] => [[line]]
      | d :: ds => (line :: d) :: ds

/-- The content words of the documents of a stream, in doc-index order. -/
def doc_words (stream : List (List Nat)) : List (List (List Nat)) :=
  doc_words_after_id stream.tail

/-- Number of times the term `t` occurs as a content line of document `d` of the stream. -/
def occurrences (stream : List (List Nat)) (t : List Nat) (d : Nat) : Nat :=
  ((doc_words stream).getD d []).count t

/-- The posting list the specification assigns to the term `t` over the documents `docs`
numbered from `first`: one posting `(d, freq)` for every document in which `t` occurs,
`freq` being the number of its occurrences there, in doc-index order. -/
def expected_postings (t : List Nat) : Int → List (List (List Nat)) → List Posting
  | _, [] => []
  | first, d :: ds =>
    (if d.count t = 0 then [] else [⟨first, (d.count t : Int)⟩])
      ++ expected_postings t (first + 1) ds

/-- A stream on which every step of the indexer is defined: it has a first line, and
its content words are shorter than `MAX_KEY_SIZE` bytes. -/
@[reducible] def well_formed_stream (stream : List (List Nat)) : Prop :=
  stream ≠ [] ∧ ∀ d ∈ doc_words stream, ∀ w ∈ d, w.length < MAX_KEY_SIZE

/-- The posting list of `l` after `c` more occurrences in document `doc_index` have been
counted: nothing changes for `c = 0`; otherwise the tail posting grows when it
belongs to `doc_index`, and a new posting is appended when it does not. -/
def add_occurrences (l : List Posting) (doc_index : Int) (c : Nat) : List Posting :=
  if c = 0 then l
  else
    match l.getLast? with
    | none => [⟨doc_index, (c : Int)⟩]
    | some last =>
      if last.doc_id = doc_index then l.dropLast ++ [⟨last.doc_id, last.freq + (c : Int)⟩]
      else l ++ [⟨doc_index, (c : Int)⟩]

/-- Invariant of the reading loop of the indexer: the tree is ordered with a black
root, and every list in it is non-empty and mentions no document after the current
one. -/
def indexer_inv (st : Indexer) : Prop :=
  ordered st.myTree ∧ RBTreeNode.color_of st.myTree = RBColor.BLACK ∧
    ∀ p ∈ inorder st.myTree, p.2 ≠ [] ∧ ∀ q ∈ p.2, q.doc_id ≤ st.doc_index

/-- The posting list of `t` after the documents `docs` have been read, the first of them
continuing the current document `doc_index`, from the list `l` held before. -/
def continue_postings (t : List Nat) (l : List Posting) (doc_index : Int) :
    List (List (List Nat)) → List Posting
  | [] => l
  | d :: ds => add_occurrences l doc_index (d.count t) ++ expected_postings t (doc_index + 1) ds

/-! ## The written files, entry by entry -/

/-- A C string holds no NUL byte. -/
@[reducible] def is_c_string (s : List Nat) : Prop := ∀ b ∈ s, b ≠ 0

/-- The bytes the writer emits to the postings file for one dictionary entry. -/
def entry_bytes (e : List Nat × List Posting) : List Nat := write_postings 0 e.2

/-- The bytes emitted to the postings file for a sequence of entries. -/
def posting_bytes (es : List (List Nat × List Posting)) : List Nat :=
  (es.map entry_bytes).flatten

/-- The bytes emitted to the dictionary file for a sequence of entries, `byte_offset`
being the running offset before the first of them. -/
def dict_records : Int → List (List Nat × List Posting) → List Nat
  | _, [] => []
  | byte_offset, e :: rest =>
    key_field e.1 ++ write_int_big_endian byte_offset
      ++ dict_records (byte_offset + ((entry_bytes e).length : Int)) rest

/-- The frequency of document `d` in the posting list `l`: the sum of the `freq` fields of
its postings for `d` (there is at most one when the doc indexes of `l` are distinct). -/
def doc_freq (l : List Posting) (d : Int) : Int :=
  ((l.filter (fun p => decide (p.doc_id = d))).map Posting.freq).sum

/-- The result the specification assigns to the intersection of `first :: rest`: the
postings of `first`, in order, whose doc index occurs in every list of `rest`, each with
the sum of the document's frequencies over all the lists. -/
def expected_intersection (first : List Posting) (rest : List (List Posting)) : List Posting :=
  first.filterMap (fun p =>
    if ∀ l ∈ rest, p.doc_id ∈ l.map Posting.doc_id then
      some ⟨p.doc_id, ((first :: rest).map (fun l => doc_freq l p.doc_id)).sum⟩
    else none)

/-- The hits the specification assigns to a conjunctive query for the stemmed `terms`, as
postings `(doc index, score)` in doc-index order: the documents in which every term
occurs as a content word, each scored with the sum over the terms of the number of
occurrences of the term in the document. -/
def expected_hits (stream : List (List Nat)) (terms : List (List Nat)) : List Posting :=
  (List.range (doc_words stream).length).filterMap (fun d =>
    if ∀ t ∈ terms, 1 ≤ occurrences stream t d then
      some ⟨(d : Int), (terms.map (fun t => (occurrences stream t d : Int))).sum⟩
    else none)

/-- A sample stream: two documents, the first with the content words `cat, cat, dog`,
the second with `dog`. -/
def sample_stream : List (List Nat) :=
  [bytes "A0000000000001", bytes "cat", bytes "cat", bytes "dog", [],
   bytes "A0000000000002", bytes "dog"]

/-- The index files of `sample_stream`. -/
def sample_files : IndexFiles :=
  { ID_FILE := bytes "A0000000000001" ++ [10] ++ bytes "A0000000000002"
    DICT_FILE := key_field (bytes "cat") ++ [0, 0, 0, 0] ++ (key_field (bytes "dog") ++ [0, 0, 0, 2])
    POSTING_FILE := [128, 130, 128, 129, 129, 129] }

/-- The identifiers of the documents of a stream that follow the first one, given the
lines after the first identifier: the line after each blank line (the empty identifier
when the stream ends with a blank line). -/
def doc_ids_after_id : List (List Nat) → List (List Nat)
  | [] => []
  | line :: rest =>
    if line = [] then
      match rest with
      | [] => [[]]
      | next :: rest' => next :: doc_ids_after_id rest'
    else doc_ids_after_id rest

/-- The identifiers of the documents of a stream, in doc-index order. -/
def doc_ids (stream : List (List Nat)) : List (List Nat) :=
  match stream with
  | [] => []
  | line :: rest => line :: doc_ids_after_id rest

/-- The results the specification assigns to a conjunctive query for the stemmed `terms`:
the expected hits, each with the identifier of its document and its score. -/
def expected_results (stream : List (List Nat)) (terms : List (List Nat)) : List SearchResult :=
  (expected_hits stream terms).map (fun p => ⟨(doc_ids stream).getD p.doc_id.toNat [], p.freq⟩)

/-! ## The stemmer, in the words of the specification -/

/-- ASCII case folding: the letters `A`..`Z` become `a`..`z`, every other byte stays. -/
def ascii_lower (w : List Nat) : List Nat :=
  w.map (fun c => if 65 ≤ c ∧ c ≤ 90 then c + 32 else c)

/-- The ordered suffix list of the specification. -/
def spec_suffixes : List (List Nat) :=
  [bytes "able", bytes "ible", bytes "ness", bytes "ment", bytes "ions", bytes "ings",
   bytes "ies", bytes "ion", bytes "ing", bytes "ate", bytes "ize", bytes "ise", bytes "ant",
   bytes "ent", bytes "ful", bytes "ous", bytes "ive", bytes "es", bytes "er", bytes "or",
   bytes "al", bytes "ic", bytes "ly", bytes "ed", bytes "en", bytes "fy", bytes "'s",
   bytes "s"]

/-- A suffix qualifies for a word when the word ends with it and its removal leaves at
least 3 characters. -/
@[reducible] def qualifies (w s : List Nat) : Prop := s <:+ w ∧ 3 ≤ w.length - s.length

/-- The first suffix of the ordered list that qualifies for `w`, if any. -/
def first_qualifying (w : List Nat) : Option (List Nat) :=
  spec_suffixes.find? (fun s => decide (qualifies w s))

/-- The stem the specification assigns to `w`: the lowercased word with the first
qualifying suffix removed, and the lowercased word itself when no suffix qualifies. -/
def stem_spec (w : List Nat) : List Nat :=
  match first_qualifying (ascii_lower w) with
  | some s => (ascii_lower w).rdrop s.length
  | none => ascii_lower w

/-! ## Observations on the decoder and on the printed results -/

/-- The accumulator of the loop of `decode_posting_list` alone: the values `res` holds
each time a byte with the high bit set completes a number, in order, `res` being the
accumulator before the first byte. -/
def completed_numbers : Nat → List Nat → List Nat
  | _, [] => []
  | res, b :: data =>
    if b &&& 128 = 0 then completed_numbers (((res ||| b) <<< 7) % 2 ^ 32) data
    else (res ||| (b ^^^ 128)) :: completed_numbers 0 data

/-- The identifier `printf("%s ...", result->doc_id, ...)` prints for a result of
`calculate_rank`. The 15-byte array `doc_id` of the freshly allocated `SearchResult`
holds the bytes `fread` delivered, after them the bytes `old` that the first
`DOC_ID_SIZE` bytes of the block held before (`malloc` does not clear the block and a
short `fread` does not write them), and NUL at index `DOC_ID_SIZE`; `%s` prints the
array up to its first NUL. -/
def printed_doc_id (old : List Nat) (result : SearchResult) : List Nat :=
  ((result.doc_id ++ old.drop result.doc_id.length).take DOC_ID_SIZE ++ [0]).takeWhile (· ≠ 0)

/-! ## rbtree.c: traversal, insert-or-check, minimum and successor -/

/-- The nodes `inorder_traversal_util(tree, node, func, count, n)` passes to `func`, as
`(key, value)` pairs in calling order, and `*count` afterwards. `count` is a C int; it
is modelled exactly. -/
def inorder_traversal_util : RBTreeNode V → Int → Int → List (List Nat × V) × Int
  | nil, count, _ => ([], count)
  | node key value _ left right, count, n =>
    if count = n then ([], count)
    else
      let visited_left := inorder_traversal_util left count n
      let count := visited_left.2
      let here : List (List Nat × V) × Int :=
        if count < n ∨ n = -1 then ([(key, value)], count + 1) else ([], count)
      let visited_right := inorder_traversal_util right here.2 n
      (visited_left.1 ++ here.1 ++ visited_right.1, visited_right.2)

/-- The nodes `rb_inorder_traversal(tree, func, n)` passes to `func`, in calling order. -/
def rb_inorder_traversal (tree : RBTreeNode V) (n : Int) : List (List Nat × V) :=
  (inorder_traversal_util tree 0 n).1

/-- The descent loop of `rb_insert_or_check`: the ancestors of the sentinel position
where the new node is linked, nearest first, or `none` when a node with `key` is met
(the function then returns 0). -/
def insert_or_check_descend (key : List Nat) :
    RBTreeNode V → List (Frame V) → Option (List (Frame V))
  | nil, path => some path
  | node k v c l r, path =>
    let cmp := strcmp key k
    if cmp = 0 then none
    else if cmp < 0 then insert_or_check_descend key l (⟨k, v, c, Dir.L, r⟩ :: path)
    else insert_or_check_descend key r (⟨k, v, c, Dir.R, l⟩ :: path)

/-- The tree after `rb_insert_or_check(tree, key, value)` and the value returned.
`strncpy` with bound `MAX_KEY_SIZE - 1` and the terminator stored at index
`MAX_KEY_SIZE - 1` leave the first 59 bytes of `key` in `z->key`; the new node is linked
where the descent with the whole `key` ended. `none` stands for undefined behaviour in
the fix-up (a red root). -/
def rb_insert_or_check (tree : RBTreeNode V) (key : List Nat) (value : V) :
    Option (RBTreeNode V × Int) :=
  match insert_or_check_descend key tree [] with
  | none => some (tree, 0)
  | some path =>
    (rb_insert_fixup (node (key.take (MAX_KEY_SIZE - 1)) value RED nil nil) path).map
      (fun t => (t, 1))

/-- The node `rb_minimum(tree, node)` returns: the end of the chain of left children. -/
def rb_minimum : RBTreeNode V → RBTreeNode V
  | nil => nil
  | node k v c nil r => node k v c nil r
  | node _ _ _ (node k v c l r) _ => rb_minimum (node k v c l r)

/-- The node `rb_successor(tree, node)` returns, `none` standing for NULL. A node is
given by the subtree rooted at it and the path of its ancestors (its `parent` links).
The function returns `minNode` right after the test of `node->right`; the walk over
the parents that follows the `return` is never reached, so the ancestors are not
looked at. -/
def rb_successor (node : RBTreeNode V) (_ancestors : List (Frame V)) : Option (RBTreeNode V) :=
  match node with
  | RBTreeNode.nil => none
  | RBTreeNode.node _ _ _ _ right =>
    match right with
    | RBTreeNode.nil => none
    | RBTreeNode.node k v c l r => some (rb_minimum (RBTreeNode.node k v c l r))

/-- A call of one of the two insertion functions. -/
inductive RBCall (V : Type) where
  | insert (key : List Nat) (value : V)
  | insert_or_check (key : List Nat) (value : V)

/-- The tree after one call. -/
def rb_call (tree : RBTreeNode V) : RBCall V → Option (RBTreeNode V)
  | RBCall.insert key value => rb_insert tree key value
  | RBCall.insert_or_check key value => (rb_insert_or_check tree key value).map Prod.fst

/-- The tree after a sequence of calls, in order. -/
def rb_calls : RBTreeNode V → List (RBCall V) → Option (RBTreeNode V)
  | tree, [] => some tree
  | tree, call :: rest =>
    match rb_call tree call with
    | none => none
    | some t => rb_calls t rest

/-! ## Observations on the shape of a tree -/

/-- Number of nodes. -/
def size : RBTreeNode V → Nat
  | nil => 0
  | node _ _ _ l r => size l + size r + 1

/-- Number of nodes on the longest path from the root down to the sentinel. -/
def height : RBTreeNode V → Nat
  | nil => 0
  | node _ _ _ l r => max (height l) (height r) + 1

/-- No red node has a red child. -/
def no_red_red : RBTreeNode V → Prop
  | nil => True
  | node _ _ c l r =>
    (c = RED → color_of l = BLACK ∧ color_of r = BLACK) ∧ no_red_red l ∧ no_red_red r

/-- The number of black nodes on each path from the root down to the sentinel, one entry
per path, leftmost path first. -/
def path_blacks : RBTreeNode V → List Nat
  | nil => [0]
  | node _ _ c l r => (path_blacks l ++ path_blacks r).map (· + (if c = BLACK then 1 else 0))

/-- Number of black nodes on the leftmost path from the root down to the sentinel. -/
def black_height : RBTreeNode V → Nat
  | nil => 0
  | node _ _ c l _ => black_height l + (if c = BLACK then 1 else 0)

/-- The red-black shape, said locally: at every node the two subtrees have the same
black height, and a red node has black children. -/
def red_black : RBTreeNode V → Prop
  | nil => True
  | node _ _ c l r =>
    red_black l ∧ red_black r ∧ black_height l = black_height r ∧
      (c = RED → color_of l = BLACK ∧ color_of r = BLACK)

/-- The ancestors `path` leave the red-black shape intact around a subtree of black
height `h` whose root has colour `c`. -/
def red_black_path : List (Frame V) → Nat → RBColor → Prop
  | [], _, _ => True
  | f :: rest, h, c =>
    red_black f.sibling ∧ black_height f.sibling = h ∧
      (f.color = RED → c = BLACK ∧ color_of f.sibling = BLACK) ∧
      red_black_path rest (h + (if f.color = BLACK then 1 else 0)) f.color

/-! ## linked_list.c: the list with its `tail` pointer -/

/-- Where `list->tail` points: nowhere (NULL), to the node at position `i` of the chain
that starts at `head`, or to a node that has been freed. -/
inductive TailPtr where
  | null
  | node (i : Nat)
  | freed
  deriving DecidableEq

/-- The `LinkedList` struct: the `data` of the nodes reached from `head`, in order, and
the `tail` pointer. -/
structure LinkedList (α : Type) where
  head : List α
  tail : TailPtr

/-- The number of times `current` advances in the loop
`while (current != NULL && current->next != NULL)` of `linkedlist_sort`. -/
def last_position {α : Type} : List α → Nat
  | [] => 0
  | [_] => 0
  | _ :: next :: rest => last_position (next :: rest) + 1

/-- The list after `linkedlist_sort(list)`, `cmp` being `list->cmp`: nothing happens when
`head` is NULL; otherwise the chain is sorted by `merge_sort` and `tail` is set to the
node the final loop stops at. -/
def LinkedList.linkedlist_sort {α : Type} (cmp : α → α → Int) (list : LinkedList α) :
    LinkedList α :=
  match list.head with
  | [] => list
  | first :: rest =>
    let head := merge_sort cmp (first :: rest).length (first :: rest)
    match head with
    | [] => ⟨head, TailPtr.null⟩
    | _ :: _ => ⟨head, TailPtr.node (last_position head)⟩

/-! ## The two-pointer merge, in the words of the specification -/

/-- The linear two-pointer merge of two posting lists sorted by doc index: both lists
are walked from the front, the pointer at the smaller doc index advances, and when the
two doc indexes agree one posting with the summed freq is emitted and both pointers
advance. The first argument bounds the number of steps; the total length of the two
lists suffices, because every step advances a pointer. -/
def two_pointer_merge_steps : Nat → List Posting → List Posting → List Posting
  | 0, _, _ => []
  | _ + 1, [], _ => []
  | _ + 1, _ :: _, [] => []
  | fuel + 1, r :: rs, p :: ps =>
    if r.doc_id = p.doc_id then
      ⟨r.doc_id, r.freq + p.freq⟩ :: two_pointer_merge_steps fuel rs ps
    else if r.doc_id < p.doc_id then two_pointer_merge_steps fuel rs (p :: ps)
    else two_pointer_merge_steps fuel (r :: rs) ps

/-- The linear two-pointer merge of `R` and `P`. -/
def two_pointer_merge (R P : List Posting) : List Posting :=
  two_pointer_merge_steps (R.length + P.length) R P

/-! ## linked_list.c: the operations that move `head` and `tail` -/

/-- The list after `linkedlist_add_head(list, data)`: the new node becomes `head`, so the
node `tail` points to moves one position down the chain; `tail` is set to the new node
only when it was NULL. -/
def LinkedList.linkedlist_add_head {α : Type} (list : LinkedList α) (data : α) :
    LinkedList α :=
  ⟨data :: list.head,
    match list.tail with
    | TailPtr.null => TailPtr.node 0
    | TailPtr.node i => TailPtr.node (i + 1)
    | TailPtr.freed => TailPtr.freed⟩

/-- The list after `linkedlist_add_tail(list, data)`. When `tail` is NULL the new node
becomes `head` and `tail`. Otherwise the new node is stored in `list->tail->next`, which
cuts the chain after the node `tail` points to, and `tail` moves to the new node. Writing
through a `tail` that points to a freed node is undefined behaviour (`none`), and so is a
position at which the chain has no node. -/
def LinkedList.linkedlist_add_tail {α : Type} (list : LinkedList α) (data : α) :
    Option (LinkedList α) :=
  match list.tail with
  | TailPtr.null => some ⟨[data], TailPtr.node 0⟩
  | TailPtr.node i =>
    if i < list.head.length then some ⟨list.head.take (i + 1) ++ [data], TailPtr.node (i + 1)⟩
    else none
  | TailPtr.freed => none

/-- The walk of `linkedlist_delete_node` along the chain: the position of the first node
whose data compares equal to `data` (`cmp(node->data, data) == 0`), if any. -/
def delete_position {α : Type} (cmp : α → α → Int) (data : α) : List α → Option Nat
  | [] => none
  | x :: rest =>
    if cmp x data = 0 then some 0 else (delete_position cmp data rest).map (· + 1)

/-- The list after `linkedlist_delete_node(list, data)` and the value returned, `cmp`
being `list->cmp`. The first matching node is unlinked and freed; `tail` is not
assigned, so it keeps pointing to the same node: to the freed node when that is the one
deleted, one position up the chain when the deleted node stands before it. -/
def LinkedList.linkedlist_delete_node {α : Type} (cmp : α → α → Int)
    (list : LinkedList α) (data : α) : LinkedList α × Bool :=
  match delete_position cmp data list.head with
  | none => (list, false)
  | some j =>
    (⟨list.head.eraseIdx j,
      match list.tail with
      | TailPtr.null => TailPtr.null
      | TailPtr.node i =>
        if i = j then TailPtr.freed else if j < i then TailPtr.node (i - 1) else TailPtr.node i
      | TailPtr.freed => TailPtr.freed⟩, true)

/-- The tail invariant: `tail` is NULL exactly when `head` is NULL, and otherwise `tail`
is the last node reached from `head`. -/
@[reducible] def tail_invariant {α : Type} (list : LinkedList α) : Prop :=
  list.tail = match list.head with
    | [] => TailPtr.null
    | _ :: rest => TailPtr.node rest.length

/-- The value of `posting_cmp(a, b)`, the comparator of the posting lists the indexer
creates: the difference of the doc indexes (a C int, modelled exactly). -/
def posting_cmp (a b : Posting) : Int := a.doc_id - b.doc_id

/-! ## A document with more occurrences than a float counts -/

/-- The word stream of one document `A0000000000001` whose content is the word `cat`
on each of `2^24 + 1 = 16777217` lines. -/
def long_stream : List (List Nat) :=
  bytes "A0000000000001" :: List.replicate 16777217 (bytes "cat")

/-! # Theorems -/

set_option maxRecDepth 100000

/-! ## Variable-byte codec -/

theorem low_byte_facts : ∀ b : Fin 128,
    (b.val &&& 128 = 0) ∧ ((b.val ||| 128) &&& 128 ≠ 0) ∧ ((b.val ||| 128) ^^^ 128 = b.val) := by
  decide

theorem vb_buffer_lt (fuel n : Nat) : ∀ b ∈ vb_buffer fuel n, b < 128 := by
  induction fuel generalizing n with
  | zero => intro b hb; simp [vb_buffer] at hb
  | succ f ih =>
    intro b hb
    unfold vb_buffer at hb
    split at hb
    · rcases List.mem_cons.1 hb with h | h
      · subst h
        have := Nat.and_pow_two_sub_one_eq_mod n 7
        simp only [Nat.reducePow, Nat.add_one_sub_one] at this
        have h2 : n &&& 127 = n % 128 := this
        omega
      · exact ih _ b h
    · simp at hb

theorem and127 (n : Nat) : n &&& 127 = n % 128 := Nat.and_pow_two_sub_one_eq_mod n 7

theorem shr7 (n : Nat) : n >>> 7 = n / 128 := Nat.shiftRight_eq_div_pow n 7

theorem or_low (a b : Nat) (hb : b < 128) : a * 128 ||| b = a * 128 + b := by
  have := Nat.mul_add_lt_is_or (i := 7) (by simpa using hb) a
  simp only [Nat.reducePow] at this
  rw [Nat.mul_comm] at this
  exact this.symm

/-- Continuation bytes only move the accumulator. -/
theorem foldl_decode_low (l : List Nat) (hl : ∀ b ∈ l, b < 128) (s : DecodeState) :
    l.foldl decode_step s =
      { s with res := l.foldl (fun r b => ((r ||| b) <<< 7) % 2 ^ 32) s.res } := by
  induction l generalizing s with
  | nil => simp
  | cons b l ih =>
    have hb : b < 128 := hl b (List.mem_cons_self _ _)
    have h0 : b &&& 128 = 0 := (low_byte_facts ⟨b, hb⟩).1
    simp only [List.foldl_cons]
    rw [ih (fun x hx => hl x (List.mem_cons_of_mem _ hx))]
    simp [decode_step, h0]

theorem accumulate_buffer (fuel n : Nat) (hf : n ≤ fuel) (hn : n * 128 < 2 ^ 32) :
    (vb_buffer fuel n).foldr (fun b r => ((r ||| b) <<< 7) % 2 ^ 32) 0 = n * 128 := by
  induction fuel generalizing n with
  | zero =>
    have : n = 0 := by omega
    subst this; simp [vb_buffer]
  | succ f ih =>
    unfold vb_buffer
    split
    · rename_i hpos
      have hdiv : n >>> 7 ≤ f := by rw [shr7]; omega
      have hsm : (n >>> 7) * 128 < 2 ^ 32 := by rw [shr7]; omega
      simp only [List.foldr_cons]
      rw [ih _ hdiv hsm, and127, shr7, or_low _ _ (Nat.mod_lt _ (by norm_num)), Nat.shiftLeft_eq]
      have : n / 128 * 128 + n % 128 = n := by omega
      rw [this]
      exact Nat.mod_eq_of_lt (by simpa using hn)
    · have : n = 0 := by omega
      subst this; simp

theorem encode_pos (n : Nat) (hn : 0 < n) :
    variable_byte_encode (n : Int) =
      (vb_buffer (n - 1) (n >>> 7)).reverse ++ [(n &&& 127) ||| 128] := by
  obtain ⟨m, rfl⟩ : ∃ m, n = m + 1 := ⟨n - 1, by omega⟩
  simp [variable_byte_encode, vb_buffer]

theorem encode_nonpos (n : Int) (hn : n ≤ 0) : variable_byte_encode n = [128] := by
  have : n.toNat = 0 := by omega
  simp [variable_byte_encode, this, vb_buffer]

theorem decode_emit_res (s : DecodeState) (r x : Nat) :
    decode_emit { s with res := r } x = decode_emit s x := by
  simp [decode_emit]

/-- Running the decoder loop over `variable_byte_encode n` completes exactly the number `n`. -/
theorem decode_encode_nat (n : Nat) (hn : n < 2 ^ 31) (s : DecodeState) (hs : s.res = 0) :
    (variable_byte_encode (n : Int)).foldl decode_step s = decode_emit s n := by
  rcases Nat.eq_zero_or_pos n with h0 | hpos
  · subst h0
    have : variable_byte_encode ((0 : Nat) : Int) = [128] := by decide
    rw [this]
    simp [decode_step, hs]
  · rw [encode_pos n hpos, List.foldl_append,
      foldl_decode_low _ (fun b hb => vb_buffer_lt _ _ b (List.mem_reverse.1 hb)),
      List.foldl_reverse, hs]
    have hacc := accumulate_buffer (n - 1) (n >>> 7) (by rw [shr7]; omega) (by rw [shr7]; omega)
    have hlow : n &&& 127 < 128 := by rw [and127]; exact Nat.mod_lt _ (by norm_num)
    obtain ⟨-, h2, h3⟩ := low_byte_facts ⟨n &&& 127, hlow⟩
    simp only at h2 h3
    simp only [List.foldl_cons, List.foldl_nil, decode_step, h2, if_false, h3]
    rw [decode_emit_res]
    congr 1
    rw [hacc, shr7, or_low _ _ hlow, and127]
    omega

theorem toInt32_of_lt (n : Nat) (hn : n < 2 ^ 31) : toInt32 n = n := by
  unfold toInt32
  have : n % 2 ^ 32 = n := Nat.mod_eq_of_lt (by omega)
  rw [this, if_pos hn]

theorem wrap32_of_range (v : Int) (h0 : 0 ≤ v) (h1 : v < 2 ^ 31) : wrap32 v = v := by
  unfold wrap32 ofInt32
  obtain ⟨n, rfl⟩ := Int.eq_ofNat_of_zero_le h0
  have hn : n < 2 ^ 31 := by exact_mod_cast h1
  have : ((n : Int) % 2 ^ 32).toNat = n := by
    have : (n : Int) % 2 ^ 32 = n := Int.emod_eq_of_lt (by omega) (by omega)
    rw [this]; simp
  rw [this, toInt32_of_lt n hn]

theorem decode_encode_int (n : Int) (h0 : 0 ≤ n) (h1 : n < 2 ^ 31) (s : DecodeState)
    (hs : s.res = 0) :
    (variable_byte_encode n).foldl decode_step s = decode_emit s n.toNat := by
  obtain ⟨k, rfl⟩ := Int.eq_ofNat_of_zero_le h0
  have hk : k < 2 ^ 31 := by exact_mod_cast h1
  simpa using decode_encode_nat k hk s hs

theorem decode_write_postings (L : List Posting) :
    ∀ (prev : Nat) (s : DecodeState), s.res = 0 → s.is_id = true → s.prev_id = prev →
      (∀ p ∈ L, (prev : Int) ≤ p.doc_id) →
      L.Pairwise (fun a b => a.doc_id < b.doc_id) →
      (∀ p ∈ L, p.doc_id < 2 ^ 31 ∧ 0 ≤ p.freq ∧ p.freq < 2 ^ 31) →
      ((write_postings prev L).foldl decode_step s).list = s.list ++ L := by
  induction L with
  | nil => intro prev s _ _ _ _ _ _; simp [write_postings]
  | cons p rest ih =>
    intro prev s hres hid hprev hge hsorted hbound
    obtain ⟨hp1, hp2, hp3⟩ := hbound p (List.mem_cons_self _ _)
    have hge0 := hge p (List.mem_cons_self _ _)
    have hd0 : 0 ≤ p.doc_id := le_trans (Int.ofNat_nonneg _) hge0
    obtain ⟨d, hd⟩ := Int.eq_ofNat_of_zero_le hd0
    have hdlt : d < 2 ^ 31 := by rw [hd] at hp1; exact_mod_cast hp1
    have hprevd : prev ≤ d := by rw [hd] at hge0; exact_mod_cast hge0
    have hdelta : wrap32 (p.doc_id - prev) = ((d - prev : Nat) : Int) := by
      rw [wrap32_of_range _ (by omega) (by omega), hd]; omega
    obtain ⟨f, hf⟩ := Int.eq_ofNat_of_zero_le hp2
    have hflt : f < 2 ^ 31 := by rw [hf] at hp3; exact_mod_cast hp3
    simp only [write_postings, List.foldl_append]
    rw [hdelta, decode_encode_nat _ (by omega) s hres]
    have hs1 : decode_emit s (d - prev) =
        { res := 0, is_id := false, prev_id := d, posting := p.doc_id, list := s.list } := by
      have hmod : (prev + (d - prev)) % 2 ^ 32 = d := by
        rw [Nat.add_sub_cancel' hprevd]; exact Nat.mod_eq_of_lt (by omega)
      simp only [decode_emit, hid, hprev, if_true, hmod, toInt32_of_lt d hdlt, hd]
    rw [hs1, hf, decode_encode_nat _ hflt _ rfl]
    have hs2 : decode_emit
        { res := 0, is_id := false, prev_id := d, posting := p.doc_id, list := s.list } f =
        { res := 0, is_id := true, prev_id := d, posting := p.doc_id,
          list := s.list ++ [p] } := by
      have : (⟨p.doc_id, (f : Int)⟩ : Posting) = p := by
        cases p; simp_all
      simp [decode_emit, toInt32_of_lt f hflt, this]
    rw [hs2]
    have hpw := List.pairwise_cons.1 hsorted
    have := ih d ⟨0, true, d, p.doc_id, s.list ++ [p]⟩ rfl rfl rfl
      (fun q hq => by rw [← hd]; exact le_of_lt (hpw.1 q hq)) hpw.2
      (fun q hq => hbound q (List.mem_cons_of_mem _ hq))
    rw [hd] at this ⊢
    rw [this]; simp

/-- Decoding the bytes written for a posting list of non-negative, strictly ascending doc
indexes and non-negative frequencies, all below `2^31`, gives the list back. -/
theorem decode_write_postings_zero (L : List Posting)
    (hnonneg : ∀ p ∈ L, 0 ≤ p.doc_id)
    (hasc : L.Pairwise (fun a b => a.doc_id < b.doc_id))
    (hint : ∀ p ∈ L, p.doc_id < 2 ^ 31 ∧ 0 ≤ p.freq ∧ p.freq < 2 ^ 31) :
    decode_posting_list (write_postings 0 L) = L := by
  have := decode_write_postings L 0 decode_init rfl rfl rfl
    (fun p hp => by simpa using hnonneg p hp) hasc hint
  simpa [decode_posting_list, decode_init] using this

/-- C2. Variable-byte round trip: for every `int` value `0 <= n < 2^31`, running the
accumulator loop of `decode_posting_list` over the bytes written by
`variable_byte_encode n` (from any state with an empty accumulator) completes exactly
one number, and that number is `n`. -/
theorem variable_byte_round_trip (n : Int) (h0 : 0 ≤ n) (h1 : n < 2 ^ 31)
    (s : DecodeState) (hs : s.res = 0) :
    (variable_byte_encode n).foldl decode_step s = decode_emit s n.toNat ∧
      toInt32 n.toNat = n := by
  refine ⟨decode_encode_int n h0 h1 s hs, ?_⟩
  obtain ⟨k, rfl⟩ := Int.eq_ofNat_of_zero_le h0
  have hk : k < 2 ^ 31 := by exact_mod_cast h1
  simpa using toInt32_of_lt k hk

theorem variable_byte_round_trip_witness :
    (0 : Int) ≤ 300 ∧ (300 : Int) < 2 ^ 31 ∧ decode_init.res = 0 ∧
      ((variable_byte_encode 300).foldl decode_step decode_init
          = decode_emit decode_init (300 : Int).toNat ∧
        toInt32 (300 : Int).toNat = 300) :=
  ⟨by decide, by decide, rfl,
    variable_byte_round_trip 300 (by decide) (by decide) decode_init rfl⟩

/-- C3. Posting-list round trip: for every posting list `L` whose doc indexes are
non-negative and strictly ascending and whose frequencies are positive (all values
being C ints, below `2^31`), `decode_posting_list` applied to the bytes that
`_write_dict_postings` emits for `L` returns exactly `L`. -/
theorem posting_list_round_trip (L : List Posting)
    (hnonneg : ∀ p ∈ L, 0 ≤ p.doc_id)
    (hasc : L.Pairwise (fun a b => a.doc_id < b.doc_id))
    (hfreq : ∀ p ∈ L, 0 < p.freq)
    (hint : ∀ p ∈ L, p.doc_id < 2 ^ 31 ∧ p.freq < 2 ^ 31) :
    decode_posting_list (write_postings 0 L) = L :=
  decode_write_postings_zero L hnonneg hasc
    (fun p hp => ⟨(hint p hp).1, le_of_lt (hfreq p hp), (hint p hp).2⟩)

theorem posting_list_round_trip_witness :
    decode_posting_list (write_postings 0 [⟨0, 2⟩, ⟨5, 1⟩, ⟨300, 200⟩])
      = [⟨0, 2⟩, ⟨5, 1⟩, ⟨300, 200⟩] :=
  posting_list_round_trip [⟨0, 2⟩, ⟨5, 1⟩, ⟨300, 200⟩]
    (by decide) (by decide) (by decide) (by decide)

/-! ## `strcmp` is the lexicographic order on byte strings -/

theorem strcmp_lt_iff (a b : List Nat) : strcmp a b < 0 ↔ a < b := by
  induction a generalizing b with
  | nil =>
    cases b with
    | nil => simp [strcmp]
    | cons y ys => simp [strcmp, List.nil_lt_cons]
  | cons x xs ih =>
    cases b with
    | nil => simp [strcmp]
    | cons y ys =>
      unfold strcmp
      rcases lt_trichotomy x y with h | h | h
      · simp only [h, if_true]
        exact ⟨fun _ => List.Lex.rel h, fun _ => by decide⟩
      · subst h
        simp only [lt_irrefl, if_false, ih ys]
        constructor
        · intro h; exact List.Lex.cons h
        · intro h
          cases h with
          | cons h => exact h
          | rel h => exact absurd h (lt_irrefl _)
      · have hn : ¬ x < y := not_lt.2 (le_of_lt h)
        simp only [hn, if_false, h, if_true]
        constructor
        · intro h0; exact absurd h0 (by decide)
        · intro h0
          cases h0 with
          | cons h1 => exact absurd h (lt_irrefl _)
          | rel h1 => exact absurd h1 hn

theorem strcmp_eq_zero_iff (a b : List Nat) : strcmp a b = 0 ↔ a = b := by
  induction a generalizing b with
  | nil => cases b <;> simp [strcmp]
  | cons x xs ih =>
    cases b with
    | nil => simp [strcmp]
    | cons y ys =>
      unfold strcmp
      rcases lt_trichotomy x y with h | h | h
      · simp [h, ne_of_lt h]
      · subst h; simp [ih ys]
      · have hn : ¬ x < y := not_lt.2 (le_of_lt h)
        simp [hn, h, ne_of_gt h]

theorem strcmp_pos_iff (a b : List Nat) : 0 < strcmp a b ↔ b < a := by
  rcases lt_trichotomy a b with h | h | h
  · have := (strcmp_lt_iff a b).2 h
    exact ⟨fun h0 => absurd (lt_trans h0 this) (lt_irrefl _), fun h0 => absurd (lt_trans h h0) (lt_irrefl _)⟩
  · subst h
    have := (strcmp_eq_zero_iff a a).2 rfl
    simp [this]
  · have h1 : ¬ strcmp a b < 0 := fun h0 => lt_asymm h ((strcmp_lt_iff a b).1 h0)
    have h2 : strcmp a b ≠ 0 := fun h0 => (ne_of_gt h) ((strcmp_eq_zero_iff a b).1 h0)
    constructor
    · intro _; exact h
    · intro _; omega

/-! ## In-order contents under the tree operations -/

@[simp] theorem inorder_set_color (c : RBColor) (t : RBTreeNode V) :
    inorder (set_color c t) = inorder t := by
  cases t <;> simp [set_color, inorder]

@[simp] theorem inorder_left_rotate (t : RBTreeNode V) : inorder (left_rotate t) = inorder t := by
  unfold left_rotate
  split <;> simp [inorder]

@[simp] theorem inorder_right_rotate (t : RBTreeNode V) : inorder (right_rotate t) = inorder t := by
  unfold right_rotate
  split <;> simp [inorder]

theorem inorder_fill (path : List (Frame V)) (t : RBTreeNode V) :
    inorder (fill path t) = path_before path ++ inorder t ++ path_after path := by
  induction path generalizing t with
  | nil => simp [fill, path_before, path_after]
  | cons f path ih =>
    rw [fill, ih]
    cases hd : f.dir <;> simp [Frame.attach, hd, path_before, path_after, inorder]

theorem inorder_fill_congr (path : List (Frame V)) {t₁ t₂ : RBTreeNode V}
    (h : inorder t₁ = inorder t₂) : inorder (fill path t₁) = inorder (fill path t₂) := by
  rw [inorder_fill, inorder_fill, h]

theorem inorder_attach_color (p : Frame V) (c : RBColor) (z : RBTreeNode V) :
    inorder (({ p with color := c } : Frame V).attach z) = inorder (p.attach z) := by
  cases hd : p.dir <;> simp [Frame.attach, hd, inorder]

/-- The fix-up loop only rearranges the tree: the in-order contents stay. -/
theorem inorder_fixup_loop : ∀ (n : Nat) (path : List (Frame V)) (z t : RBTreeNode V),
    path.length ≤ n → rb_insert_fixup_loop z path = some t →
    inorder t = inorder (fill path z) := by
  intro n
  induction n with
  | zero =>
    intro path z t hlen h
    have : path = [] := List.length_eq_zero.1 (Nat.le_zero.1 hlen)
    subst this
    simp [rb_insert_fixup_loop] at h
    simp [fill, h]
  | succ n ih =>
    intro path z t hlen h
    match path, hlen, h with
    | [], _, h =>
      simp [rb_insert_fixup_loop] at h
      simp [fill, h]
    | [p], _, h =>
      unfold rb_insert_fixup_loop at h
      by_cases hp : p.color = RED
      · simp [hp] at h
      · simp [hp] at h
        simp [← h]
    | p :: g :: rest, hlen, h =>
      unfold rb_insert_fixup_loop at h
      by_cases hp : p.color = RED
      · simp only [hp, if_true] at h
        have hrest : rest.length ≤ n := by simp at hlen; omega
        cases hg : g.dir
        · simp only [hg] at h
          by_cases hy : color_of g.sibling = RED
          · simp only [hy, if_true] at h
            rw [ih rest _ t hrest h]
            simp only [fill]
            apply inorder_fill_congr
            cases hd : p.dir <;> simp [Frame.attach, hg, hd, inorder]
          · simp only [hy, if_false, Option.some.injEq] at h
            subst h
            simp only [fill]
            apply inorder_fill_congr
            cases hd : p.dir <;> simp [Frame.attach, hg, hd, inorder]
        · simp only [hg] at h
          by_cases hy : color_of g.sibling = RED
          · simp only [hy, if_true] at h
            rw [ih rest _ t hrest h]
            simp only [fill]
            apply inorder_fill_congr
            cases hd : p.dir <;> simp [Frame.attach, hg, hd, inorder]
          · simp only [hy, if_false, Option.some.injEq] at h
            subst h
            simp only [fill]
            apply inorder_fill_congr
            cases hd : p.dir <;> simp [Frame.attach, hg, hd, inorder]
      · simp only [hp, if_false, Option.some.injEq] at h
        subst h; rfl

/-! ## The fix-up loop is defined on trees with a black root -/

theorem fixup_loop_isSome : ∀ (n : Nat) (path : List (Frame V)) (z : RBTreeNode V),
    path.length ≤ n → path_root_black path → ∃ t, rb_insert_fixup_loop z path = some t := by
  intro n
  induction n with
  | zero =>
    intro path z hlen _
    have : path = [] := List.length_eq_zero.1 (Nat.le_zero.1 hlen)
    subst this
    exact ⟨z, by simp [rb_insert_fixup_loop]⟩
  | succ n ih =>
    intro path z hlen hroot
    match path, hlen, hroot with
    | [], _, _ => exact ⟨z, by simp [rb_insert_fixup_loop]⟩
    | [p], _, hroot =>
      have hp : p.color = BLACK := hroot p (by simp)
      exact ⟨fill [p] z, by simp [rb_insert_fixup_loop, hp]⟩
    | p :: g :: rest, hlen, hroot =>
      have hrest : rest.length ≤ n := by simp at hlen; omega
      have hroot' : path_root_black rest := by
        intro f hf
        apply hroot f
        cases rest with
        | nil => simp at hf
        | cons r rs => simpa [List.getLast?_cons_cons] using hf
      unfold rb_insert_fixup_loop
      by_cases hp : p.color = RED
      · simp only [hp, if_true]
        cases hg : g.dir
        · by_cases hy : color_of g.sibling = RED
          · simp only [hy, if_true]; exact ih rest _ hrest hroot'
          · simp only [hy, if_false]; exact ⟨_, rfl⟩
        · by_cases hy : color_of g.sibling = RED
          · simp only [hy, if_true]; exact ih rest _ hrest hroot'
          · simp only [hy, if_false]; exact ⟨_, rfl⟩
      · simp only [hp, if_false]; exact ⟨_, rfl⟩

theorem insert_descend_getLast (key : List Nat) (t : RBTreeNode V) (path : List (Frame V))
    (hne : path ≠ []) : (insert_descend key t path).getLast? = path.getLast? := by
  induction t generalizing path with
  | nil => rfl
  | node k v c l r ihl ihr =>
    obtain ⟨p, ps, rfl⟩ := List.exists_cons_of_ne_nil hne
    unfold insert_descend
    split
    · rw [ihl _ (by simp), List.getLast?_cons_cons]
    · rw [ihr _ (by simp), List.getLast?_cons_cons]

theorem insert_descend_root_black (key : List Nat) (t : RBTreeNode V)
    (ht : color_of t = BLACK) : path_root_black (insert_descend key t []) := by
  intro f hf
  cases t with
  | nil => simp [insert_descend] at hf
  | node k v c l r =>
    unfold insert_descend at hf
    simp only [color_of] at ht
    split at hf
    · rw [insert_descend_getLast _ _ _ (by simp)] at hf
      simp at hf; subst hf; exact ht
    · rw [insert_descend_getLast _ _ _ (by simp)] at hf
      simp at hf; subst hf; exact ht

/-! ## Where the descent of `rb_insert` ends -/

theorem ordered_node {k : List Nat} {v : V} {c : RBColor} {l r : RBTreeNode V}
    (h : ordered (node k v c l r)) :
    ordered l ∧ ordered r ∧ (∀ a ∈ inorder l, a.1 < k) ∧ (∀ b ∈ inorder r, k < b.1) := by
  unfold ordered at h
  simp only [inorder] at h
  rw [List.pairwise_append] at h
  obtain ⟨hl, hr, hlr⟩ := h
  rw [List.pairwise_cons] at hr
  exact ⟨hl, hr.2, fun a ha => hlr a ha (k, v) (List.mem_cons_self _ _), fun b hb => hr.1 b hb⟩

theorem insert_descend_split (key : List Nat) (t : RBTreeNode V) (path : List (Frame V))
    (ht : ordered t) :
    ∃ l₁ l₂, inorder t = l₁ ++ l₂ ∧ (∀ a ∈ l₁, a.1 ≤ key) ∧ (∀ b ∈ l₂, key < b.1) ∧
      path_before (insert_descend key t path) = path_before path ++ l₁ ∧
      path_after (insert_descend key t path) = l₂ ++ path_after path := by
  induction t generalizing path with
  | nil => exact ⟨[], [], by simp [inorder, insert_descend]⟩
  | node k v c l r ihl ihr =>
    obtain ⟨hol, hor, hlt, hgt⟩ := ordered_node ht
    unfold insert_descend
    by_cases hk : strcmp key k < 0
    · simp only [hk, if_true]
      have hkey : key < k := (strcmp_lt_iff _ _).1 hk
      obtain ⟨l₁, l₂, e, h1, h2, hb, ha⟩ := ihl (⟨k, v, c, Dir.L, r⟩ :: path) hol
      refine ⟨l₁, l₂ ++ (k, v) :: inorder r, ?_, h1, ?_, ?_, ?_⟩
      · simp [inorder, e]
      · intro b hb'
        rcases List.mem_append.1 hb' with h | h
        · exact h2 b h
        · rcases List.mem_cons.1 h with h | h
          · subst h; exact hkey
          · exact lt_trans hkey (hgt b h)
      · rw [hb]; simp [path_before]
      · rw [ha]; simp [path_after]
    · simp only [hk, if_false]
      have hkey : k ≤ key := not_lt.1 (fun h => hk ((strcmp_lt_iff _ _).2 h))
      obtain ⟨l₁, l₂, e, h1, h2, hb, ha⟩ := ihr (⟨k, v, c, Dir.R, l⟩ :: path) hor
      refine ⟨inorder l ++ (k, v) :: l₁, l₂, ?_, ?_, h2, ?_, ?_⟩
      · simp [inorder, e]
      · intro a ha'
        rcases List.mem_append.1 ha' with h | h
        · exact le_of_lt (lt_of_lt_of_le (hlt a h) hkey)
        · rcases List.mem_cons.1 h with h | h
          · subst h; exact hkey
          · exact h1 a h
      · rw [hb]; simp [path_before]
      · rw [ha]; simp [path_after]

theorem color_of_set_color (c : RBColor) (t : RBTreeNode V) (h : t ≠ nil) :
    color_of (set_color c t) = c := by
  cases t with
  | nil => exact absurd rfl h
  | node => rfl

theorem ne_nil_of_inorder {t : RBTreeNode V} (h : inorder t ≠ []) : t ≠ nil := by
  intro e; subst e; exact h rfl

/-- Insertion by `rb_insert` on an ordered tree with a black root: the call is defined, the new pair
enters the in-order sequence after the keys that are not greater and before the
greater ones, and the root is black again. -/
theorem rb_insert_spec (t : RBTreeNode V) (key : List Nat) (value : V)
    (ht : ordered t) (hroot : color_of t = BLACK) (hlen : key.length < MAX_KEY_SIZE) :
    ∃ t' l₁ l₂, rb_insert t key value = some t' ∧ inorder t = l₁ ++ l₂ ∧
      inorder t' = l₁ ++ (key, value) :: l₂ ∧
      (∀ a ∈ l₁, a.1 ≤ key) ∧ (∀ b ∈ l₂, key < b.1) ∧ color_of t' = BLACK := by
  obtain ⟨l₁, l₂, e, h1, h2, hb, ha⟩ := insert_descend_split key t [] ht
  obtain ⟨t₀, h₀⟩ := fixup_loop_isSome _ (insert_descend key t []) (node key value RED nil nil)
    (le_refl _) (insert_descend_root_black key t hroot)
  have hin := inorder_fixup_loop _ _ _ _ (le_refl _) h₀
  rw [inorder_fill, hb, ha] at hin
  simp only [path_before, path_after, inorder, List.nil_append, List.append_nil] at hin
  refine ⟨set_color BLACK t₀, l₁, l₂, ?_, e, ?_, h1, h2, ?_⟩
  · simp [rb_insert, hlen, rb_insert_fixup, h₀]
  · simp [hin]
  · apply color_of_set_color
    apply ne_nil_of_inorder
    rw [hin]; simp

theorem rb_insert_none (t : RBTreeNode V) (key : List Nat) (value : V)
    (hlen : MAX_KEY_SIZE ≤ key.length) : rb_insert t key value = none := by
  simp [rb_insert, not_lt.2 hlen]

/-! ## `rb_search` and in-place updates on ordered trees -/

theorem rb_search_mem (t : RBTreeNode V) (key : List Nat) {k : List Nat} {v : V} {c : RBColor}
    {l r : RBTreeNode V} (h : rb_search t key = node k v c l r) :
    k = key ∧ (key, v) ∈ inorder t := by
  induction t with
  | nil => simp [rb_search] at h
  | node k' v' c' l' r' ihl ihr =>
    unfold rb_search at h
    by_cases h0 : strcmp key k' = 0
    · simp only [h0, ne_eq, not_true_eq_false, if_false] at h
      have hk : key = k' := (strcmp_eq_zero_iff _ _).1 h0
      cases h
      exact ⟨hk.symm, by simp [inorder, hk]⟩
    · simp only [ne_eq, h0, not_false_eq_true, if_true] at h
      by_cases h1 : strcmp key k' < 0
      · simp only [h1, if_true] at h
        obtain ⟨e, hm⟩ := ihl h
        exact ⟨e, by simp [inorder, hm]⟩
      · simp only [h1, if_false] at h
        obtain ⟨e, hm⟩ := ihr h
        exact ⟨e, by simp [inorder, hm]⟩

theorem rb_search_nil (t : RBTreeNode V) (key : List Nat) (ht : ordered t)
    (h : rb_search t key = nil) : ∀ p ∈ inorder t, p.1 ≠ key := by
  induction t with
  | nil => intro p hp; simp [inorder] at hp
  | node k v c l r ihl ihr =>
    obtain ⟨hol, hor, hlt, hgt⟩ := ordered_node ht
    unfold rb_search at h
    by_cases h0 : strcmp key k = 0
    · simp [h0] at h
    · simp only [ne_eq, h0, not_false_eq_true, if_true] at h
      have hne : key ≠ k := fun e => h0 ((strcmp_eq_zero_iff _ _).2 e)
      intro p hp
      simp only [inorder, List.mem_append, List.mem_cons] at hp
      by_cases h1 : strcmp key k < 0
      · simp only [h1, if_true] at h
        have hkey : key < k := (strcmp_lt_iff _ _).1 h1
        rcases hp with hp | hp | hp
        · exact ihl hol h p hp
        · subst hp; exact fun e => hne e.symm
        · exact fun e => absurd (lt_trans hkey (hgt p hp)) (by rw [e]; exact lt_irrefl _)
      · simp only [h1, if_false] at h
        have hkey : k < key := by
          rcases lt_trichotomy key k with h2 | h2 | h2
          · exact absurd ((strcmp_lt_iff _ _).2 h2) h1
          · exact absurd h2 hne
          · exact h2
        rcases hp with hp | hp | hp
        · exact fun e => absurd (lt_trans (hlt p hp) hkey) (by rw [e]; exact lt_irrefl _)
        · subst hp; exact fun e => hne e.symm
        · exact ihr hor h p hp

theorem aupdate_of_not_mem (f : V → V) (key : List Nat) (l : List (List Nat × V))
    (h : ∀ p ∈ l, p.1 ≠ key) : aupdate f key l = l := by
  unfold aupdate
  conv_rhs => rw [← List.map_id l]
  apply List.map_congr_left
  intro p hp
  simp [h p hp]

theorem aupdate_append (f : V → V) (key : List Nat) (l₁ l₂ : List (List Nat × V)) :
    aupdate f key (l₁ ++ l₂) = aupdate f key l₁ ++ aupdate f key l₂ := by
  simp [aupdate]

theorem inorder_update_found (f : V → V) (t : RBTreeNode V) (key : List Nat) (ht : ordered t) :
    inorder (update_found f t key) = aupdate f key (inorder t) := by
  induction t with
  | nil => simp [update_found, inorder, aupdate]
  | node k v c l r ihl ihr =>
    obtain ⟨hol, hor, hlt, hgt⟩ := ordered_node ht
    unfold update_found
    simp only [inorder]
    rw [aupdate_append]
    have hcons : ∀ (p : List Nat × V) (rest : List (List Nat × V)),
        aupdate f key (p :: rest) = (if p.1 = key then (p.1, f p.2) else p) :: aupdate f key rest := by
      intro p rest; simp [aupdate]
    rw [hcons]
    by_cases h0 : strcmp key k = 0
    · have hk : key = k := (strcmp_eq_zero_iff _ _).1 h0
      subst hk
      simp only [h0, ne_eq, not_true_eq_false, if_false, inorder, if_true]
      rw [aupdate_of_not_mem f key _ (fun p hp => ne_of_lt (hlt p hp)),
        aupdate_of_not_mem f key _ (fun p hp => ne_of_gt (hgt p hp))]
    · simp only [ne_eq, h0, not_false_eq_true, if_true]
      have hne : key ≠ k := fun e => h0 ((strcmp_eq_zero_iff _ _).2 e)
      have hne' : ¬ k = key := fun e => hne e.symm
      simp only [hne', if_false]
      by_cases h1 : strcmp key k < 0
      · simp only [h1, if_true, inorder]
        have hkey : key < k := (strcmp_lt_iff _ _).1 h1
        rw [ihl hol, aupdate_of_not_mem f key (inorder r)
          (fun p hp => ne_of_gt (lt_trans hkey (hgt p hp)))]
      · simp only [h1, if_false, inorder]
        have hkey : k < key := by
          rcases lt_trichotomy key k with h2 | h2 | h2
          · exact absurd ((strcmp_lt_iff _ _).2 h2) h1
          · exact absurd h2 hne
          · exact h2
        rw [ihr hor, aupdate_of_not_mem f key (inorder l)
          (fun p hp => ne_of_lt (lt_trans (hlt p hp) hkey))]

theorem color_of_update_found (f : V → V) (t : RBTreeNode V) (key : List Nat) :
    color_of (update_found f t key) = color_of t := by
  cases t with
  | nil => rfl
  | node k v c l r =>
    unfold update_found
    split
    · split <;> rfl
    · rfl

theorem alookup_append_left (key : List Nat) (l₁ l₂ : List (List Nat × List Posting))
    (h : ∀ p ∈ l₂, p.1 ≠ key) : alookup key (l₁ ++ l₂) = alookup key l₁ := by
  induction l₁ with
  | nil =>
    simp only [List.nil_append, alookup]
    induction l₂ with
    | nil => rfl
    | cons p rest ih =>
      simp only [alookup, h p (List.mem_cons_self _ _), if_false]
      exact ih (fun q hq => h q (List.mem_cons_of_mem _ hq))
  | cons p rest ih =>
    show alookup key (p :: (rest ++ l₂)) = alookup key (p :: rest)
    simp only [alookup, ih]

theorem alookup_append_right (key : List Nat) (l₁ l₂ : List (List Nat × List Posting))
    (h : ∀ p ∈ l₁, p.1 ≠ key) : alookup key (l₁ ++ l₂) = alookup key l₂ := by
  induction l₁ with
  | nil => rfl
  | cons p rest ih =>
    show alookup key (p :: (rest ++ l₂)) = alookup key l₂
    simp only [alookup, h p (List.mem_cons_self _ _), if_false]
    exact ih (fun q hq => h q (List.mem_cons_of_mem _ hq))

theorem alookup_of_not_mem (key : List Nat) (l : List (List Nat × List Posting))
    (h : ∀ p ∈ l, p.1 ≠ key) : alookup key l = [] := by
  have := alookup_append_left key [] l h
  simpa [alookup] using this

theorem alookup_of_mem (key : List Nat) (v : List Posting) (l : List (List Nat × List Posting))
    (hl : l.Pairwise (fun a b => a.1 < b.1)) (h : (key, v) ∈ l) : alookup key l = v := by
  induction l with
  | nil => simp at h
  | cons p rest ih =>
    rw [List.pairwise_cons] at hl
    rcases List.mem_cons.1 h with h | h
    · subst h; simp [alookup]
    · have : p.1 ≠ key := ne_of_lt (hl.1 _ h)
      simp only [alookup, this, if_false]
      exact ih hl.2 h

/-- On an ordered tree `rb_search` finds the list the in-order sequence pairs with the key. -/
theorem posting_list_of_eq (t : RBTreeNode (List Posting)) (key : List Nat) (ht : ordered t) :
    posting_list_of t key = alookup key (inorder t) := by
  unfold posting_list_of
  cases h : rb_search t key with
  | nil => simp only; exact (alookup_of_not_mem key _ (rb_search_nil t key ht h)).symm
  | node k v c l r =>
    simp only
    exact (alookup_of_mem key v _ ht (rb_search_mem t key h).2).symm

/-! ## One content line of the indexer -/

theorem alookup_insert_ne (t w : List Nat) (v : List Posting)
    (l₁ l₂ : List (List Nat × List Posting)) (h : t ≠ w) :
    alookup t (l₁ ++ (w, v) :: l₂) = alookup t (l₁ ++ l₂) := by
  induction l₁ with
  | nil =>
    show alookup t ((w, v) :: l₂) = alookup t l₂
    have hwt : ¬ w = t := fun e => h e.symm
    simp only [alookup, hwt, if_false]
  | cons p rest ih =>
    show alookup t (p :: (rest ++ (w, v) :: l₂)) = alookup t (p :: (rest ++ l₂))
    simp only [alookup, ih]

theorem alookup_aupdate_ne (f : List Posting → List Posting) (t w : List Nat)
    (l : List (List Nat × List Posting)) (h : t ≠ w) :
    alookup t (aupdate f w l) = alookup t l := by
  induction l with
  | nil => rfl
  | cons p rest ih =>
    have ih' : alookup t (List.map (fun p => if p.1 = w then (p.1, f p.2) else p) rest)
        = alookup t rest := ih
    by_cases hp : p.1 = w
    · have hwt : ¬ w = t := fun e => h e.symm
      have hpt : ¬ p.1 = t := fun e => hwt (hp.symm.trans e)
      simp only [aupdate, List.map_cons, hp, if_true, alookup, hwt, hpt, if_false]
      exact ih'
    · simp only [aupdate, List.map_cons, hp, if_false, alookup]
      rw [ih']

theorem alookup_aupdate_self (f : List Posting → List Posting) (w : List Nat)
    (l : List (List Nat × List Posting)) (h : ∃ p ∈ l, p.1 = w) :
    alookup w (aupdate f w l) = f (alookup w l) := by
  induction l with
  | nil => obtain ⟨p, hp, _⟩ := h; simp at hp
  | cons p rest ih =>
    have ih' : (∃ p ∈ rest, p.1 = w) →
        alookup w (List.map (fun p => if p.1 = w then (p.1, f p.2) else p) rest)
        = f (alookup w rest) := ih
    by_cases hp : p.1 = w
    · simp [aupdate, alookup, hp]
    · obtain ⟨q, hq, hqw⟩ := h
      have hq' : q ∈ rest := by
        rcases List.mem_cons.1 hq with e | e
        · subst e; exact absurd hqw hp
        · exact e
      simp [aupdate, alookup, hp, ih' ⟨q, hq', hqw⟩]

theorem ordered_aupdate {V : Type} (f : V → V) (w : List Nat) (l : List (List Nat × V))
    (h : l.Pairwise (fun a b => a.1 < b.1)) :
    (aupdate f w l).Pairwise (fun a b => a.1 < b.1) := by
  unfold aupdate
  rw [List.pairwise_map]
  apply h.imp
  intro a b hab
  by_cases ha : a.1 = w <;> by_cases hb : b.1 = w <;> simp [ha, hb] <;> simp_all

theorem pairwise_insert {V : Type} (w : List Nat) (v : V) (l₁ l₂ : List (List Nat × V))
    (h : (l₁ ++ l₂).Pairwise (fun a b => a.1 < b.1))
    (h1 : ∀ a ∈ l₁, a.1 < w) (h2 : ∀ b ∈ l₂, w < b.1) :
    (l₁ ++ (w, v) :: l₂).Pairwise (fun a b => a.1 < b.1) := by
  rw [List.pairwise_append] at h ⊢
  obtain ⟨p1, p2, p12⟩ := h
  refine ⟨p1, List.pairwise_cons.2 ⟨fun b hb => h2 b hb, p2⟩, ?_⟩
  intro a ha b hb
  rcases List.mem_cons.1 hb with e | e
  · subst e; exact h1 a ha
  · exact p12 a ha b e

theorem getLast?_ne_none {α : Type} (l : List α) (h : l ≠ []) : ∃ x, l.getLast? = some x := by
  cases hl : l.getLast? with
  | none => exact absurd (List.getLast?_eq_none_iff.1 hl) h
  | some x => exact ⟨x, rfl⟩

theorem mem_of_getLast? {α : Type} (l : List α) (x : α) (h : l.getLast? = some x) : x ∈ l :=
  List.mem_of_getLast?_eq_some h

theorem index_word_spec (st : Indexer) (w : List Nat) (hinv : indexer_inv st) :
    (w.length < MAX_KEY_SIZE → ∃ st', index_word st w = some st') ∧
    ∀ st', index_word st w = some st' →
      indexer_inv st' ∧ st'.doc_index = st.doc_index ∧ st'.id_list = st.id_list ∧
      ∀ t, alookup t (inorder st'.myTree) =
        if t = w then add_occurrences (alookup w (inorder st.myTree)) st.doc_index 1
        else alookup t (inorder st.myTree) := by
  obtain ⟨hord, hroot, hlists⟩ := hinv
  cases hs : rb_search st.myTree w with
  | nil =>
    have habs := rb_search_nil st.myTree w hord hs
    have hlook : alookup w (inorder st.myTree) = [] := alookup_of_not_mem w _ habs
    by_cases hlen : w.length < MAX_KEY_SIZE
    · obtain ⟨t', l₁, l₂, hins, e, e', h1, h2, hblack⟩ :=
        rb_insert_spec st.myTree w (linkedlist_add_tail [] (⟨st.doc_index, 1⟩ : Posting))
          hord hroot hlen
      have h1' : ∀ a ∈ l₁, a.1 < w := fun a ha =>
        lt_of_le_of_ne (h1 a ha) (habs a (by rw [e]; exact List.mem_append_left _ ha))
      have hstep : index_word st w = some { st with myTree := t' } := by
        simp [index_word, hs, hins]
      refine ⟨fun _ => ⟨_, hstep⟩, ?_⟩
      intro st' hst'
      rw [hstep] at hst'
      cases hst'
      refine ⟨⟨?_, hblack, ?_⟩, rfl, rfl, ?_⟩
      · show (inorder t').Pairwise _
        rw [e']
        exact pairwise_insert w _ l₁ l₂ (e ▸ hord) h1' h2
      · intro p hp
        simp only [e', List.mem_append, List.mem_cons] at hp
        rcases hp with hp | hp | hp
        · exact hlists p (by rw [e]; exact List.mem_append_left _ hp)
        · subst hp; simp [linkedlist_add_tail]
        · exact hlists p (by rw [e]; exact List.mem_append_right _ hp)
      · intro t
        show alookup t (inorder t') = _
        rw [e', hlook]
        by_cases ht : t = w
        · subst ht
          rw [alookup_append_right t _ _ (fun p hp => ne_of_lt (h1' p hp))]
          simp [alookup, add_occurrences, linkedlist_add_tail]
        · simp only [ht, if_false]
          rw [alookup_insert_ne t w _ l₁ l₂ ht, e]
    · have hnone : index_word st w = none := by
        simp [index_word, hs, rb_insert_none _ _ _ (not_lt.1 hlen)]
      exact ⟨fun h => absurd h hlen, fun st' h => by rw [hnone] at h; cases h⟩
  | node k pl c l r =>
    obtain ⟨hk, hmem⟩ := rb_search_mem st.myTree w hs
    have hlook : alookup w (inorder st.myTree) = pl := alookup_of_mem w pl _ hord hmem
    obtain ⟨hne, hle⟩ := hlists (w, pl) hmem
    obtain ⟨last, hlast⟩ := getLast?_ne_none pl hne
    have hlastmem : last ∈ pl := mem_of_getLast? pl last hlast
    have hex : ∃ p ∈ inorder st.myTree, p.1 = w := ⟨(w, pl), hmem, rfl⟩
    have key : ∀ (f : List Posting → List Posting),
        (f pl ≠ [] ∧ ∀ q ∈ f pl, q.doc_id ≤ st.doc_index) →
        f pl = add_occurrences pl st.doc_index 1 →
        ∀ st', st' = { st with myTree := update_found f st.myTree w } →
        indexer_inv st' ∧ st'.doc_index = st.doc_index ∧ st'.id_list = st.id_list ∧
        ∀ t, alookup t (inorder st'.myTree) =
          if t = w then add_occurrences (alookup w (inorder st.myTree)) st.doc_index 1
          else alookup t (inorder st.myTree) := by
      intro f hf hadd st' hst'
      subst hst'
      have hio := inorder_update_found f st.myTree w hord
      refine ⟨⟨?_, ?_, ?_⟩, rfl, rfl, ?_⟩
      · show (inorder _).Pairwise _
        rw [hio]; exact ordered_aupdate f w _ hord
      · show color_of (update_found f st.myTree w) = BLACK
        rw [color_of_update_found]; exact hroot
      · intro p hp
        simp only [hio, aupdate, List.mem_map] at hp
        obtain ⟨q, hq, rfl⟩ := hp
        by_cases hqw : q.1 = w
        · have : q.2 = pl := by
            have := alookup_of_mem q.1 q.2 _ hord hq
            rw [hqw, hlook] at this; exact this.symm
          simp only [hqw, if_true, this]
          exact hf
        · simp only [hqw, if_false]; exact hlists q hq
      · intro t
        show alookup t (inorder (update_found f st.myTree w)) = _
        rw [hio]
        by_cases ht : t = w
        · subst ht
          rw [alookup_aupdate_self f t _ hex, hlook, hadd]; simp
        · rw [alookup_aupdate_ne f t w _ ht]; simp [ht]
    by_cases hd : last.doc_id = st.doc_index
    · have hstep : index_word st w = some
          { st with myTree := update_found (fun l => bump_tail l last) st.myTree w } := by
        simp [index_word, hs, hlast, hd]
      refine ⟨fun _ => ⟨_, hstep⟩, ?_⟩
      intro st' hst'
      rw [hstep] at hst'
      cases hst'
      refine key (fun l => bump_tail l last) ⟨by simp [bump_tail], ?_⟩ ?_ _ rfl
      · intro q hq
        simp only [bump_tail, List.mem_append, List.mem_singleton] at hq
        rcases hq with hq | hq
        · exact hle q (List.mem_of_mem_dropLast hq)
        · subst hq; exact le_of_eq hd
      · simp [bump_tail, add_occurrences, hlast, hd]
    · have hstep : index_word st w = some
          { st with myTree :=
            update_found (fun l => linkedlist_add_tail l ⟨st.doc_index, 1⟩) st.myTree w } := by
        simp [index_word, hs, hlast, hd]
      refine ⟨fun _ => ⟨_, hstep⟩, ?_⟩
      intro st' hst'
      rw [hstep] at hst'
      cases hst'
      refine key (fun l => linkedlist_add_tail l ⟨st.doc_index, 1⟩)
        ⟨by simp [linkedlist_add_tail], ?_⟩ ?_ _ rfl
      · intro q hq
        simp only [linkedlist_add_tail, List.mem_append, List.mem_singleton] at hq
        rcases hq with hq | hq
        · exact hle q hq
        · subst hq; exact le_refl _
      · simp [linkedlist_add_tail, add_occurrences, hlast, hd]

/-! ## The reading loop of the indexer -/

theorem doc_words_after_id_ne_nil (rest : List (List Nat)) : doc_words_after_id rest ≠ [] := by
  cases rest with
  | nil => simp [doc_words_after_id]
  | cons line rest =>
    unfold doc_words_after_id
    split
    · split <;> simp
    · split <;> simp

theorem doc_words_after_id_word (line : List Nat) (rest : List (List Nat)) (h : line ≠ []) :
    ∃ d ds, doc_words_after_id rest = d :: ds ∧
      doc_words_after_id (line :: rest) = (line :: d) :: ds := by
  cases hr : doc_words_after_id rest with
  | nil => exact absurd hr (doc_words_after_id_ne_nil rest)
  | cons d ds =>
    refine ⟨d, ds, rfl, ?_⟩
    conv_lhs => rw [doc_words_after_id.eq_def]
    simp [h, hr]

theorem alookup_mem_or (t : List Nat) (l : List (List Nat × List Posting)) :
    alookup t l = [] ∨ ∃ p ∈ l, p.2 = alookup t l := by
  induction l with
  | nil => left; rfl
  | cons p rest ih =>
    by_cases hp : p.1 = t
    · right; exact ⟨p, List.mem_cons_self _ _, by simp [alookup, hp]⟩
    · rcases ih with h | ⟨q, hq, e⟩
      · left; simp [alookup, hp, h]
      · right; exact ⟨q, List.mem_cons_of_mem _ hq, by simp [alookup, hp, e]⟩

theorem inv_alookup_le (st : Indexer) (hinv : indexer_inv st) (t : List Nat) :
    ∀ q ∈ alookup t (inorder st.myTree), q.doc_id ≤ st.doc_index := by
  rcases alookup_mem_or t (inorder st.myTree) with h | ⟨p, hp, e⟩
  · rw [h]; intro q hq; simp at hq
  · rw [← e]; exact (hinv.2.2 p hp).2

theorem add_occurrences_new (l : List Posting) (D : Int) (c : Nat)
    (h : ∀ q ∈ l, q.doc_id ≤ D) :
    add_occurrences l (D + 1) c = l ++ (if c = 0 then [] else [⟨D + 1, (c : Int)⟩]) := by
  unfold add_occurrences
  by_cases hc : c = 0
  · simp [hc]
  · simp only [hc, if_false]
    cases hl : l.getLast? with
    | none =>
      have : l = [] := List.getLast?_eq_none_iff.1 hl
      simp [this]
    | some last =>
      have hle := h last (List.mem_of_getLast?_eq_some hl)
      have : ¬ last.doc_id = D + 1 := by omega
      simp [this]

theorem add_occurrences_succ (l : List Posting) (D : Int) (c : Nat) :
    add_occurrences (add_occurrences l D 1) D c = add_occurrences l D (c + 1) := by
  by_cases hc : c = 0
  · subst hc; simp [add_occurrences]
  · cases hl : l.getLast? with
    | none =>
      have : l = [] := List.getLast?_eq_none_iff.1 hl
      subst this
      simp [add_occurrences, hc]
      omega
    | some last =>
      by_cases hd : last.doc_id = D
      · simp [add_occurrences, hc, hl, hd, List.getLast?_append]
        omega
      · simp [add_occurrences, hc, hl, hd, List.getLast?_append]
        omega

theorem indexer_loop_spec : ∀ (n : Nat) (rest : List (List Nat)) (st : Indexer),
    rest.length ≤ n → indexer_inv st →
    ((∀ d ∈ doc_words_after_id rest, ∀ w ∈ d, w.length < MAX_KEY_SIZE) →
      ∃ st', indexer_loop st rest = some st') ∧
    ∀ st', indexer_loop st rest = some st' →
      indexer_inv st' ∧
      ∀ t, alookup t (inorder st'.myTree) =
        continue_postings t (alookup t (inorder st.myTree)) st.doc_index
          (doc_words_after_id rest) := by
  intro n
  induction n with
  | zero =>
    intro rest st hlen hinv
    have : rest = [] := List.length_eq_zero.1 (Nat.le_zero.1 hlen)
    subst this
    refine ⟨fun _ => ⟨st, rfl⟩, ?_⟩
    intro st' h
    simp only [indexer_loop, Option.some.injEq] at h
    subst h
    exact ⟨hinv, fun t => by
      simp [doc_words_after_id, continue_postings, add_occurrences, expected_postings]⟩
  | succ n ih =>
    intro rest st hlen hinv
    match rest, hlen with
    | [], _ =>
      refine ⟨fun _ => ⟨st, rfl⟩, ?_⟩
      intro st' h
      simp only [indexer_loop, Option.some.injEq] at h
      subst h
      exact ⟨hinv, fun t => by
        simp [doc_words_after_id, continue_postings, add_occurrences, expected_postings]⟩
    | line :: rest1, hlen =>
      have hlen1 : rest1.length ≤ n := by simp at hlen; omega
      by_cases hline : line = []
      · subst hline
        have hinv_next : ∀ ids, indexer_inv
            { st with id_list := ids, doc_index := st.doc_index + 1 } :=
          fun ids => ⟨hinv.1, hinv.2.1, fun p hp =>
            ⟨(hinv.2.2 p hp).1, fun q hq => by
              have := (hinv.2.2 p hp).2 q hq
              show q.doc_id ≤ st.doc_index + 1
              omega⟩⟩
        match rest1, hlen1 with
        | [], _ =>
          refine ⟨fun _ => ⟨⟨linkedlist_add_tail st.id_list [], st.myTree, st.doc_index + 1⟩,
            by simp [indexer_loop]⟩, ?_⟩
          intro st' h
          simp only [indexer_loop, if_true, Option.some.injEq] at h
          subst h
          refine ⟨hinv_next _, fun t => ?_⟩
          simp [doc_words_after_id, continue_postings, add_occurrences, expected_postings]
        | next :: rest2, hlen1 =>
          have hlen2 : rest2.length ≤ n := by simp at hlen1; omega
          obtain ⟨hdef, hspec⟩ := ih rest2
            { st with id_list := linkedlist_add_tail st.id_list next,
                      doc_index := st.doc_index + 1 } hlen2 (hinv_next _)
          have hdw : doc_words_after_id ([] :: next :: rest2) = [] :: doc_words_after_id rest2 := by
            simp [doc_words_after_id]
          have hloop : indexer_loop st ([] :: next :: rest2) = indexer_loop
              { st with id_list := linkedlist_add_tail st.id_list next,
                        doc_index := st.doc_index + 1 } rest2 := by
            simp [indexer_loop]
          rw [hdw, hloop]
          refine ⟨fun hwf => hdef (fun d hd => hwf d (List.mem_cons_of_mem _ hd)), ?_⟩
          intro st' h
          obtain ⟨hinv', hlook⟩ := hspec st' h
          refine ⟨hinv', fun t => ?_⟩
          rw [hlook t]
          obtain ⟨d1, ds, hds⟩ := List.exists_cons_of_ne_nil (doc_words_after_id_ne_nil rest2)
          rw [hds]
          simp only [continue_postings, expected_postings, List.count_nil]
          rw [add_occurrences_new _ _ _ (inv_alookup_le st hinv t)]
          simp [add_occurrences]
      · obtain ⟨d0, ds, hds, hdw⟩ := doc_words_after_id_word line rest1 hline
        obtain ⟨hdef1, hspec1⟩ := index_word_spec st line hinv
        have hloop : indexer_loop st (line :: rest1) =
            (index_word st line).bind (fun st' => indexer_loop st' rest1) := by
          conv_lhs => rw [indexer_loop.eq_def]
          simp only [hline, if_false]
          cases index_word st line <;> rfl
        rw [hloop, hdw]
        constructor
        · intro hwf
          obtain ⟨st1, hst1⟩ := hdef1 (hwf _ (List.mem_cons_self _ _) line (List.mem_cons_self _ _))
          obtain ⟨hinv1, -, -, -⟩ := hspec1 st1 hst1
          rw [hst1, Option.some_bind]
          apply (ih rest1 st1 hlen1 hinv1).1
          intro d hd w hw
          rw [hds] at hd
          rcases List.mem_cons.1 hd with e | e
          · subst e
            exact hwf _ (List.mem_cons_self _ _) w (List.mem_cons_of_mem _ hw)
          · exact hwf d (List.mem_cons_of_mem _ e) w hw
        · intro st' h
          cases hst1 : index_word st line with
          | none => rw [hst1, Option.none_bind] at h; cases h
          | some st1 =>
            rw [hst1, Option.some_bind] at h
            obtain ⟨hinv1, hdoc, -, hlook1⟩ := hspec1 st1 hst1
            obtain ⟨hinv', hlook⟩ := (ih rest1 st1 hlen1 hinv1).2 st' h
            refine ⟨hinv', fun t => ?_⟩
            rw [hlook t, hds, hlook1 t, hdoc]
            simp only [continue_postings]
            by_cases ht : t = line
            · subst ht
              simp only [if_true, List.count_cons_self]
              rw [add_occurrences_succ]
            · have : ¬ line = t := fun e => ht e.symm
              simp [ht, List.count_cons, this]

/-! ## The dictionary after the reading loop -/

theorem indexer_inv_init (ids : List (List Nat)) : indexer_inv ⟨ids, nil, 0⟩ :=
  ⟨by simp [ordered, inorder], rfl, by intro p hp; simp [inorder] at hp⟩

theorem continue_postings_init (t : List Nat) (docs : List (List (List Nat)))
    (h : docs ≠ []) : continue_postings t [] 0 docs = expected_postings t 0 docs := by
  obtain ⟨d, ds, rfl⟩ := List.exists_cons_of_ne_nil h
  simp only [continue_postings, expected_postings, add_occurrences]
  by_cases hc : d.count t = 0 <;> simp [hc]

/-- The reading loop is defined on every well-formed stream, and whenever it is defined it
ends in a state satisfying the invariant whose dictionary pairs every term with the
posting list the specification assigns to it. -/
theorem indexer_read_spec (stream : List (List Nat)) :
    (well_formed_stream stream → ∃ st, indexer_read stream = some st) ∧
    ∀ st, indexer_read stream = some st →
      indexer_inv st ∧
      ∀ t, alookup t (inorder st.myTree) = expected_postings t 0 (doc_words stream) := by
  cases stream with
  | nil =>
    exact ⟨fun h => absurd rfl h.1, fun st h => by simp [indexer_read] at h⟩
  | cons line rest =>
    obtain ⟨hdef, hspec⟩ := indexer_loop_spec rest.length rest
      ⟨linkedlist_add_tail [] line, nil, 0⟩ (le_refl _) (indexer_inv_init _)
    refine ⟨fun h => hdef h.2, ?_⟩
    intro st hst
    obtain ⟨hinv, hlook⟩ := hspec st hst
    refine ⟨hinv, fun t => ?_⟩
    rw [hlook t]
    simp only [inorder, alookup, doc_words, List.tail_cons]
    exact continue_postings_init t _ (doc_words_after_id_ne_nil rest)

theorem mem_expected_postings (t : List Nat) (docs : List (List (List Nat))) :
    ∀ (first : Int) (p : Posting), p ∈ expected_postings t first docs ↔
      first ≤ p.doc_id ∧ 1 ≤ p.freq ∧
        p.freq = ((docs.getD (p.doc_id - first).toNat []).count t : Nat) := by
  induction docs with
  | nil =>
    intro first p
    simp only [expected_postings, List.not_mem_nil, List.getD_nil, List.count_nil, false_iff]
    rintro ⟨-, h1, h2⟩
    rw [h2] at h1; simp at h1
  | cons d ds ih =>
    intro first p
    simp only [expected_postings, List.mem_append, ih]
    constructor
    · rintro (h | ⟨h1, h2, h3⟩)
      · by_cases hc : d.count t = 0
        · simp [hc] at h
        · simp only [hc, if_false, List.mem_singleton] at h
          subst h
          simp only [le_refl, sub_self, Int.toNat_zero, List.getD_cons_zero, true_and, and_true]
          omega
      · refine ⟨by omega, h2, ?_⟩
        have : (p.doc_id - first).toNat = (p.doc_id - (first + 1)).toNat + 1 := by omega
        rw [this, List.getD_cons_succ]; exact h3
    · rintro ⟨h1, h2, h3⟩
      by_cases he : p.doc_id = first
      · left
        rw [he] at h3
        simp only [sub_self, Int.toNat_zero, List.getD_cons_zero] at h3
        have hc : ¬ d.count t = 0 := by
          intro h0; rw [h0] at h3; rw [h3] at h2; simp at h2
        simp only [hc, if_false, List.mem_singleton]
        cases p; simp_all
      · right
        refine ⟨by omega, h2, ?_⟩
        have : (p.doc_id - first).toNat = (p.doc_id - (first + 1)).toNat + 1 := by omega
        rw [this, List.getD_cons_succ] at h3; exact h3

theorem expected_postings_sorted (t : List Nat) (docs : List (List (List Nat))) :
    ∀ first : Int, (expected_postings t first docs).Pairwise (fun a b => a.doc_id < b.doc_id) := by
  induction docs with
  | nil => intro first; simp [expected_postings]
  | cons d ds ih =>
    intro first
    simp only [expected_postings]
    rw [List.pairwise_append]
    refine ⟨?_, ih _, ?_⟩
    · by_cases hc : d.count t = 0 <;> simp [hc]
    · intro a ha b hb
      have hb' := ((mem_expected_postings t ds (first + 1) b).1 hb).1
      by_cases hc : d.count t = 0
      · simp [hc] at ha
      · simp only [hc, if_false, List.mem_singleton] at ha
        subst ha
        show first < b.doc_id
        omega

theorem pairwise_lt_nodup (l : List Posting)
    (h : l.Pairwise (fun a b => a.doc_id < b.doc_id)) : (l.map Posting.doc_id).Nodup := by
  unfold List.Nodup
  rw [List.pairwise_map]
  exact h.imp (fun hab => ne_of_lt hab)

/-- The value of a dictionary entry is the list `alookup` returns for its key. -/
theorem entry_eq_alookup (t : RBTreeNode (List Posting)) (ht : ordered t)
    (p : List Nat × List Posting) (hp : p ∈ inorder t) : p.2 = alookup p.1 (inorder t) :=
  (alookup_of_mem p.1 p.2 _ ht hp).symm

theorem length_filter_le_one (l : List Posting) (P : Posting → Bool) (d : Int)
    (hs : l.Pairwise (fun a b => a.doc_id < b.doc_id))
    (hP : ∀ q, P q = true → q.doc_id = d) :
    (l.filter P).length = if ∃ q ∈ l, P q = true then 1 else 0 := by
  induction l with
  | nil => simp
  | cons a rest ih =>
    rw [List.pairwise_cons] at hs
    by_cases ha : P a = true
    · have hrest : ∀ q ∈ rest, ¬ P q = true := by
        intro q hq hPq
        have h1 := hs.1 q hq
        rw [hP a ha, hP q hPq] at h1
        exact lt_irrefl _ h1
      have hnil : rest.filter P = [] := by
        rw [List.filter_eq_nil_iff]; exact hrest
      have hex : ∃ q ∈ a :: rest, P q = true := ⟨a, List.mem_cons_self _ _, ha⟩
      simp only [List.filter_cons, ha, if_true, List.length_cons, hnil, List.length_nil,
        if_pos hex]
    · have hiff : (∃ q ∈ a :: rest, P q = true) ↔ ∃ q ∈ rest, P q = true := by
        constructor
        · rintro ⟨q, hq, hPq⟩
          rcases List.mem_cons.1 hq with e | e
          · subst e; exact absurd hPq ha
          · exact ⟨q, e, hPq⟩
        · rintro ⟨q, hq, hPq⟩; exact ⟨q, List.mem_cons_of_mem _ hq, hPq⟩
      simp only [List.filter_cons, ha, if_false, Bool.false_eq_true]
      rw [ih hs.2]
      by_cases hex : ∃ q ∈ rest, P q = true
      · rw [if_pos hex, if_pos (hiff.2 hex)]
      · rw [if_neg hex, if_neg (fun h => hex (hiff.1 h))]

theorem sum_indicator_eq_length_filter {α : Type} (l : List α) (f : α → Nat) (P : α → Bool)
    (h : ∀ e ∈ l, f e = if P e = true then 1 else 0) :
    (l.map f).sum = (l.filter P).length := by
  induction l with
  | nil => rfl
  | cons a rest ih =>
    simp only [List.map_cons, List.sum_cons, List.filter_cons]
    rw [ih (fun e he => h e (List.mem_cons_of_mem _ he)), h a (List.mem_cons_self _ _)]
    by_cases ha : P a = true <;> simp [ha]; omega

theorem keys_nodup {V : Type} (l : List (List Nat × V))
    (h : l.Pairwise (fun a b => a.1 < b.1)) : (l.map Prod.fst).Nodup := by
  unfold List.Nodup
  rw [List.pairwise_map]
  exact h.imp (fun hab => ne_of_lt hab)

theorem mem_keys_iff (st : Indexer) (hinv : indexer_inv st) (t : List Nat) :
    t ∈ (inorder st.myTree).map Prod.fst ↔ alookup t (inorder st.myTree) ≠ [] := by
  constructor
  · intro h
    obtain ⟨p, hp, rfl⟩ := List.mem_map.1 h
    rw [← entry_eq_alookup _ hinv.1 p hp]
    exact (hinv.2.2 p hp).1
  · intro h
    by_contra hn
    apply h
    apply alookup_of_not_mem
    intro p hp e
    exact hn (List.mem_map.2 ⟨p, hp, e⟩)

/-- C4. For every input word stream on which the indexer runs (it runs on every stream
with a first line and content words shorter than 60 bytes), after the reading loop the
posting list of every dictionary term is non-empty and strictly ascending in doc
index, so the doc indexes within a list are pairwise distinct. -/
theorem posting_lists_strictly_ascending (stream : List (List Nat)) :
    (well_formed_stream stream → ∃ st, indexer_read stream = some st) ∧
    ∀ st, indexer_read stream = some st →
      ∀ p ∈ inorder st.myTree,
        p.2 ≠ [] ∧ p.2.Pairwise (fun a b => a.doc_id < b.doc_id) ∧
          (p.2.map Posting.doc_id).Nodup := by
  obtain ⟨hdef, hspec⟩ := indexer_read_spec stream
  refine ⟨hdef, ?_⟩
  intro st hst p hp
  obtain ⟨hinv, hlook⟩ := hspec st hst
  have hsorted : p.2.Pairwise (fun a b => a.doc_id < b.doc_id) := by
    rw [entry_eq_alookup _ hinv.1 p hp, hlook]
    exact expected_postings_sorted _ _ _
  exact ⟨(hinv.2.2 p hp).1, hsorted, pairwise_lt_nodup _ hsorted⟩

/-- C5. For every input word stream on which the indexer runs, every term `t` and every
posting `p`: the list built for `t` contains `p` exactly when `p.doc_id` is a document
index in which `t` occurs `p.freq >= 1` times as a content line; hence for every
document `d` and every `k` the number of postings `(d, f)` with `f >= k` over all
dictionary terms equals the number of distinct terms occurring at least `k` times in
`d`. -/
theorem postings_count_occurrences (stream : List (List Nat)) :
    (well_formed_stream stream → ∃ st, indexer_read stream = some st) ∧
    ∀ st, indexer_read stream = some st →
      (∀ (t : List Nat) (p : Posting), p ∈ posting_list_of st.myTree t ↔
        0 ≤ p.doc_id ∧ 1 ≤ p.freq ∧ p.freq = (occurrences stream t p.doc_id.toNat : Nat)) ∧
      (∀ d k : Nat,
        ((inorder st.myTree).map (fun e =>
            (e.2.filter (fun q => decide (q.doc_id = (d : Int)) && decide ((k : Int) ≤ q.freq))).length)).sum
          = (((doc_words stream).getD d []).dedup.filter
              (fun t => decide (k ≤ occurrences stream t d))).length) := by
  obtain ⟨hdef, hspec⟩ := indexer_read_spec stream
  refine ⟨hdef, ?_⟩
  intro st hst
  obtain ⟨hinv, hlook⟩ := hspec st hst
  have hmem : ∀ (t : List Nat) (p : Posting), p ∈ alookup t (inorder st.myTree) ↔
      0 ≤ p.doc_id ∧ 1 ≤ p.freq ∧ p.freq = (occurrences stream t p.doc_id.toNat : Nat) := by
    intro t p
    rw [hlook, mem_expected_postings]
    simp [occurrences]
  constructor
  · intro t p
    rw [posting_list_of_eq _ _ hinv.1]
    exact hmem t p
  · intro d k
    have hentry : ∀ e ∈ inorder st.myTree,
        (e.2.filter (fun q => decide (q.doc_id = (d : Int)) && decide ((k : Int) ≤ q.freq))).length
          = if (decide (1 ≤ occurrences stream e.1 d) && decide (k ≤ occurrences stream e.1 d)) = true
            then 1 else 0 := by
      intro e he
      have hsorted : e.2.Pairwise (fun a b => a.doc_id < b.doc_id) := by
        rw [entry_eq_alookup _ hinv.1 e he, hlook]
        exact expected_postings_sorted _ _ _
      rw [length_filter_le_one e.2 _ (d : Int) hsorted (by
        intro q hq
        simp only [Bool.and_eq_true, decide_eq_true_eq] at hq
        exact hq.1)]
      have hiff : (∃ q ∈ e.2, (decide (q.doc_id = (d : Int)) && decide ((k : Int) ≤ q.freq)) = true) ↔
          (decide (1 ≤ occurrences stream e.1 d) && decide (k ≤ occurrences stream e.1 d)) = true := by
        simp only [Bool.and_eq_true, decide_eq_true_eq]
        rw [entry_eq_alookup _ hinv.1 e he]
        constructor
        · rintro ⟨q, hq, hqd, hqk⟩
          obtain ⟨h0, h1, h2⟩ := (hmem e.1 q).1 hq
          rw [hqd] at h2
          simp only [Int.toNat_ofNat] at h2
          rw [h2] at h1 hqk
          exact ⟨by exact_mod_cast h1, by exact_mod_cast hqk⟩
        · rintro ⟨h1, hk⟩
          refine ⟨⟨d, occurrences stream e.1 d⟩, (hmem e.1 _).2 ⟨?_, ?_, ?_⟩, rfl, ?_⟩
          · simp
          · show (1 : Int) ≤ (occurrences stream e.1 d : Nat); exact_mod_cast h1
          · simp
          · show (k : Int) ≤ (occurrences stream e.1 d : Nat); exact_mod_cast hk
      by_cases hex : (decide (1 ≤ occurrences stream e.1 d) && decide (k ≤ occurrences stream e.1 d)) = true
      · rw [if_pos hex, if_pos (hiff.2 hex)]
      · rw [if_neg hex, if_neg (fun h => hex (hiff.1 h))]
    rw [sum_indicator_eq_length_filter _ _
      (fun e => decide (1 ≤ occurrences stream e.1 d) && decide (k ≤ occurrences stream e.1 d)) hentry]
    have hlen : ((inorder st.myTree).filter
        (fun e => decide (1 ≤ occurrences stream e.1 d) && decide (k ≤ occurrences stream e.1 d))).length
        = (((inorder st.myTree).map Prod.fst).filter
        (fun t => decide (1 ≤ occurrences stream t d) && decide (k ≤ occurrences stream t d))).length := by
      rw [List.filter_map, List.length_map]; rfl
    rw [hlen]
    apply List.Perm.length_eq
    rw [List.perm_ext_iff_of_nodup ((keys_nodup _ hinv.1).filter _)
      ((List.nodup_dedup _).filter _)]
    intro t
    simp only [List.mem_filter, List.mem_dedup, Bool.and_eq_true, decide_eq_true_eq]
    constructor
    · rintro ⟨-, h1, hk⟩
      refine ⟨?_, hk⟩
      unfold occurrences at h1
      exact List.count_pos_iff.1 h1
    · rintro ⟨hmemd, hk⟩
      have h1 : 1 ≤ occurrences stream t d := List.count_pos_iff.2 hmemd
      refine ⟨?_, h1, hk⟩
      rw [mem_keys_iff st hinv]
      intro hnil
      have : (⟨d, occurrences stream t d⟩ : Posting) ∈ alookup t (inorder st.myTree) :=
        (hmem t _).2 ⟨by simp, by
          show (1 : Int) ≤ (occurrences stream t d : Nat); exact_mod_cast h1, by simp⟩
      rw [hnil] at this
      simp at this

/-! ## The writer -/

theorem posting_bytes_append (l₁ l₂ : List (List Nat × List Posting)) :
    posting_bytes (l₁ ++ l₂) = posting_bytes l₁ ++ posting_bytes l₂ := by
  simp [posting_bytes]

theorem posting_bytes_cons (e : List Nat × List Posting) (l : List (List Nat × List Posting)) :
    posting_bytes (e :: l) = entry_bytes e ++ posting_bytes l := by
  simp [posting_bytes]

theorem dict_records_append (l₁ l₂ : List (List Nat × List Posting)) (s : Int) :
    dict_records s (l₁ ++ l₂) =
      dict_records s l₁ ++ dict_records (s + ((posting_bytes l₁).length : Int)) l₂ := by
  induction l₁ generalizing s with
  | nil => simp [dict_records, posting_bytes]
  | cons e rest ih =>
    show dict_records s (e :: (rest ++ l₂)) = _
    simp only [dict_records, ih, posting_bytes_cons, List.length_append,
      List.append_assoc, Nat.cast_add, add_assoc]

/-- The recursive writer emits the entries in in-order sequence. -/
theorem write_dict_postings_eq (t : RBTreeNode (List Posting)) (w : Writer) :
    _write_dict_postings t w =
      ⟨w.fp_post ++ posting_bytes (inorder t),
       w.fp_dict ++ dict_records w.byte_offset (inorder t),
       w.byte_offset + ((posting_bytes (inorder t)).length : Int)⟩ := by
  induction t generalizing w with
  | nil => simp [_write_dict_postings, inorder, posting_bytes, dict_records]
  | node k v c l r ihl ihr =>
    simp only [_write_dict_postings, ihl, ihr, inorder, posting_bytes_append, posting_bytes_cons,
      dict_records_append, dict_records, entry_bytes, List.append_assoc, List.length_append,
      Nat.cast_add, add_assoc]

theorem key_field_length (key : List Nat) : (key_field key).length = 60 := by
  simp [key_field, MAX_KEY_SIZE]

theorem write_int_length (v : Int) : (write_int_big_endian v).length = 4 := by
  simp [write_int_big_endian]

theorem dict_records_length (es : List (List Nat × List Posting)) (s : Int) :
    (dict_records s es).length = 64 * es.length := by
  induction es generalizing s with
  | nil => rfl
  | cons e rest ih =>
    simp only [dict_records, List.length_append, key_field_length, write_int_length, ih,
      List.length_cons]
    omega

/-- Record `i` of the dictionary file holds the key field of entry `i` and the number of
postings bytes written before it. -/
theorem dict_records_at (es : List (List Nat × List Posting)) :
    ∀ (s : Int) (i : Nat) (e : List Nat × List Posting), es[i]? = some e →
      fread_at (dict_records s es) (i * 64) 60 = key_field e.1 ∧
      fread_at (dict_records s es) (i * 64 + 60) 4 =
        write_int_big_endian (s + ((posting_bytes (es.take i)).length : Int)) := by
  induction es with
  | nil => intro s i e h; simp at h
  | cons e₀ rest ih =>
    intro s i e h
    cases i with
    | zero =>
      simp only [List.getElem?_cons_zero, Option.some.injEq] at h
      subst h
      simp only [dict_records, fread_at, Nat.zero_mul, List.drop_zero, List.take_zero,
        posting_bytes, List.map_nil, List.flatten_nil, List.length_nil, Nat.cast_zero, add_zero,
        Nat.zero_add]
      constructor
      · rw [List.append_assoc, ← key_field_length e₀.1, List.take_left]
      · rw [List.append_assoc, ← key_field_length e₀.1, List.drop_left,
          ← write_int_length s, List.take_left]
    | succ i =>
      simp only [List.getElem?_cons_succ] at h
      obtain ⟨h1, h2⟩ := ih (s + ((entry_bytes e₀).length : Int)) i e h
      have hlen : (key_field e₀.1 ++ write_int_big_endian s).length = 64 := by
        simp [key_field_length, write_int_length]
      have hd : ∀ k, List.drop ((i + 1) * 64 + k)
          (dict_records s (e₀ :: rest)) =
          List.drop (i * 64 + k) (dict_records (s + ((entry_bytes e₀).length : Int)) rest) := by
        intro k
        simp only [dict_records]
        have : (i + 1) * 64 + k = (key_field e₀.1 ++ write_int_big_endian s).length + (i * 64 + k) := by
          rw [hlen]; ring
        rw [this, List.drop_append]
      constructor
      · have := hd 0
        simp only [Nat.add_zero] at this
        simp only [fread_at] at h1 ⊢
        rw [this, h1]
      · simp only [fread_at] at h2 ⊢
        rw [hd 60, h2]
        simp only [List.take_succ_cons, posting_bytes_cons, List.length_append, Nat.cast_add,
          add_assoc]

/-! ## Reading the written files back -/

theorem takeWhile_key_field (key : List Nat) (hc : is_c_string key)
    (hlen : key.length < MAX_KEY_SIZE) :
    (key_field key).takeWhile (· ≠ 0) = key := by
  have hk : key_field key = key ++ List.replicate (MAX_KEY_SIZE - key.length) 0 := by
    unfold key_field
    rw [List.take_append_eq_append_take, List.take_of_length_le (le_of_lt hlen),
      List.take_replicate]
    congr 2
    omega
  rw [hk]
  obtain ⟨m, hm⟩ : ∃ m, MAX_KEY_SIZE - key.length = m + 1 := ⟨MAX_KEY_SIZE - key.length - 1, by omega⟩
  rw [hm]
  clear hk hm hlen
  induction key with
  | nil => simp [List.replicate_succ]
  | cons b rest ih =>
    have hb : b ≠ 0 := hc b (List.mem_cons_self _ _)
    simp only [List.cons_append, List.takeWhile_cons, ne_eq, hb, not_false_eq_true,
      decide_True, if_true]
    rw [ih (fun x hx => hc x (List.mem_cons_of_mem _ hx))]

theorem shl_eq_mul (x k : Nat) : x <<< k = 2 ^ k * x := by
  rw [Nat.shiftLeft_eq, Nat.mul_comm]

theorem read_write_pattern (p : Nat) (hp : p < 2 ^ 32) :
    (((p >>> 24) &&& 0xFF) <<< 24) ||| (((p >>> 16) &&& 0xFF) <<< 16)
      ||| (((p >>> 8) &&& 0xFF) <<< 8) ||| (p &&& 0xFF) = p := by
  have m : ∀ x : Nat, x &&& 0xFF = x % 256 := fun x => Nat.and_pow_two_sub_one_eq_mod x 8
  simp only [m, Nat.shiftRight_eq_div_pow, shl_eq_mul]
  have e1 : 2 ^ 24 * (p / 2 ^ 24 % 256) ||| 2 ^ 16 * (p / 2 ^ 16 % 256)
      = 2 ^ 24 * (p / 2 ^ 24 % 256) + 2 ^ 16 * (p / 2 ^ 16 % 256) :=
    (Nat.mul_add_lt_is_or (i := 24) (by omega) _).symm
  rw [e1]
  have e2 : 2 ^ 24 * (p / 2 ^ 24 % 256) + 2 ^ 16 * (p / 2 ^ 16 % 256)
      = 2 ^ 16 * (256 * (p / 2 ^ 24 % 256) + p / 2 ^ 16 % 256) := by omega
  rw [e2, ← Nat.mul_add_lt_is_or (i := 16) (by omega)]
  have e3 : 2 ^ 16 * (256 * (p / 2 ^ 24 % 256) + p / 2 ^ 16 % 256) + 2 ^ 8 * (p / 2 ^ 8 % 256)
      = 2 ^ 8 * (256 * (256 * (p / 2 ^ 24 % 256) + p / 2 ^ 16 % 256) + p / 2 ^ 8 % 256) := by
    omega
  rw [e3, ← Nat.mul_add_lt_is_or (i := 8) (by omega)]
  omega

theorem ofInt32_lt (v : Int) : ofInt32 v < 2 ^ 32 := by
  unfold ofInt32
  have h1 : 0 ≤ v % 2 ^ 32 := Int.emod_nonneg _ (by norm_num)
  have h2 : v % 2 ^ 32 < 2 ^ 32 := Int.emod_lt_of_pos _ (by norm_num)
  omega

/-- Reading with `read_int_big_endian` returns what `write_int_big_endian` wrote, as a 32-bit int. -/
theorem read_write_int (v : Int) : read_int_big_endian (write_int_big_endian v) = wrap32 v := by
  unfold read_int_big_endian write_int_big_endian wrap32
  simp only [List.getD_cons_zero, List.getD_cons_succ]
  rw [read_write_pattern _ (ofInt32_lt v)]

theorem read_write_int_of_range (v : Int) (h0 : 0 ≤ v) (h1 : v < 2 ^ 31) :
    read_int_big_endian (write_int_big_endian v) = v := by
  rw [read_write_int, wrap32_of_range v h0 h1]

theorem posting_bytes_at (es : List (List Nat × List Posting)) :
    ∀ (i : Nat) (e : List Nat × List Posting), es[i]? = some e →
      fread_at (posting_bytes es) (posting_bytes (es.take i)).length (entry_bytes e).length
        = entry_bytes e := by
  induction es with
  | nil => intro i e h; simp at h
  | cons e₀ rest ih =>
    intro i e h
    cases i with
    | zero =>
      simp only [List.getElem?_cons_zero, Option.some.injEq] at h
      subst h
      simp [fread_at, posting_bytes_cons, posting_bytes]
    | succ i =>
      simp only [List.getElem?_cons_succ] at h
      have := ih i e h
      simp only [fread_at] at this ⊢
      simp only [List.take_succ_cons, posting_bytes_cons, List.length_append]
      rw [List.drop_append, this]

theorem posting_bytes_take_succ (es : List (List Nat × List Posting)) (i : Nat)
    (e : List Nat × List Posting) (h : es[i]? = some e) :
    posting_bytes (es.take (i + 1)) = posting_bytes (es.take i) ++ entry_bytes e := by
  induction es generalizing i with
  | nil => simp at h
  | cons e₀ rest ih =>
    cases i with
    | zero =>
      simp only [List.getElem?_cons_zero, Option.some.injEq] at h
      subst h
      simp [posting_bytes]
    | succ i =>
      simp only [List.getElem?_cons_succ] at h
      simp only [List.take_succ_cons, posting_bytes_cons, ih i h, List.append_assoc]

theorem posting_bytes_take_le (es : List (List Nat × List Posting)) (i : Nat) :
    (posting_bytes (es.take i)).length ≤ (posting_bytes es).length := by
  conv_rhs => rw [← List.take_append_drop i es, posting_bytes_append]
  simp

theorem indexer_main_eq (stream : List (List Nat)) (st : Indexer)
    (h : indexer_read stream = some st) :
    indexer_main stream = some ⟨save_id_list st.id_list, dict_records 0 (inorder st.myTree),
      posting_bytes (inorder st.myTree)⟩ := by
  simp [indexer_main, h, write_dict_postings, write_dict_postings_eq]

theorem read_word_records (es : List (List Nat × List Posting)) (s : Int) (i : Nat)
    (e : List Nat × List Posting) (h : es[i]? = some e) (hc : is_c_string e.1)
    (hlen : e.1.length < MAX_KEY_SIZE) : read_word (dict_records s es) i = e.1 := by
  unfold read_word
  have : i * (MAX_KEY_SIZE + OFFSET_SIZE) = i * 64 := rfl
  rw [this, show MAX_KEY_SIZE = 60 from rfl, (dict_records_at es s i e h).1]
  exact takeWhile_key_field e.1 hc hlen

theorem read_offset_records (es : List (List Nat × List Posting)) (i : Nat)
    (e : List Nat × List Posting) (h : es[i]? = some e)
    (hsize : (posting_bytes es).length < 2 ^ 31) :
    read_offset (dict_records 0 es) i = ((posting_bytes (es.take i)).length : Int) := by
  unfold read_offset
  have : i * (MAX_KEY_SIZE + OFFSET_SIZE) + MAX_KEY_SIZE = i * 64 + 60 := rfl
  rw [this, show OFFSET_SIZE = 4 from rfl, (dict_records_at es 0 i e h).2, zero_add]
  have hle := posting_bytes_take_le es i
  exact read_write_int_of_range _ (by omega) (by omega)

theorem variable_byte_encode_length_pos (n : Int) : 0 < (variable_byte_encode n).length := by
  unfold variable_byte_encode
  simp only [List.length_reverse]
  split
  · rename_i h
    split at h
    · cases h
    · rename_i h2
      exact absurd (by rw [h]; rfl) h2
  · simp

theorem entry_bytes_length_pos (e : List Nat × List Posting) (h : e.2 ≠ []) :
    0 < (entry_bytes e).length := by
  obtain ⟨p, rest, hp⟩ := List.exists_cons_of_ne_nil h
  unfold entry_bytes
  rw [hp]
  simp only [write_postings, List.length_append]
  have := variable_byte_encode_length_pos (wrap32 (p.doc_id - 0))
  omega

/-- Every dictionary key is a content word of the stream. -/
theorem key_is_word (stream : List (List Nat)) (st : Indexer)
    (h : indexer_read stream = some st) (p : List Nat × List Posting)
    (hp : p ∈ inorder st.myTree) : ∃ d ∈ doc_words stream, p.1 ∈ d := by
  obtain ⟨hinv, hlook⟩ := (indexer_read_spec stream).2 st h
  have hne := (hinv.2.2 p hp).1
  rw [entry_eq_alookup _ hinv.1 p hp, hlook] at hne
  obtain ⟨q, rest, hq⟩ := List.exists_cons_of_ne_nil hne
  have hqm : q ∈ expected_postings p.1 0 (doc_words stream) := by rw [hq]; simp
  obtain ⟨-, h1, h2⟩ := (mem_expected_postings _ _ _ _).1 hqm
  have hpos : 0 < ((doc_words stream).getD (q.doc_id - 0).toNat []).count p.1 := by
    rw [h2] at h1; exact_mod_cast h1
  have hmem := List.count_pos_iff.1 hpos
  refine ⟨_, ?_, hmem⟩
  rw [List.getD_eq_getElem?_getD] at hmem ⊢
  cases hg : (doc_words stream)[(q.doc_id - 0).toNat]? with
  | none => rw [hg] at hmem; simp at hmem
  | some d => simp only [Option.getD_some]; exact List.getElem?_mem hg

theorem div_64 (n : Nat) : 64 * n / 64 = n := by omega

/-- C6. For every input word stream whose content words are C strings shorter than 60
bytes, the indexer writes its dictionary, and the terms of the records of the
dictionary file are strictly ascending in the byte-lexicographic order of `strcmp`
(so no term is written twice). -/
theorem dictionary_terms_strictly_ascending (stream : List (List Nat))
    (hwf : well_formed_stream stream)
    (hcs : ∀ d ∈ doc_words stream, ∀ w ∈ d, is_c_string w) :
    ∃ files, indexer_main stream = some files ∧
      ∀ i j, i < j → j < files.DICT_FILE.length / 64 →
        strcmp (read_word files.DICT_FILE i) (read_word files.DICT_FILE j) < 0 := by
  obtain ⟨st, hst⟩ := (indexer_read_spec stream).1 hwf
  obtain ⟨hinv, -⟩ := (indexer_read_spec stream).2 st hst
  refine ⟨_, indexer_main_eq stream st hst, ?_⟩
  intro i j hij hj
  simp only [dict_records_length, div_64] at hj
  have hi : i < (inorder st.myTree).length := lt_trans hij hj
  have hkey : ∀ k (hk : k < (inorder st.myTree).length),
      read_word (dict_records 0 (inorder st.myTree)) k = ((inorder st.myTree)[k]).1 := by
    intro k hk
    obtain ⟨d, hd, hw⟩ := key_is_word stream st hst _ (List.getElem_mem hk)
    exact read_word_records _ 0 k _ (List.getElem?_eq_getElem hk) (hcs d hd _ hw)
      (hwf.2 d hd _ hw)
  rw [hkey i hi, hkey j hj, strcmp_lt_iff]
  exact (List.pairwise_iff_getElem.1 hinv.1) i j hi hj hij

/-- C7. For every dictionary tree, `write_dict_postings` writes as postings file the
encoded posting lists in dictionary order, and the four offset bytes of each record
hold the number of bytes that precede the encoded list of its term. When the postings
file is shorter than `2^31` bytes (the range of the int offsets), the offset read from
a record is that number, and the bytes from it up to the offset read from the next
record (up to the end of the postings file for the last record) are exactly the
encoded posting list of the term. -/
theorem offsets_delimit_posting_lists (tree : RBTreeNode (List Posting)) :
    (write_dict_postings tree).fp_post = posting_bytes (inorder tree) ∧
    ∀ i e, (inorder tree)[i]? = some e →
      fread_at (write_dict_postings tree).fp_dict (i * 64 + 60) 4 =
        write_int_big_endian ((posting_bytes ((inorder tree).take i)).length : Int) ∧
      ((write_dict_postings tree).fp_post.length < 2 ^ 31 →
        read_offset (write_dict_postings tree).fp_dict i =
          ((posting_bytes ((inorder tree).take i)).length : Int) ∧
        fread_at (write_dict_postings tree).fp_post
            (read_offset (write_dict_postings tree).fp_dict i).toNat
            ((if i + 1 < (inorder tree).length
                then read_offset (write_dict_postings tree).fp_dict (i + 1)
                else ((write_dict_postings tree).fp_post.length : Int))
              - read_offset (write_dict_postings tree).fp_dict i).toNat
          = write_postings 0 e.2) := by
  have hw : write_dict_postings tree =
      ⟨posting_bytes (inorder tree), dict_records 0 (inorder tree),
        ((posting_bytes (inorder tree)).length : Int)⟩ := by
    simp [write_dict_postings, write_dict_postings_eq]
  rw [hw]
  refine ⟨rfl, ?_⟩
  intro i e hie
  have hi : i < (inorder tree).length := by
    by_contra hn
    rw [List.getElem?_eq_none (not_lt.1 hn)] at hie
    cases hie
  refine ⟨by simpa using (dict_records_at (inorder tree) 0 i e hie).2, ?_⟩
  intro hsize
  simp only at hsize
  have hoff := read_offset_records (inorder tree) i e hie hsize
  refine ⟨hoff, ?_⟩
  simp only
  have hnext : (if i + 1 < (inorder tree).length
      then read_offset (dict_records 0 (inorder tree)) (i + 1)
      else ((posting_bytes (inorder tree)).length : Int))
      = ((posting_bytes ((inorder tree).take (i + 1))).length : Int) := by
    by_cases h1 : i + 1 < (inorder tree).length
    · rw [if_pos h1]
      exact read_offset_records (inorder tree) (i + 1) _ (List.getElem?_eq_getElem h1) hsize
    · rw [if_neg h1]
      have : i + 1 = (inorder tree).length := by omega
      rw [this, List.take_length]
  rw [hnext, hoff, posting_bytes_take_succ _ i e hie, List.length_append]
  have : (((posting_bytes (List.take i (inorder tree))).length + (entry_bytes e).length : Nat) : Int)
      - ((posting_bytes (List.take i (inorder tree))).length : Int) = ((entry_bytes e).length : Nat) := by
    push_cast; ring
  rw [this]
  simp only [Int.toNat_ofNat]
  exact posting_bytes_at (inorder tree) i e hie

/-- C8. For every dictionary file produced by the indexer (with a postings file shorter
than `2^31` bytes, the range of the int offsets), each record's offset is strictly
less than the next record's offset, and the offset of every record, the last one
included, is at most the size of the postings file. -/
theorem offsets_strictly_increasing (stream : List (List Nat)) (files : IndexFiles)
    (h : indexer_main stream = some files) (hsize : files.POSTING_FILE.length < 2 ^ 31) :
    (∀ i, i + 1 < files.DICT_FILE.length / 64 →
      read_offset files.DICT_FILE i < read_offset files.DICT_FILE (i + 1)) ∧
    (∀ i, i < files.DICT_FILE.length / 64 →
      read_offset files.DICT_FILE i ≤ (files.POSTING_FILE.length : Int)) := by
  cases hst : indexer_read stream with
  | none => simp [indexer_main, hst] at h
  | some st =>
    rw [indexer_main_eq stream st hst] at h
    cases h
    obtain ⟨hinv, -⟩ := (indexer_read_spec stream).2 st hst
    simp only [dict_records_length, div_64]
    simp only at hsize
    constructor
    · intro i hi
      have hi0 : i < (inorder st.myTree).length := by omega
      rw [read_offset_records _ i _ (List.getElem?_eq_getElem hi0) hsize,
        read_offset_records _ (i + 1) _ (List.getElem?_eq_getElem hi) hsize,
        posting_bytes_take_succ _ i _ (List.getElem?_eq_getElem hi0), List.length_append]
      have := entry_bytes_length_pos _ (hinv.2.2 _ (List.getElem_mem hi0)).1
      push_cast
      omega
    · intro i hi
      rw [read_offset_records _ i _ (List.getElem?_eq_getElem hi) hsize]
      exact_mod_cast posting_bytes_take_le _ i

/-! ## Binary search over the dictionary file -/

/-- The pair of offsets the search reports on a match at record `i`. -/
theorem binary_search_found (word dict posting : List Nat) (n : Nat)
    (hasc : ∀ i j, i < j → j < n → read_word dict i < read_word dict j) :
    ∀ (fuel : Nat) (low high : Int) (i : Nat), 0 ≤ low → low ≤ (i : Int) → (i : Int) ≤ high →
      high < (n : Int) → high - low + 1 ≤ (fuel : Int) → read_word dict i = word →
      binary_search word dict posting (n : Int) fuel low high =
        (read_offset dict i,
          if i + 1 < n then read_offset dict (i + 1) else (posting.length : Int)) := by
  intro fuel
  induction fuel with
  | zero => intro low high i h0 h1 h2 h3 h4 _; omega
  | succ fuel ih =>
    intro low high i h0 h1 h2 h3 h4 hw
    unfold binary_search
    have hlh : low ≤ high := le_trans h1 h2
    simp only [hlh, if_true]
    obtain ⟨m, hm⟩ : ∃ m : Nat, low + (high - low) / 2 = (m : Int) :=
      ⟨(low + (high - low) / 2).toNat, by omega⟩
    have hmn : m < n := by omega
    rw [hm]
    simp only [Int.toNat_ofNat]
    rcases lt_trichotomy m i with hmi | hmi | hmi
    · have hlt : read_word dict m < word := hw ▸ hasc m i hmi (by omega)
      have hpos : 0 < strcmp word (read_word dict m) := (strcmp_pos_iff _ _).2 hlt
      have hne : ¬ strcmp word (read_word dict m) = 0 := by omega
      have hnl : ¬ strcmp word (read_word dict m) < 0 := by omega
      simp only [hne, hnl, if_false]
      exact ih (m + 1) high i (by omega) (by omega) h2 h3 (by omega) hw
    · subst hmi
      have h0' : strcmp word (read_word dict m) = 0 := (strcmp_eq_zero_iff _ _).2 hw.symm
      simp only [h0', if_true]
      congr 1
      by_cases hlast : m + 1 < n
      · have : (m : Int) < (n : Int) - 1 := by omega
        simp [this, hlast]
      · have : ¬ (m : Int) < (n : Int) - 1 := by omega
        simp [this, hlast]
    · have hlt : word < read_word dict m := hw ▸ hasc i m hmi hmn
      have hneg : strcmp word (read_word dict m) < 0 := (strcmp_lt_iff _ _).2 hlt
      have hne : ¬ strcmp word (read_word dict m) = 0 := by omega
      simp only [hne, hneg, if_false, if_true]
      exact ih low (m - 1) i h0 h1 (by omega) (by omega) (by omega) hw

theorem binary_search_missing (word dict posting : List Nat) (n : Int) :
    ∀ (fuel : Nat) (low high : Int), 0 ≤ low →
      (∀ i : Nat, low ≤ (i : Int) → (i : Int) ≤ high → read_word dict i ≠ word) →
      binary_search word dict posting n fuel low high = (-1, -1) := by
  intro fuel
  induction fuel with
  | zero => intro low high _ _; rfl
  | succ fuel ih =>
    intro low high h0 hno
    unfold binary_search
    by_cases hlh : low ≤ high
    · simp only [hlh, if_true]
      obtain ⟨m, hm⟩ : ∃ m : Nat, low + (high - low) / 2 = (m : Int) :=
        ⟨(low + (high - low) / 2).toNat, by omega⟩
      rw [hm]
      simp only [Int.toNat_ofNat]
      have hne : ¬ strcmp word (read_word dict m) = 0 := by
        intro h
        exact hno m (by omega) (by omega) ((strcmp_eq_zero_iff _ _).1 h).symm
      simp only [hne, if_false]
      split
      · exact ih low (m - 1) h0 (fun i h1 h2 => hno i h1 (by omega))
      · exact ih (m + 1) high (by omega) (fun i h1 h2 => hno i (by omega) h2)
    · simp only [hlh, if_false]

theorem dict_lookup_found (word dict posting : List Nat) (n : Nat)
    (hasc : ∀ i j, i < j → j < n → read_word dict i < read_word dict j)
    (i : Nat) (hi : i < n) (hw : read_word dict i = word) :
    dict_lookup word dict posting (n : Int) =
      (read_offset dict i,
        if i + 1 < n then read_offset dict (i + 1) else (posting.length : Int)) := by
  unfold dict_lookup
  exact binary_search_found word dict posting n hasc _ 0 _ i (le_refl _) (by omega) (by omega)
    (by omega) (by simp) hw

theorem dict_lookup_missing (word dict posting : List Nat) (n : Nat)
    (hno : ∀ i, i < n → read_word dict i ≠ word) :
    dict_lookup word dict posting (n : Int) = (-1, -1) := by
  unfold dict_lookup
  exact binary_search_missing word dict posting _ _ 0 _ (le_refl _)
    (fun i _ h2 => hno i (by omega))

/-! ## Intersection of posting lists -/

theorem copy_posting_list_eq (l : List Posting) : copy_posting_list l = l := by
  unfold copy_posting_list
  conv_rhs => rw [← List.map_id l]
  rfl

theorem doc_freq_of_not_mem (l : List Posting) (d : Int) (h : d ∉ l.map Posting.doc_id) :
    doc_freq l d = 0 := by
  unfold doc_freq
  have : l.filter (fun p => decide (p.doc_id = d)) = [] := by
    rw [List.filter_eq_nil_iff]
    intro p hp hd
    simp only [decide_eq_true_eq] at hd
    exact h (List.mem_map.2 ⟨p, hp, hd⟩)
  rw [this]; rfl

theorem doc_freq_cons (p : Posting) (l : List Posting) (d : Int) :
    doc_freq (p :: l) d = (if p.doc_id = d then p.freq else 0) + doc_freq l d := by
  unfold doc_freq
  by_cases h : p.doc_id = d <;> simp [List.filter_cons, h]

theorem doc_freq_of_mem (l : List Posting) (h : (l.map Posting.doc_id).Nodup)
    (p : Posting) (hp : p ∈ l) : doc_freq l p.doc_id = p.freq := by
  induction l with
  | nil => simp at hp
  | cons a rest ih =>
    rw [List.map_cons, List.nodup_cons] at h
    rw [doc_freq_cons]
    rcases List.mem_cons.1 hp with e | e
    · subst e
      rw [doc_freq_of_not_mem rest _ h.1]; simp
    · have hne : ¬ a.doc_id = p.doc_id := by
        intro e'
        exact h.1 (List.mem_map.2 ⟨p, e, e'.symm⟩)
      rw [if_neg hne, ih h.2 e]; simp

theorem find_current_spec (r : Posting) (l : List Posting) (h : (l.map Posting.doc_id).Nodup) :
    (find_current r l = none ∧ r.doc_id ∉ l.map Posting.doc_id) ∨
    (∃ c, find_current r l = some c ∧ r.doc_id ∈ l.map Posting.doc_id ∧
      c.freq = doc_freq l r.doc_id) := by
  induction l with
  | nil => left; simp [find_current]
  | cons a rest ih =>
    have h' := h
    rw [List.map_cons, List.nodup_cons] at h
    by_cases ha : a.doc_id = r.doc_id
    · right
      refine ⟨a, by simp [find_current, ha], by simp [ha], ?_⟩
      rw [← ha, doc_freq_of_mem (a :: rest) h' a (List.mem_cons_self _ _)]
    · rcases ih h.2 with ⟨h1, h2⟩ | ⟨c, h1, h2, h3⟩
      · left
        refine ⟨by simp [find_current, ha, h1], ?_⟩
        simp only [List.map_cons, List.mem_cons, not_or]
        exact ⟨fun e => ha e.symm, h2⟩
      · right
        refine ⟨c, by simp [find_current, ha, h1], by simp [h2], ?_⟩
        rw [doc_freq_cons, if_neg ha, h3]; simp

theorem foldl_intersect_step (rest : List (List Posting))
    (hrest : ∀ l ∈ rest, (l.map Posting.doc_id).Nodup) (R : List Posting) :
    rest.foldl intersect_step R = R.filterMap (fun r =>
      if ∀ l ∈ rest, r.doc_id ∈ l.map Posting.doc_id then
        some ⟨r.doc_id, r.freq + (rest.map (fun l => doc_freq l r.doc_id)).sum⟩
      else none) := by
  induction rest generalizing R with
  | nil =>
    simp only [List.foldl_nil, List.not_mem_nil, false_implies, implies_true, if_true,
      List.map_nil, List.sum_nil, add_zero]
    conv_lhs => rw [← List.filterMap_some R]
  | cons l rest ih =>
    rw [List.foldl_cons, ih (fun x hx => hrest x (List.mem_cons_of_mem _ hx))]
    unfold intersect_step
    rw [List.filterMap_filterMap]
    apply List.filterMap_congr
    intro r _
    rcases find_current_spec r l (hrest l (List.mem_cons_self _ _)) with ⟨h1, h2⟩ | ⟨c, h1, h2, h3⟩
    · have hn : ¬ ∀ x ∈ l :: rest, r.doc_id ∈ x.map Posting.doc_id :=
        fun hall => h2 (hall l (List.mem_cons_self _ _))
      simp only [h1, hn, if_false]
      rfl
    · simp only [h1, List.forall_mem_cons, h2, true_and, List.map_cons,
        List.sum_cons, h3]
      show (if ∀ l ∈ rest, r.doc_id ∈ List.map Posting.doc_id l then
          some (⟨r.doc_id, r.freq + doc_freq l r.doc_id
            + (List.map (fun l => doc_freq l r.doc_id) rest).sum⟩ : Posting) else none) = _
      rw [add_assoc]

theorem intersect_eq_expected (first : List Posting) (rest : List (List Posting))
    (hdistinct : ∀ l ∈ first :: rest, (l.map Posting.doc_id).Nodup) :
    intersect_posting_lists (first :: rest) = some (expected_intersection first rest) := by
  have hfirst := hdistinct first (List.mem_cons_self _ _)
  unfold expected_intersection
  show some (List.foldl intersect_step (copy_posting_list first) rest) = _
  rw [copy_posting_list_eq, foldl_intersect_step rest
    (fun l hl => hdistinct l (List.mem_cons_of_mem _ hl))]
  congr 1
  apply List.filterMap_congr
  intro p hp
  simp only [List.map_cons, List.sum_cons, doc_freq_of_mem first hfirst p hp]

theorem find_current_mem (r : Posting) (l : List Posting) (c : Posting)
    (h : find_current r l = some c) : c ∈ l := by
  induction l with
  | nil => simp [find_current] at h
  | cons a l ih =>
    unfold find_current at h
    split at h
    · simp only [Option.some.injEq] at h
      subst h
      exact List.mem_cons_self _ _
    · exact List.mem_cons_of_mem _ (ih h)

/-- The results of `intersect_posting_lists` after the first `k` lists of `rest`. -/
theorem foldl_take_eq_expected (first : List Posting) (rest : List (List Posting))
    (hdistinct : ∀ l ∈ first :: rest, (l.map Posting.doc_id).Nodup) (k : Nat) :
    (rest.take k).foldl intersect_step (copy_posting_list first)
      = expected_intersection first (rest.take k) := by
  have h := intersect_eq_expected first (rest.take k) (by
    intro l hl
    rcases List.mem_cons.1 hl with e | e
    · exact hdistinct l (e ▸ List.mem_cons_self _ _)
    · exact hdistinct l (List.mem_cons_of_mem _ (List.mem_of_mem_take e)))
  exact Option.some.inj h

/-- C10. Intersection and scoring: for every non-empty sequence of posting lists, each
with pairwise distinct doc indexes, whose freqs and summed freqs are in the range of
the C int that holds them (every freq of the lists, and every sum of a document over
the first lists of the sequence that contain it), `intersect_posting_lists` returns, in
the order of the first list, exactly the postings whose doc index occurs in every list,
and the freq of each returned posting is the sum of that document's freq over all the
lists; with a single list the result is a copy of it. No addition
`resultPosting->freq += currentPosting->freq` the function executes leaves the range of
an int. -/
theorem intersect_posting_lists_spec (first : List Posting) (rest : List (List Posting))
    (hdistinct : ∀ l ∈ first :: rest, (l.map Posting.doc_id).Nodup)
    (hfreq : ∀ l ∈ first :: rest, ∀ p ∈ l, -(2 ^ 31) ≤ p.freq ∧ p.freq < 2 ^ 31)
    (hsum : ∀ k, k ≤ rest.length → ∀ p ∈ expected_intersection first (rest.take k),
      -(2 ^ 31) ≤ p.freq ∧ p.freq < 2 ^ 31) :
    intersect_posting_lists (first :: rest) = some (expected_intersection first rest) ∧
      intersect_posting_lists [first] = some first ∧
      (∀ k currentList, rest[k]? = some currentList →
        ∀ resultPosting ∈ (rest.take k).foldl intersect_step (copy_posting_list first),
          ∀ currentPosting, find_current resultPosting currentList = some currentPosting →
            (-(2 ^ 31) ≤ resultPosting.freq ∧ resultPosting.freq < 2 ^ 31) ∧
            (-(2 ^ 31) ≤ currentPosting.freq ∧ currentPosting.freq < 2 ^ 31) ∧
            (-(2 ^ 31) ≤ resultPosting.freq + currentPosting.freq ∧
              resultPosting.freq + currentPosting.freq < 2 ^ 31)) := by
  refine ⟨intersect_eq_expected first rest hdistinct,
    by simp [intersect_posting_lists, copy_posting_list_eq], ?_⟩
  intro k l hl r hr c hc
  obtain ⟨hk, hkl⟩ := List.getElem?_eq_some.1 hl
  have hmem : l ∈ rest := hkl ▸ List.getElem_mem _
  refine ⟨?_, hfreq l (List.mem_cons_of_mem _ hmem) c (find_current_mem r l c hc), ?_⟩
  · rw [foldl_take_eq_expected first rest hdistinct k] at hr
    exact hsum k (le_of_lt hk) r hr
  · have hstep : (⟨r.doc_id, r.freq + c.freq⟩ : Posting) ∈
        (rest.take (k + 1)).foldl intersect_step (copy_posting_list first) := by
      have htake : rest.take (k + 1) = rest.take k ++ [l] := by
        rw [List.take_succ, hl]; rfl
      rw [htake, List.foldl_append, List.foldl_cons, List.foldl_nil]
      unfold intersect_step
      exact List.mem_filterMap.2 ⟨r, hr, by rw [hc]⟩
    rw [foldl_take_eq_expected first rest hdistinct (k + 1)] at hstep
    exact hsum (k + 1) hk _ hstep

theorem intersect_posting_lists_spec_witness :
    intersect_posting_lists [[⟨0, 2⟩, ⟨2, 1⟩], [⟨0, 1⟩, ⟨1, 3⟩, ⟨2, 5⟩]]
        = some (expected_intersection [⟨0, 2⟩, ⟨2, 1⟩] [[⟨0, 1⟩, ⟨1, 3⟩, ⟨2, 5⟩]]) ∧
      intersect_posting_lists [[⟨0, 2⟩, ⟨2, 1⟩]] = some [⟨0, 2⟩, ⟨2, 1⟩] :=
  ⟨(intersect_posting_lists_spec [⟨0, 2⟩, ⟨2, 1⟩] [[⟨0, 1⟩, ⟨1, 3⟩, ⟨2, 5⟩]] (by decide)
      (by decide) (by decide)).1,
    (intersect_posting_lists_spec [⟨0, 2⟩, ⟨2, 1⟩] [[⟨0, 1⟩, ⟨1, 3⟩, ⟨2, 5⟩]] (by decide)
      (by decide) (by decide)).2.1⟩

theorem get_posting_list_isSome (q dict posting : List Nat) (n : Int) :
    (get_posting_list q dict posting n).isSome ↔ (dict_lookup (stem q) dict posting n).1 ≠ -1 := by
  unfold get_posting_list
  by_cases h : (dict_lookup (stem q) dict posting n).1 = -1 <;> simp [h]

/-- The C function `strcmp` stops at the terminator of its first argument: against the
C string in an array it inspects at most the first `word.length + 1` bytes of the array. -/
theorem strcmp_takeWhile_take (word : List Nat) :
    ∀ field : List Nat, strcmp word (field.takeWhile (· ≠ 0))
      = strcmp word ((field.take (word.length + 1)).takeWhile (· ≠ 0)) := by
  induction word with
  | nil =>
    intro field
    cases field with
    | nil => rfl
    | cons b bs =>
      by_cases hb : b = 0
      · simp [List.takeWhile, hb]
      · simp [List.takeWhile, hb, strcmp]
  | cons a as ih =>
    intro field
    cases field with
    | nil => rfl
    | cons b bs =>
      by_cases hb : b = 0
      · simp [List.takeWhile, hb]
      · have h := ih bs
        simp only [List.length_cons, List.take_succ_cons, List.takeWhile, hb, ne_eq,
          not_false_eq_true, decide_True, strcmp]
        rw [h]

/-- C9. Binary-search lookup: for every dictionary file whose records are strictly
ascending by term and hold byte offsets into the postings file (no offset field reads
as -1, the value `get_posting_list` starts from), and every normalised query term
shorter than 60 bytes, the lookup finds the term if and only if some record holds
exactly that term; when found, the begin offset is that record's offset and the end
offset is the next record's offset, or the postings-file length when the match is the
last record. In particular every term shorter than 60 bytes of a record is found
again. For such a query term each `strcmp` is decided within the first
`word.length + 1 <= 60` bytes of the array `word[60]` the record's key field was read
into. -/
theorem dictionary_lookup (dict posting : List Nat)
    (hasc : ∀ i j, i < j → j < dict.length / 64 →
      strcmp (read_word dict i) (read_word dict j) < 0)
    (hmark : ∀ i, i < dict.length / 64 → read_offset dict i ≠ -1) (word : List Nat)
    (hword : word.length < MAX_KEY_SIZE) :
    ((dict_lookup word dict posting ((dict.length / 64 : Nat) : Int)).1 ≠ -1 ↔
        ∃ i, i < dict.length / 64 ∧ read_word dict i = word) ∧
    (∀ q, stem q = word →
      ((get_posting_list q dict posting ((dict.length / 64 : Nat) : Int)).isSome ↔
        ∃ i, i < dict.length / 64 ∧ read_word dict i = word)) ∧
    (∀ i, i < dict.length / 64 → read_word dict i = word →
      dict_lookup word dict posting ((dict.length / 64 : Nat) : Int) =
        (read_offset dict i,
          if i + 1 < dict.length / 64 then read_offset dict (i + 1)
          else (posting.length : Int))) ∧
    (∀ i, i < dict.length / 64 → (read_word dict i).length < MAX_KEY_SIZE →
      (dict_lookup (read_word dict i) dict posting ((dict.length / 64 : Nat) : Int)).1
        = read_offset dict i) ∧
    (word.length + 1 ≤ MAX_KEY_SIZE ∧
      ∀ i, strcmp word (read_word dict i) =
        strcmp word (((fread_at dict (i * (MAX_KEY_SIZE + OFFSET_SIZE)) MAX_KEY_SIZE).take
          (word.length + 1)).takeWhile (· ≠ 0))) := by
  have hasc' : ∀ i j, i < j → j < dict.length / 64 → read_word dict i < read_word dict j :=
    fun i j hij hj => (strcmp_lt_iff _ _).1 (hasc i j hij hj)
  have hfound : ∀ w i, i < dict.length / 64 → read_word dict i = w →
      dict_lookup w dict posting ((dict.length / 64 : Nat) : Int) =
        (read_offset dict i,
          if i + 1 < dict.length / 64 then read_offset dict (i + 1)
          else (posting.length : Int)) :=
    fun w i hi hw => dict_lookup_found w dict posting _ hasc' i hi hw
  have hiff : (dict_lookup word dict posting ((dict.length / 64 : Nat) : Int)).1 ≠ -1 ↔
      ∃ i, i < dict.length / 64 ∧ read_word dict i = word := by
    constructor
    · intro h
      by_contra hno
      apply h
      rw [dict_lookup_missing word dict posting _ (fun i hi hw => hno ⟨i, hi, hw⟩)]
    · rintro ⟨i, hi, hw⟩
      rw [hfound word i hi hw]
      exact hmark i hi
  refine ⟨hiff, ?_, hfound word, ?_, hword, ?_⟩
  · intro q hq
    rw [get_posting_list_isSome, hq]
    exact hiff
  · intro i hi _
    rw [hfound _ i hi rfl]
  · intro i
    exact strcmp_takeWhile_take word _

theorem dictionary_lookup_witness :
    (dict_lookup (bytes "dog")
        (key_field (bytes "cat") ++ [0, 0, 0, 0] ++ (key_field (bytes "dog") ++ [0, 0, 0, 2]))
        [128, 130, 128, 129, 129, 129] 2).1 = 2 := by
  have h := (dictionary_lookup
    (key_field (bytes "cat") ++ [0, 0, 0, 0] ++ (key_field (bytes "dog") ++ [0, 0, 0, 2]))
    [128, 130, 128, 129, 129, 129]
    (by
      intro i j hij hj
      have hj' : j < 2 := hj
      interval_cases j <;> (interval_cases i <;> decide))
    (by
      intro i hi
      have hi' : i < 2 := hi
      interval_cases i <;> decide)
    (bytes "dog") (by decide)).2.2.1 1 (by decide) (by decide)
  exact (congrArg Prod.fst h).trans (by decide)

/-- The value -1 is what `get_posting_list` starts `posting_begin_offset` from: a
one-record dictionary holding the term `a` with the offset bytes `FF FF FF FF`, which
is no byte offset into a postings file, has its term reported as not found. -/
theorem dictionary_lookup_marker (dict : List Nat)
    (hdict : dict = key_field (bytes "a") ++ [255, 255, 255, 255]) :
    dict.length / 64 = 1 ∧ read_word dict 0 = bytes "a" ∧ stem (bytes "a") = bytes "a" ∧
    get_posting_list (bytes "a") dict [] 1 = none := by
  subst hdict
  decide

/-! ## Sizes of the documents of a stream -/

theorem doc_words_after_id_sizes : ∀ (n : Nat) (rest : List (List Nat)), rest.length ≤ n →
    (doc_words_after_id rest).length + ((doc_words_after_id rest).map List.length).sum
      ≤ rest.length + 1 := by
  intro n
  induction n with
  | zero =>
    intro rest h
    have : rest = [] := List.length_eq_zero.1 (Nat.le_zero.1 h)
    subst this; simp [doc_words_after_id]
  | succ n ih =>
    intro rest h
    match rest, h with
    | [], _ => simp [doc_words_after_id]
    | line :: rest1, h =>
      have h1 : rest1.length ≤ n := by simp at h; omega
      by_cases hline : line = []
      · subst hline
        match rest1, h1 with
        | [], _ => simp [doc_words_after_id]
        | next :: rest2, h1 =>
          have h2 : rest2.length ≤ n := by simp at h1; omega
          have := ih rest2 h2
          have e : doc_words_after_id ([] :: next :: rest2) = [] :: doc_words_after_id rest2 := by
            simp [doc_words_after_id]
          rw [e]
          simp only [List.length_cons, List.map_cons, List.length_nil, List.sum_cons]
          omega
      · obtain ⟨d, ds, hds, hdw⟩ := doc_words_after_id_word line rest1 hline
        have := ih rest1 h1
        rw [hds] at this
        rw [hdw]
        simp only [List.length_cons, List.map_cons, List.sum_cons] at this ⊢
        omega

theorem length_le_sum_of_mem {α : Type} (docs : List (List α)) (d : List α) (h : d ∈ docs) :
    d.length ≤ (docs.map List.length).sum := by
  induction docs with
  | nil => simp at h
  | cons a rest ih =>
    simp only [List.map_cons, List.sum_cons]
    rcases List.mem_cons.1 h with e | e
    · subst e; omega
    · have := ih e; omega

theorem doc_words_sizes (stream : List (List Nat)) :
    (doc_words stream).length + ((doc_words stream).map List.length).sum ≤ stream.length + 1 := by
  unfold doc_words
  have := doc_words_after_id_sizes _ stream.tail (le_refl _)
  have ht : stream.tail.length ≤ stream.length := by simp
  omega

/-- On a stream of fewer than `2^31` lines every posting the specification assigns is
a pair of non-negative C ints. -/
theorem expected_postings_bounds (stream : List (List Nat)) (hlines : stream.length < 2 ^ 31)
    (t : List Nat) (p : Posting) (hp : p ∈ expected_postings t 0 (doc_words stream)) :
    0 ≤ p.doc_id ∧ p.doc_id < 2 ^ 31 ∧ 0 < p.freq ∧ p.freq < 2 ^ 31 := by
  obtain ⟨h0, h1, h2⟩ := (mem_expected_postings _ _ _ _).1 hp
  have hsz := doc_words_sizes stream
  have hpos : 0 < ((doc_words stream).getD (p.doc_id - 0).toNat []).count t := by
    rw [h2] at h1; exact_mod_cast h1
  have hmem := List.count_pos_iff.1 hpos
  have hidx : (p.doc_id - 0).toNat < (doc_words stream).length := by
    by_contra hn
    rw [List.getD_eq_default _ _ (not_lt.1 hn)] at hmem
    simp at hmem
  have hdoc : (doc_words stream).getD (p.doc_id - 0).toNat [] ∈ doc_words stream := by
    rw [List.getD_eq_getElem _ _ hidx]
    exact List.getElem_mem _
  have hlen := length_le_sum_of_mem _ _ hdoc
  have hcount := List.count_le_length t ((doc_words stream).getD (p.doc_id - 0).toNat [])
  refine ⟨h0, by omega, by omega, by omega⟩

theorem expected_postings_eq_range (t : List Nat) (docs : List (List (List Nat))) :
    ∀ first : Int, expected_postings t first docs =
      (List.range docs.length).filterMap (fun i =>
        if (docs.getD i []).count t = 0 then none
        else some ⟨first + (i : Int), ((docs.getD i []).count t : Int)⟩) := by
  induction docs with
  | nil => intro first; simp [expected_postings]
  | cons d ds ih =>
    intro first
    rw [expected_postings, ih, List.length_cons, List.range_succ_eq_map, List.filterMap_cons,
      List.filterMap_map]
    have hfun : (fun i : Nat =>
        if ((d :: ds).getD i []).count t = 0 then none
        else some (⟨first + (i : Int), (((d :: ds).getD i []).count t : Int)⟩ : Posting)) ∘ Nat.succ
        = fun i : Nat => if (ds.getD i []).count t = 0 then none
        else some ⟨first + 1 + (i : Int), ((ds.getD i []).count t : Int)⟩ := by
      funext i
      simp only [Function.comp, List.getD_cons_succ, Nat.succ_eq_add_one, Nat.cast_add,
        Nat.cast_one]
      have e : first + ((i : Int) + 1) = first + 1 + (i : Int) := by ring
      rw [e]
    rw [hfun]
    by_cases hc : d.count t = 0
    · simp [hc]
    · simp [hc]

/-! ## Looking up the written index -/

theorem ofInt32_natCast (n : Nat) (h : n < 2 ^ 32) : ofInt32 (n : Int) = n := by
  unfold ofInt32
  have : (n : Int) % 2 ^ 32 = n := Int.emod_eq_of_lt (by omega) (by omega)
  rw [this]; simp

theorem read_word_indexed (stream : List (List Nat)) (st : Indexer)
    (hst : indexer_read stream = some st) (hwf : well_formed_stream stream)
    (hcs : ∀ d ∈ doc_words stream, ∀ w ∈ d, is_c_string w)
    (k : Nat) (hk : k < (inorder st.myTree).length) :
    read_word (dict_records 0 (inorder st.myTree)) k = ((inorder st.myTree)[k]).1 := by
  obtain ⟨d, hd, hw⟩ := key_is_word stream st hst _ (List.getElem_mem hk)
  exact read_word_records _ 0 k _ (List.getElem?_eq_getElem hk) (hcs d hd _ hw) (hwf.2 d hd _ hw)

/-- On the files written by the indexer, `get_posting_list` returns the posting list the
specification assigns to the stem of the argument, and reports a term without
occurrences as not found. -/
theorem get_posting_list_indexed (stream : List (List Nat)) (st : Indexer)
    (hst : indexer_read stream = some st) (hwf : well_formed_stream stream)
    (hcs : ∀ d ∈ doc_words stream, ∀ w ∈ d, is_c_string w)
    (hlines : stream.length < 2 ^ 31)
    (hsize : (posting_bytes (inorder st.myTree)).length < 2 ^ 31) (q : List Nat) :
    get_posting_list q (dict_records 0 (inorder st.myTree)) (posting_bytes (inorder st.myTree))
        (((inorder st.myTree).length : Nat) : Int) =
      if expected_postings (stem q) 0 (doc_words stream) = [] then none
      else some (expected_postings (stem q) 0 (doc_words stream)) := by
  obtain ⟨hinv, hlook⟩ := (indexer_read_spec stream).2 st hst
  have hasc : ∀ i j, i < j → j < (inorder st.myTree).length →
      read_word (dict_records 0 (inorder st.myTree)) i
        < read_word (dict_records 0 (inorder st.myTree)) j := by
    intro i j hij hj
    rw [read_word_indexed stream st hst hwf hcs i (lt_trans hij hj),
      read_word_indexed stream st hst hwf hcs j hj]
    exact (List.pairwise_iff_getElem.1 hinv.1) i j (lt_trans hij hj) hj hij
  by_cases hk : stem q ∈ (inorder st.myTree).map Prod.fst
  · have hne : expected_postings (stem q) 0 (doc_words stream) ≠ [] := by
      rw [← hlook]; exact (mem_keys_iff st hinv _).1 hk
    obtain ⟨e, he, hew⟩ := List.mem_map.1 hk
    obtain ⟨i, hi, hie⟩ := List.getElem_of_mem he
    have hie' : (inorder st.myTree)[i]? = some e := by
      rw [List.getElem?_eq_getElem hi, hie]
    have hval : e.2 = expected_postings (stem q) 0 (doc_words stream) := by
      rw [entry_eq_alookup _ hinv.1 e he, hew, hlook]
    have hfound := dict_lookup_found (stem q) (dict_records 0 (inorder st.myTree))
      (posting_bytes (inorder st.myTree)) _ hasc i hi
      (by rw [read_word_indexed stream st hst hwf hcs i hi, hie, hew])
    have hbegin := read_offset_records (inorder st.myTree) i e hie' hsize
    have hend : (if i + 1 < (inorder st.myTree).length
        then read_offset (dict_records 0 (inorder st.myTree)) (i + 1)
        else ((posting_bytes (inorder st.myTree)).length : Int))
        = ((posting_bytes ((inorder st.myTree).take (i + 1))).length : Int) := by
      by_cases h1 : i + 1 < (inorder st.myTree).length
      · rw [if_pos h1]
        exact read_offset_records _ (i + 1) _ (List.getElem?_eq_getElem h1) hsize
      · rw [if_neg h1]
        have : i + 1 = (inorder st.myTree).length := by omega
        rw [this, List.take_length]
    rw [hend, hbegin] at hfound
    have hsub : ((posting_bytes ((inorder st.myTree).take (i + 1))).length : Int)
        - ((posting_bytes ((inorder st.myTree).take i)).length : Int)
        = (((entry_bytes e).length : Nat) : Int) := by
      rw [posting_bytes_take_succ _ i e hie', List.length_append]
      push_cast; ring
    have hle := posting_bytes_take_le (inorder st.myTree) (i + 1)
    have hlen : (entry_bytes e).length < 2 ^ 32 := by
      rw [posting_bytes_take_succ _ i e hie', List.length_append] at hle
      omega
    have hdecode : decode_posting_list (entry_bytes e) = e.2 := by
      unfold entry_bytes
      apply decode_write_postings_zero
      · intro p hp; rw [hval] at hp
        exact (expected_postings_bounds stream hlines _ p hp).1
      · rw [hval]; exact expected_postings_sorted _ _ _
      · intro p hp; rw [hval] at hp
        have := expected_postings_bounds stream hlines _ p hp
        exact ⟨this.2.1, le_of_lt this.2.2.1, this.2.2.2⟩
    have hnm : ¬ ((posting_bytes ((inorder st.myTree).take i)).length : Int) = -1 := by omega
    have hlen31 : (entry_bytes e).length < 2 ^ 31 := by
      rw [posting_bytes_take_succ _ i e hie', List.length_append] at hle
      omega
    unfold get_posting_list
    simp only [hfound, hnm, if_false, hsub, ofInt32_natCast _ hlen, Int.toNat_ofNat,
      posting_bytes_at _ i e hie', toInt32_of_lt _ hlen31, List.take_length, hdecode, hval, hne]
  · have hnil : expected_postings (stem q) 0 (doc_words stream) = [] := by
      rw [← hlook]
      apply alookup_of_not_mem
      intro p hp e
      exact hk (List.mem_map.2 ⟨p, hp, e⟩)
    have hmiss := dict_lookup_missing (stem q) (dict_records 0 (inorder st.myTree))
      (posting_bytes (inorder st.myTree)) (inorder st.myTree).length (by
        intro i hi hw
        rw [read_word_indexed stream st hst hwf hcs i hi] at hw
        exact hk (List.mem_map.2 ⟨_, List.getElem_mem hi, hw⟩))
    unfold get_posting_list
    simp only [hmiss, if_true, hnil]

/-! ## The doc-id file -/

theorem index_word_id_list (st st' : Indexer) (w : List Nat) (h : index_word st w = some st') :
    st'.id_list = st.id_list := by
  unfold index_word at h
  split at h
  · cases hi : rb_insert st.myTree w (linkedlist_add_tail [] (⟨st.doc_index, 1⟩ : Posting)) with
    | none => simp [hi] at h
    | some t => simp [hi] at h; rw [← h]
  · split at h
    · cases h
    · split at h <;> (simp at h; rw [← h])

theorem indexer_loop_id_list : ∀ (n : Nat) (rest : List (List Nat)) (st st' : Indexer),
    rest.length ≤ n → indexer_loop st rest = some st' →
    st'.id_list = st.id_list ++ doc_ids_after_id rest := by
  intro n
  induction n with
  | zero =>
    intro rest st st' hlen h
    have : rest = [] := List.length_eq_zero.1 (Nat.le_zero.1 hlen)
    subst this
    simp only [indexer_loop, Option.some.injEq] at h
    subst h; simp [doc_ids_after_id]
  | succ n ih =>
    intro rest st st' hlen h
    match rest, hlen, h with
    | [], _, h =>
      simp only [indexer_loop, Option.some.injEq] at h
      subst h; simp [doc_ids_after_id]
    | line :: rest1, hlen, h =>
      have hlen1 : rest1.length ≤ n := by simp at hlen; omega
      by_cases hline : line = []
      · subst hline
        match rest1, hlen1, h with
        | [], _, h =>
          simp only [indexer_loop, if_true, Option.some.injEq] at h
          subst h; simp [doc_ids_after_id, linkedlist_add_tail]
        | next :: rest2, hlen1, h =>
          have hlen2 : rest2.length ≤ n := by simp at hlen1; omega
          simp only [indexer_loop, if_true] at h
          rw [ih rest2 _ st' hlen2 h]
          simp [doc_ids_after_id, linkedlist_add_tail]
      · have hloop : indexer_loop st (line :: rest1) =
            (index_word st line).bind (fun st' => indexer_loop st' rest1) := by
          conv_lhs => rw [indexer_loop.eq_def]
          simp only [hline, if_false]
          cases index_word st line <;> rfl
        rw [hloop] at h
        cases hw : index_word st line with
        | none => rw [hw, Option.none_bind] at h; cases h
        | some st1 =>
          rw [hw, Option.some_bind] at h
          rw [ih rest1 st1 st' hlen1 h, index_word_id_list st st1 line hw]
          conv_rhs => rw [doc_ids_after_id.eq_def]
          simp [hline]

/-- The identifier list the indexer holds after the reading loop is the list of the
document identifiers of the stream. -/
theorem indexer_read_id_list (stream : List (List Nat)) (st : Indexer)
    (h : indexer_read stream = some st) : st.id_list = doc_ids stream := by
  cases stream with
  | nil => simp [indexer_read] at h
  | cons line rest =>
    have := indexer_loop_id_list _ rest _ st (le_refl _) h
    simpa [doc_ids, linkedlist_add_tail] using this

/-- In the doc-id file of identifiers that are all 14 bytes long, the 14 bytes at offset
`15 * d` are the identifier of document `d`. -/
theorem save_id_list_at (ids : List (List Nat)) (h14 : ∀ id ∈ ids, id.length = DOC_ID_SIZE) :
    ∀ (d : Nat) (id : List Nat), ids[d]? = some id →
      fread_at (save_id_list ids) (15 * d) DOC_ID_SIZE = id := by
  induction ids with
  | nil => intro d id h; simp at h
  | cons a rest ih =>
    intro d id h
    have ha : a.length = 14 := h14 a (List.mem_cons_self _ _)
    cases d with
    | zero =>
      simp only [List.getElem?_cons_zero, Option.some.injEq] at h
      subst h
      cases rest with
      | nil =>
        simp only [save_id_list, fread_at, Nat.mul_zero, List.drop_zero]
        exact List.take_of_length_le (by rw [ha]; decide)
      | cons b rest' =>
        simp only [save_id_list, fread_at, Nat.mul_zero, List.drop_zero, List.append_assoc]
        rw [show DOC_ID_SIZE = a.length from ha.symm, List.take_left]
    | succ d =>
      simp only [List.getElem?_cons_succ] at h
      cases rest with
      | nil => simp at h
      | cons b rest' =>
        have := ih (fun x hx => h14 x (List.mem_cons_of_mem _ hx)) d id h
        simp only [fread_at] at this ⊢
        simp only [save_id_list]
        have hl : (a ++ [10]).length = 15 := by simp [ha]
        have : 15 * (d + 1) = (a ++ [10]).length + 15 * d := by rw [hl]; ring
        rw [this, List.drop_append]
        assumption

/-- Sample values of the conversion of an int to a float. -/
theorem float_of_int_values :
    float_of_int 0 = 0 ∧ float_of_int 6 = 6 ∧ float_of_int 16777215 = 16777215 ∧
    float_of_int 16777216 = 16777216 ∧ float_of_int 16777217 = 16777216 ∧
    float_of_int 16777218 = 16777218 ∧ float_of_int 16777219 = 16777220 ∧
    float_of_int 33554431 = 33554432 ∧ float_of_int 33554433 = 33554432 ∧
    float_of_int 123456789 = 123456792 ∧ float_of_int 2147483647 = 2147483648 ∧
    float_of_int (-2147483648) = -2147483648 ∧ float_of_int (-16777217) = -16777216 ∧
    float_of_int (-16777219) = -16777220 := by
  decide

/-- An int of at most 24 significant bits is converted to a float without rounding. -/
theorem float_of_int_of_lt (v : Int) (h0 : -(2 ^ 24) < v) (h1 : v < 2 ^ 24) :
    float_of_int v = v := by
  have ha : v.natAbs < 2 ^ 24 := by omega
  have hulp : float_ulp v.natAbs v.natAbs = 1 := by
    cases hn : v.natAbs with
    | zero => rfl
    | succ n =>
      rw [hn] at ha
      simp only [float_ulp, ha, if_true]
  unfold float_of_int
  simp only [hulp, Nat.div_one, Nat.mod_one, Nat.mul_zero, Nat.lt_one_iff, if_true, Nat.mul_one]
  split <;> omega

/-- For postings with non-negative doc indexes every `fseek` of `calculate_rank` succeeds,
and each result holds the bytes read at offset `15 * doc_id`. -/
theorem calculate_rank_loop_eq (id_file : List Nat) (hits : List Posting)
    (h0 : ∀ p ∈ hits, 0 ≤ p.doc_id) (pos : Nat) :
    calculate_rank_loop id_file pos hits =
      hits.map (fun p =>
        ⟨fread_at id_file (15 * p.doc_id.toNat) DOC_ID_SIZE, float_of_int p.freq⟩) := by
  induction hits generalizing pos with
  | nil => rfl
  | cons p rest ih =>
    have hp := h0 p (List.mem_cons_self _ _)
    have htarget : 0 ≤ p.doc_id * ((DOC_ID_SIZE : Int) + 1) := by
      have : ((DOC_ID_SIZE : Int) + 1) = 15 := rfl
      rw [this]; omega
    have hpos : (p.doc_id * ((DOC_ID_SIZE : Int) + 1)).toNat = 15 * p.doc_id.toNat := by
      have : ((DOC_ID_SIZE : Int) + 1) = 15 := rfl
      rw [this]; omega
    simp only [calculate_rank_loop, htarget, if_true, hpos, List.map_cons]
    rw [ih (fun q hq => h0 q (List.mem_cons_of_mem _ hq))]

theorem doc_words_after_id_length (rest : List (List Nat)) :
    ∀ n, rest.length ≤ n →
      (doc_words_after_id rest).length = (doc_ids_after_id rest).length + 1 := by
  intro n
  induction n generalizing rest with
  | zero =>
    intro h
    have : rest = [] := List.length_eq_zero.1 (Nat.le_zero.1 h)
    subst this; simp [doc_words_after_id, doc_ids_after_id]
  | succ n ih =>
    intro h
    match rest, h with
    | [], _ => simp [doc_words_after_id, doc_ids_after_id]
    | line :: rest1, h =>
      have h1 : rest1.length ≤ n := by simp at h; omega
      by_cases hline : line = []
      · subst hline
        match rest1, h1 with
        | [], _ => simp [doc_words_after_id, doc_ids_after_id]
        | next :: rest2, h1 =>
          have h2 : rest2.length ≤ n := by simp at h1; omega
          simp [doc_words_after_id, doc_ids_after_id, ih rest2 h2]
      · obtain ⟨d, ds, hds, hdw⟩ := doc_words_after_id_word line rest1 hline
        have := ih rest1 h1
        rw [hds] at this
        rw [hdw]
        conv_rhs => rw [doc_ids_after_id.eq_def]
        simp only [hline, if_false]
        simpa using this

theorem doc_ids_length (stream : List (List Nat)) (h : stream ≠ []) :
    (doc_ids stream).length = (doc_words stream).length := by
  obtain ⟨line, rest, rfl⟩ := List.exists_cons_of_ne_nil h
  simp only [doc_ids, doc_words, List.tail_cons, List.length_cons]
  rw [doc_words_after_id_length rest _ (le_refl _)]

/-! ## End to end -/

theorem mem_doc_ids_iff (stream : List (List Nat)) (t : List Nat) (i : Nat) :
    (i : Int) ∈ (expected_postings t 0 (doc_words stream)).map Posting.doc_id ↔
      1 ≤ occurrences stream t i := by
  constructor
  · intro h
    obtain ⟨p, hp, hpi⟩ := List.mem_map.1 h
    obtain ⟨-, h1, h2⟩ := (mem_expected_postings _ _ _ _).1 hp
    rw [hpi] at h2
    simp only [sub_zero, Int.toNat_ofNat] at h2
    rw [h2] at h1
    unfold occurrences
    exact_mod_cast h1
  · intro h
    refine List.mem_map.2 ⟨⟨i, (occurrences stream t i : Nat)⟩, ?_, rfl⟩
    rw [mem_expected_postings]
    refine ⟨by simp, ?_, by simp [occurrences]⟩
    show (1 : Int) ≤ (occurrences stream t i : Nat)
    exact_mod_cast h

theorem doc_freq_expected (stream : List (List Nat)) (t : List Nat) (i : Nat) :
    doc_freq (expected_postings t 0 (doc_words stream)) (i : Int) = (occurrences stream t i : Nat) := by
  by_cases h : 1 ≤ occurrences stream t i
  · have hmem : (⟨i, (occurrences stream t i : Nat)⟩ : Posting)
        ∈ expected_postings t 0 (doc_words stream) := by
      rw [mem_expected_postings]
      refine ⟨by simp, ?_, by simp [occurrences]⟩
      show (1 : Int) ≤ (occurrences stream t i : Nat)
      exact_mod_cast h
    exact doc_freq_of_mem _ (pairwise_lt_nodup _ (expected_postings_sorted _ _ _)) _ hmem
  · rw [doc_freq_of_not_mem _ _ (fun hm => h ((mem_doc_ids_iff stream t i).1 hm))]
    have : occurrences stream t i = 0 := by omega
    rw [this]; rfl

theorem expected_intersection_eq_hits (stream : List (List Nat)) (q : List Nat)
    (qs : List (List Nat)) :
    expected_intersection (expected_postings (stem q) 0 (doc_words stream))
        (qs.map (fun q => expected_postings (stem q) 0 (doc_words stream)))
      = expected_hits stream ((q :: qs).map stem) := by
  unfold expected_intersection expected_hits
  conv_lhs => arg 2; rw [expected_postings_eq_range]
  rw [List.filterMap_filterMap]
  apply List.filterMap_congr
  intro i _
  have hocc : (List.count (stem q) ((doc_words stream).getD i [])) = occurrences stream (stem q) i :=
    rfl
  rw [hocc]
  by_cases hc : occurrences stream (stem q) i = 0
  · have hn : ¬ ∀ t ∈ (q :: qs).map stem, 1 ≤ occurrences stream t i := by
      intro hall
      have := hall (stem q) (by simp)
      omega
    simp only [hc, if_true, hn, if_false]
    rfl
  · simp only [hc, if_false]
    show (if ∀ l ∈ qs.map (fun q => expected_postings (stem q) 0 (doc_words stream)),
        (0 + (i : Int)) ∈ l.map Posting.doc_id then _ else _) = _
    simp only [zero_add, List.forall_mem_map, mem_doc_ids_iff, List.map_cons, List.sum_cons,
      List.map_map, Function.comp, doc_freq_expected, List.forall_mem_cons]
    have h1 : 1 ≤ occurrences stream (stem q) i := by omega
    simp only [h1, true_and]
    have hfun : ((fun l => doc_freq l (i : Int)) ∘
        fun q => expected_postings (stem q) 0 (doc_words stream))
        = ((fun t => ((occurrences stream t i : Nat) : Int)) ∘ stem) := by
      funext q'
      simp only [Function.comp, doc_freq_expected]
    rw [hfun]

theorem expected_hits_nil (stream : List (List Nat)) (terms : List (List Nat)) (t : List Nat)
    (ht : t ∈ terms) (hnil : expected_postings t 0 (doc_words stream) = []) :
    expected_hits stream terms = [] := by
  unfold expected_hits
  rw [List.filterMap_eq_nil_iff]
  intro d _
  have hn : ¬ ∀ t ∈ terms, 1 ≤ occurrences stream t d := by
    intro hall
    have := (mem_doc_ids_iff stream t d).2 (hall t ht)
    rw [hnil] at this
    simp at this
  simp only [hn, if_false]

theorem collect_indexed (dict posting : List Nat) (n : Int) (stream : List (List Nat))
    (hget : ∀ q, get_posting_list q dict posting n =
      if expected_postings (stem q) 0 (doc_words stream) = [] then none
      else some (expected_postings (stem q) 0 (doc_words stream)))
    (words : List (List Nat)) :
    (collect_posting_lists dict posting n words = none ∧
      ∃ q ∈ words, expected_postings (stem q) 0 (doc_words stream) = []) ∨
    collect_posting_lists dict posting n words =
      some (words.map (fun q => expected_postings (stem q) 0 (doc_words stream))) := by
  induction words with
  | nil => right; rfl
  | cons q rest ih =>
    by_cases hq : expected_postings (stem q) 0 (doc_words stream) = []
    · left
      refine ⟨?_, q, List.mem_cons_self _ _, hq⟩
      simp [collect_posting_lists, hget q, hq]
    · rcases ih with ⟨h1, q', hq', hnil⟩ | h1
      · left
        refine ⟨?_, q', List.mem_cons_of_mem _ hq', hnil⟩
        simp [collect_posting_lists, hget q, hq, h1]
      · right
        simp [collect_posting_lists, hget q, hq, h1]

theorem calculate_rank_expected_hits (stream : List (List Nat)) (st : Indexer)
    (hst : indexer_read stream = some st)
    (h14 : ∀ id ∈ doc_ids stream, id.length = DOC_ID_SIZE) (terms : List (List Nat)) :
    calculate_rank (expected_hits stream terms) (save_id_list st.id_list)
      = (expected_results stream terms).map (fun r => ⟨r.doc_id, float_of_int r.score⟩) := by
  have hne : stream ≠ [] := by
    intro e; subst e; simp [indexer_read] at hst
  have hrange : ∀ p ∈ expected_hits stream terms,
      0 ≤ p.doc_id ∧ p.doc_id.toNat < (doc_ids stream).length := by
    intro p hp
    unfold expected_hits at hp
    obtain ⟨d, hd, hdp⟩ := List.mem_filterMap.1 hp
    rw [List.mem_range] at hd
    split at hdp
    · simp only [Option.some.injEq] at hdp
      subst hdp
      rw [doc_ids_length stream hne]
      simp [hd]
    · cases hdp
  unfold calculate_rank expected_results
  rw [calculate_rank_loop_eq _ _ (fun p hp => (hrange p hp).1), indexer_read_id_list stream st hst,
    List.map_map]
  apply List.map_congr_left
  intro p hp
  obtain ⟨-, hlt⟩ := hrange p hp
  simp only [Function.comp]
  congr 1
  rw [save_id_list_at _ h14 p.doc_id.toNat _ (List.getElem?_eq_getElem hlt),
    List.getD_eq_getElem _ _ hlt]

theorem expected_hits_nonneg (stream : List (List Nat)) (terms : List (List Nat)) :
    ∀ p ∈ expected_hits stream terms, 0 ≤ p.freq := by
  intro p hp
  unfold expected_hits at hp
  obtain ⟨d, -, hdp⟩ := List.mem_filterMap.1 hp
  split at hdp
  · simp only [Option.some.injEq] at hdp
    subst hdp
    apply List.sum_nonneg
    intro x hx
    obtain ⟨t, -, rfl⟩ := List.mem_map.1 hx
    exact Int.natCast_nonneg _
  · cases hdp

/-- On the index of a well-formed stream the searcher prints the sorted results of
`calculate_rank` on the hits the specification assigns to the query. -/
theorem searcher_main_indexed (stream : List (List Nat)) (st : Indexer)
    (hst : indexer_read stream = some st) (hwf : well_formed_stream stream)
    (hcs : ∀ d ∈ doc_words stream, ∀ w ∈ d, is_c_string w)
    (hlines : stream.length < 2 ^ 31)
    (hsize : (posting_bytes (inorder st.myTree)).length < 2 ^ 31)
    (words : List (List Nat)) (hwords : words ≠ []) :
    searcher_main ⟨save_id_list st.id_list, dict_records 0 (inorder st.myTree),
      posting_bytes (inorder st.myTree)⟩ words =
      (0, linkedlist_sort cmp_search_results
        (calculate_rank (expected_hits stream (words.map stem)) (save_id_list st.id_list))) := by
  have hget := get_posting_list_indexed stream st hst hwf hcs hlines hsize
  unfold searcher_main
  simp only [hwords, if_false, dict_records_length, div_64,
    show MAX_KEY_SIZE + OFFSET_SIZE = 64 from rfl]
  rcases collect_indexed _ _ _ stream hget words with ⟨h1, q, hq, hnil⟩ | h1
  · rw [h1]
    simp only
    rw [expected_hits_nil stream (words.map stem) (stem q) (List.mem_map.2 ⟨q, hq, rfl⟩) hnil]
    rfl
  · rw [h1]
    simp only
    obtain ⟨q, qs, rfl⟩ := List.exists_cons_of_ne_nil hwords
    have hint := (intersect_eq_expected
      (expected_postings (stem q) 0 (doc_words stream))
      (qs.map (fun q => expected_postings (stem q) 0 (doc_words stream)))
      (by
        intro l hl
        have : ∃ q', l = expected_postings (stem q') 0 (doc_words stream) := by
          rcases List.mem_cons.1 hl with e | e
          · exact ⟨q, e⟩
          · obtain ⟨q', -, e'⟩ := List.mem_map.1 e
            exact ⟨q', e'.symm⟩
        obtain ⟨q', rfl⟩ := this
        exact pairwise_lt_nodup _ (expected_postings_sorted _ _ _)))
    rw [List.map_cons, hint, expected_intersection_eq_hits]

/-- C1 (as amended). End-to-end conjunctive search: for every well-formed word stream (a
first doc-id line, content words that are C strings shorter than 60 bytes) of fewer
than `2^31` lines indexed by the indexer into a postings file shorter than `2^31`
bytes, and every non-empty query `q1..qk` whose summed occurrence counts are below
`2^31` (the range of the int in which the searcher adds them, one query word after the
other), the searcher exits with code 0 and prints the ranking of exactly the documents
in which every `stem(qi)` occurs as a content word; the score of each hit is the float
nearest to the sum over `i` of the number of occurrences of `stem(qi)` in that
document, which is the sum itself when all sums are below `2^24`. Each hit is printed
with the bytes `calculate_rank` reads for its doc index; when every identifier of the
stream is 14 bytes long these are the identifier of the document. -/
theorem end_to_end_search (stream : List (List Nat)) (hwf : well_formed_stream stream)
    (hcs : ∀ d ∈ doc_words stream, ∀ w ∈ d, is_c_string w)
    (hlines : stream.length < 2 ^ 31)
    (words : List (List Nat)) (hwords : words ≠ [])
    (hsum : ∀ k, k ≤ words.length →
      ∀ p ∈ expected_hits stream ((words.take k).map stem), p.freq < 2 ^ 31) :
    ∃ files, indexer_main stream = some files ∧
      (∀ k, k ≤ words.length → ∀ p ∈ expected_hits stream ((words.take k).map stem),
        0 ≤ p.freq ∧ p.freq < 2 ^ 31) ∧
      (files.POSTING_FILE.length < 2 ^ 31 →
        searcher_main files words =
          (0, linkedlist_sort cmp_search_results
            (calculate_rank (expected_hits stream (words.map stem)) files.ID_FILE)) ∧
        ((∀ id ∈ doc_ids stream, id.length = DOC_ID_SIZE) →
          searcher_main files words =
            (0, linkedlist_sort cmp_search_results
              ((expected_results stream (words.map stem)).map
                (fun r => ⟨r.doc_id, float_of_int r.score⟩))) ∧
          ((∀ p ∈ expected_hits stream (words.map stem), p.freq < 2 ^ 24) →
            searcher_main files words =
              (0, linkedlist_sort cmp_search_results
                (expected_results stream (words.map stem)))))) := by
  obtain ⟨st, hst⟩ := (indexer_read_spec stream).1 hwf
  refine ⟨_, indexer_main_eq stream st hst,
    fun k hk p hp => ⟨expected_hits_nonneg stream _ p hp, hsum k hk p hp⟩, ?_⟩
  intro hsize
  simp only at hsize
  have hmain := searcher_main_indexed stream st hst hwf hcs hlines hsize words hwords
  refine ⟨hmain, ?_⟩
  intro h14
  have hres := calculate_rank_expected_hits stream st hst h14 (words.map stem)
  refine ⟨by rw [hmain, hres], ?_⟩
  intro h24
  rw [hmain, hres]
  congr 2
  conv_rhs => rw [← List.map_id (expected_results stream (words.map stem))]
  apply List.map_congr_left
  intro r hr
  unfold expected_results at hr
  obtain ⟨p, hp, rfl⟩ := List.mem_map.1 hr
  simp only [id]
  rw [float_of_int_of_lt p.freq (by have := expected_hits_nonneg stream _ p hp; omega) (h24 p hp)]

theorem sample_stream_well_formed : well_formed_stream sample_stream := by decide

theorem sample_stream_c_strings : ∀ d ∈ doc_words sample_stream, ∀ w ∈ d, is_c_string w := by
  decide

theorem posting_lists_strictly_ascending_witness :
    ∃ st, indexer_read sample_stream = some st ∧
      ∀ p ∈ inorder st.myTree,
        p.2 ≠ [] ∧ p.2.Pairwise (fun a b => a.doc_id < b.doc_id) ∧
          (p.2.map Posting.doc_id).Nodup :=
  ((posting_lists_strictly_ascending sample_stream).1 sample_stream_well_formed).elim
    (fun st hst => ⟨st, hst, (posting_lists_strictly_ascending sample_stream).2 st hst⟩)

theorem postings_count_occurrences_witness :
    ∃ st, indexer_read sample_stream = some st ∧
      (⟨0, 2⟩ : Posting) ∈ posting_list_of st.myTree (bytes "cat") :=
  ((postings_count_occurrences sample_stream).1 sample_stream_well_formed).elim
    (fun st hst => ⟨st, hst,
      (((postings_count_occurrences sample_stream).2 st hst).1 (bytes "cat") ⟨0, 2⟩).2
        (by decide)⟩)

theorem dictionary_terms_strictly_ascending_witness :
    well_formed_stream sample_stream ∧
    (∀ d ∈ doc_words sample_stream, ∀ w ∈ d, is_c_string w) ∧
    ∃ files, indexer_main sample_stream = some files ∧
      ∀ i j, i < j → j < files.DICT_FILE.length / 64 →
        strcmp (read_word files.DICT_FILE i) (read_word files.DICT_FILE j) < 0 :=
  ⟨sample_stream_well_formed, sample_stream_c_strings,
    dictionary_terms_strictly_ascending sample_stream sample_stream_well_formed
      sample_stream_c_strings⟩

theorem offsets_strictly_increasing_witness :
    indexer_main sample_stream = some sample_files ∧
    sample_files.POSTING_FILE.length < 2 ^ 31 ∧
    ((∀ i, i + 1 < sample_files.DICT_FILE.length / 64 →
      read_offset sample_files.DICT_FILE i < read_offset sample_files.DICT_FILE (i + 1)) ∧
    (∀ i, i < sample_files.DICT_FILE.length / 64 →
      read_offset sample_files.DICT_FILE i ≤ (sample_files.POSTING_FILE.length : Int))) :=
  ⟨by decide, by decide,
    offsets_strictly_increasing sample_stream sample_files (by decide) (by decide)⟩

theorem end_to_end_search_witness :
    well_formed_stream sample_stream ∧ sample_stream.length < 2 ^ 31 ∧
    ∃ files, indexer_main sample_stream = some files ∧
      (∀ k, k ≤ [bytes "dogs", bytes "cat"].length →
        ∀ p ∈ expected_hits sample_stream (([bytes "dogs", bytes "cat"].take k).map stem),
          0 ≤ p.freq ∧ p.freq < 2 ^ 31) ∧
      (files.POSTING_FILE.length < 2 ^ 31 →
        searcher_main files [bytes "dogs", bytes "cat"] =
          (0, linkedlist_sort cmp_search_results
            (calculate_rank
              (expected_hits sample_stream ([bytes "dogs", bytes "cat"].map stem))
              files.ID_FILE)) ∧
        ((∀ id ∈ doc_ids sample_stream, id.length = DOC_ID_SIZE) →
          searcher_main files [bytes "dogs", bytes "cat"] =
            (0, linkedlist_sort cmp_search_results
              ((expected_results sample_stream ([bytes "dogs", bytes "cat"].map stem)).map
                (fun r => ⟨r.doc_id, float_of_int r.score⟩))) ∧
          ((∀ p ∈ expected_hits sample_stream ([bytes "dogs", bytes "cat"].map stem),
              p.freq < 2 ^ 24) →
            searcher_main files [bytes "dogs", bytes "cat"] =
              (0, linkedlist_sort cmp_search_results
                (expected_results sample_stream ([bytes "dogs", bytes "cat"].map stem)))))) :=
  ⟨sample_stream_well_formed, by decide,
    end_to_end_search sample_stream sample_stream_well_formed sample_stream_c_strings
      (by decide) [bytes "dogs", bytes "cat"] (by decide) (by decide)⟩

theorem sample_search :
    searcher_main sample_files [bytes "dogs", bytes "cat"]
      = (0, [⟨bytes "A0000000000001", 3⟩]) := by
  decide

/-! ## Merge sort of the linked list -/

section SortingFacts

variable {α : Type} (cmp : α → α → Int)

theorem merge_sorted_lists_perm : ∀ (fuel : Nat) (a b : List α), a.length + b.length ≤ fuel →
    (merge_sorted_lists cmp fuel a b).Perm (a ++ b) := by
  intro fuel
  induction fuel with
  | zero =>
    intro a b h
    have ha : a = [] := List.length_eq_zero.1 (by omega)
    have hb : b = [] := List.length_eq_zero.1 (by omega)
    subst ha; subst hb
    simp [merge_sorted_lists]
  | succ fuel ih =>
    intro a b h
    match a, b, h with
    | [], b, _ => simp [merge_sorted_lists]
    | x :: as, [], _ => simp [merge_sorted_lists]
    | x :: as, y :: bs, h =>
      simp only [List.length_cons] at h
      unfold merge_sorted_lists
      split
      · exact (ih as (y :: bs) (by simp only [List.length_cons]; omega)).cons x
      · have h1 := (ih (x :: as) bs (by simp only [List.length_cons]; omega)).cons y
        refine h1.trans ?_
        have hmid : (x :: as ++ y :: bs).Perm (y :: (x :: as ++ bs)) := List.perm_middle
        exact hmid.symm

theorem merge_sorted_lists_sorted
    (htotal : ∀ x y, cmp x y ≤ 0 ∨ cmp y x ≤ 0)
    (htrans : ∀ x y z, cmp x y ≤ 0 → cmp y z ≤ 0 → cmp x z ≤ 0) :
    ∀ (fuel : Nat) (a b : List α), a.length + b.length ≤ fuel →
      a.Pairwise (fun x y => cmp x y ≤ 0) → b.Pairwise (fun x y => cmp x y ≤ 0) →
      (merge_sorted_lists cmp fuel a b).Pairwise (fun x y => cmp x y ≤ 0) := by
  intro fuel
  induction fuel with
  | zero =>
    intro a b h ha _
    have hb : b = [] := List.length_eq_zero.1 (by omega)
    subst hb
    cases a with
    | nil => simp [merge_sorted_lists]
    | cons x as => simpa [merge_sorted_lists] using ha
  | succ fuel ih =>
    intro a b h ha hb
    match a, b, h, ha, hb with
    | [], b, _, _, hb => simpa [merge_sorted_lists] using hb
    | x :: as, [], _, ha, _ => simpa [merge_sorted_lists] using ha
    | x :: as, y :: bs, h, ha, hb =>
      simp only [List.length_cons] at h
      have ha' := List.pairwise_cons.1 ha
      have hb' := List.pairwise_cons.1 hb
      unfold merge_sorted_lists
      split
      · rename_i hxy
        have hlen : as.length + (y :: bs).length ≤ fuel := by simp only [List.length_cons]; omega
        refine List.pairwise_cons.2 ⟨?_, ih as (y :: bs) hlen ha'.2 hb⟩
        intro z hz
        have hz' := (merge_sorted_lists_perm cmp fuel as (y :: bs) hlen).subset hz
        rcases List.mem_append.1 hz' with h1 | h1
        · exact ha'.1 z h1
        · rcases List.mem_cons.1 h1 with h2 | h2
          · subst h2; exact hxy
          · exact htrans x y z hxy (hb'.1 z h2)
      · rename_i hxy
        have hyx : cmp y x ≤ 0 := (htotal x y).resolve_left hxy
        have hlen : (x :: as).length + bs.length ≤ fuel := by simp only [List.length_cons]; omega
        refine List.pairwise_cons.2 ⟨?_, ih (x :: as) bs hlen ha hb'.2⟩
        intro z hz
        have hz' := (merge_sorted_lists_perm cmp fuel (x :: as) bs hlen).subset hz
        rcases List.mem_append.1 hz' with h1 | h1
        · rcases List.mem_cons.1 h1 with h2 | h2
          · subst h2; exact hyx
          · exact htrans y x z hyx (ha'.1 z h2)
        · exact hb'.1 z h1

/-- Merging keeps the elements of a class of mutually equivalent elements in the order
"those of `a`, then those of `b`". -/
theorem merge_sorted_lists_filter
    (htrans : ∀ x y z, cmp x y ≤ 0 → cmp y z ≤ 0 → cmp x z ≤ 0)
    (P : α → Bool) (hP : ∀ x y, P x = true → P y = true → cmp x y ≤ 0) :
    ∀ (fuel : Nat) (a b : List α), a.length + b.length ≤ fuel →
      a.Pairwise (fun x y => cmp x y ≤ 0) →
      (merge_sorted_lists cmp fuel a b).filter P = a.filter P ++ b.filter P := by
  intro fuel
  induction fuel with
  | zero =>
    intro a b h _
    have ha : a = [] := List.length_eq_zero.1 (by omega)
    have hb : b = [] := List.length_eq_zero.1 (by omega)
    subst ha; subst hb
    simp [merge_sorted_lists]
  | succ fuel ih =>
    intro a b h ha
    match a, b, h, ha with
    | [], b, _, _ => simp [merge_sorted_lists]
    | x :: as, [], _, _ => simp [merge_sorted_lists]
    | x :: as, y :: bs, h, ha =>
      simp only [List.length_cons] at h
      have ha' := List.pairwise_cons.1 ha
      unfold merge_sorted_lists
      split
      · have hlen : as.length + (y :: bs).length ≤ fuel := by simp only [List.length_cons]; omega
        rw [List.filter_cons, ih as (y :: bs) hlen ha'.2]
        by_cases hx : P x = true <;> simp [hx, List.filter_cons]
      · rename_i hxy
        have hlen : (x :: as).length + bs.length ≤ fuel := by simp only [List.length_cons]; omega
        rw [List.filter_cons, ih (x :: as) bs hlen ha]
        by_cases hy : P y = true
        · have hnil : (x :: as).filter P = [] := by
            rw [List.filter_eq_nil_iff]
            intro z hz hPz
            apply hxy
            rcases List.mem_cons.1 hz with h2 | h2
            · subst h2; exact hP z y hPz hy
            · exact htrans x z y (ha'.1 z h2) (hP z y hPz hy)
          simp [hy, hnil]
        · simp [hy]

theorem split_steps_le (l : List α) : ∀ n, l.length ≤ n → 2 * split_steps l ≤ l.length := by
  intro n
  induction n generalizing l with
  | zero =>
    intro h
    have : l = [] := List.length_eq_zero.1 (by omega)
    subst this; simp [split_steps]
  | succ n ih =>
    intro h
    match l, h with
    | [], _ => simp [split_steps]
    | [_], _ => simp [split_steps]
    | _ :: _ :: rest, h =>
      simp only [List.length_cons] at h
      have := ih rest (by omega)
      simp only [split_steps, List.length_cons]
      omega

theorem split_list_spec (x y : α) (t : List α) :
    (split_list (x :: y :: t)).1 ++ (split_list (x :: y :: t)).2 = x :: y :: t ∧
    (split_list (x :: y :: t)).1.length < (x :: y :: t).length ∧
    (split_list (x :: y :: t)).2.length < (x :: y :: t).length := by
  have hk := split_steps_le (y :: t) _ (le_refl _)
  simp only [List.length_cons] at hk
  simp only [split_list, List.tail_cons, List.take_append_drop, List.length_take, List.length_drop,
    List.length_cons, true_and]
  omega

/-- The result of `merge_sort` is a permutation, sorted by `cmp`, and keeps every class
of mutually equivalent elements in its original order. -/
theorem merge_sort_spec
    (htotal : ∀ x y, cmp x y ≤ 0 ∨ cmp y x ≤ 0)
    (htrans : ∀ x y z, cmp x y ≤ 0 → cmp y z ≤ 0 → cmp x z ≤ 0) :
    ∀ (fuel : Nat) (l : List α), l.length ≤ fuel →
      (merge_sort cmp fuel l).Perm l ∧
      (merge_sort cmp fuel l).Pairwise (fun x y => cmp x y ≤ 0) ∧
      ∀ (P : α → Bool), (∀ x y, P x = true → P y = true → cmp x y ≤ 0) →
        (merge_sort cmp fuel l).filter P = l.filter P := by
  intro fuel
  induction fuel with
  | zero =>
    intro l h
    have : l = [] := List.length_eq_zero.1 (by omega)
    subst this
    simp [merge_sort]
  | succ fuel ih =>
    intro l h
    match l, h with
    | [], _ => simp [merge_sort]
    | [x], _ => simp [merge_sort]
    | x :: y :: t, h =>
      obtain ⟨happ, hl1, hl2⟩ := split_list_spec x y t
      obtain ⟨p1, s1, f1⟩ := ih (split_list (x :: y :: t)).1 (by omega)
      obtain ⟨p2, s2, f2⟩ := ih (split_list (x :: y :: t)).2 (by omega)
      simp only [merge_sort]
      refine ⟨?_, ?_, ?_⟩
      · refine (merge_sorted_lists_perm cmp _ _ _ (le_refl _)).trans ?_
        have := p1.append p2
        rwa [happ] at this
      · exact merge_sorted_lists_sorted cmp htotal htrans _ _ _ (le_refl _) s1 s2
      · intro P hP
        rw [merge_sorted_lists_filter cmp htrans P hP _ _ _ (le_refl _) s1, f1 P hP, f2 P hP,
          ← List.filter_append, happ]

theorem linkedlist_sort_spec
    (htotal : ∀ x y, cmp x y ≤ 0 ∨ cmp y x ≤ 0)
    (htrans : ∀ x y z, cmp x y ≤ 0 → cmp y z ≤ 0 → cmp x z ≤ 0) (l : List α) :
    (linkedlist_sort cmp l).Perm l ∧
    (linkedlist_sort cmp l).Pairwise (fun x y => cmp x y ≤ 0) ∧
    ∀ (P : α → Bool), (∀ x y, P x = true → P y = true → cmp x y ≤ 0) →
      (linkedlist_sort cmp l).filter P = l.filter P :=
  merge_sort_spec cmp htotal htrans l.length l (le_refl _)

end SortingFacts

theorem cmp_search_results_le (a b : SearchResult) :
    cmp_search_results a b ≤ 0 ↔ b.score ≤ a.score := by
  unfold cmp_search_results
  by_cases h1 : a.score < b.score
  · simp only [h1, if_true]; omega
  · by_cases h2 : a.score > b.score
    · simp only [h1, h2, if_true, if_false]; omega
    · simp only [h1, h2, if_false]; omega

theorem calculate_rank_loop_scores (id_file : List Nat) (hits : List Posting) :
    ∀ pos, (calculate_rank_loop id_file pos hits).map SearchResult.score
      = hits.map (fun p => float_of_int p.freq) := by
  induction hits with
  | nil => intro pos; rfl
  | cons p rest ih =>
    intro pos
    simp only [calculate_rank_loop, List.map_cons, ih]

/-- Two hits whose frequencies 16777216 and 16777217 convert to the same float are a tie
for `cmp_search_results` and are printed in their input order. -/
theorem ranking_rounded_tie (id_file : List Nat) :
    linkedlist_sort cmp_search_results (calculate_rank [⟨0, 16777216⟩, ⟨1, 16777217⟩] id_file)
      = calculate_rank [⟨0, 16777216⟩, ⟨1, 16777217⟩] id_file ∧
    (calculate_rank [⟨0, 16777216⟩, ⟨1, 16777217⟩] id_file).map SearchResult.score
      = [16777216, 16777216] := by
  have h1 : float_of_int 16777216 = 16777216 := by decide
  have h2 : float_of_int 16777217 = 16777216 := by decide
  refine ⟨?_, ?_⟩
  · simp only [calculate_rank, calculate_rank_loop, h1, h2]
    rfl
  · rw [calculate_rank, calculate_rank_loop_scores]
    simp only [List.map_cons, List.map_nil, h1, h2]

/-- C11. Ranking order: for every list of search results, the list the searcher prints
(`linkedlist_sort` with `cmp_search_results`) is a permutation of the results in
non-increasing score order, and the results of each score keep their input order. The
score of a result is the value of its float, the one `cmp_search_results` compares: in
the list `calculate_rank` hands to the sort it is the frequency of the hit converted to
a float, so hits whose frequencies round to the same float are results of equal score. -/
theorem ranking_order (results : List SearchResult) :
    (linkedlist_sort cmp_search_results results).Perm results ∧
    (linkedlist_sort cmp_search_results results).Pairwise (fun a b => b.score ≤ a.score) ∧
    (∀ s : Int, (linkedlist_sort cmp_search_results results).filter (fun r => decide (r.score = s))
      = results.filter (fun r => decide (r.score = s))) ∧
    (∀ hits id_file, (calculate_rank hits id_file).map SearchResult.score
      = hits.map (fun p => float_of_int p.freq)) := by
  have htotal : ∀ x y : SearchResult, cmp_search_results x y ≤ 0 ∨ cmp_search_results y x ≤ 0 := by
    intro x y
    rw [cmp_search_results_le, cmp_search_results_le]
    exact le_total _ _
  have htrans : ∀ x y z : SearchResult, cmp_search_results x y ≤ 0 →
      cmp_search_results y z ≤ 0 → cmp_search_results x z ≤ 0 := by
    intro x y z
    rw [cmp_search_results_le, cmp_search_results_le, cmp_search_results_le]
    exact fun h1 h2 => le_trans h2 h1
  obtain ⟨hperm, hsorted, hstable⟩ := linkedlist_sort_spec cmp_search_results htotal htrans results
  refine ⟨hperm, hsorted.imp (fun h => (cmp_search_results_le _ _).1 h), ?_,
    fun hits id_file => calculate_rank_loop_scores id_file hits 0⟩
  intro s
  apply hstable
  intro x y hx hy
  rw [cmp_search_results_le]
  simp only [decide_eq_true_eq] at hx hy
  omega

/-! ## Missing terms -/

theorem ends_with_iff (str suffix : List Nat) : ends_with str suffix = true ↔ suffix <:+ str := by
  unfold ends_with
  by_cases h : suffix.length > str.length
  · simp only [h, if_true]
    constructor
    · intro h'; cases h'
    · intro hs
      have := hs.length_le
      omega
  · simp only [h, if_false, beq_iff_eq]
    rw [List.suffix_iff_eq_drop]
    exact eq_comm

theorem stem_loop_find (word : List Nat) (l : List (List Nat)) :
    stem_loop word l =
      match l.find? (fun s => decide (qualifies word s)) with
      | some s => word.rdrop s.length
      | none => word := by
  induction l with
  | nil => rfl
  | cons s rest ih =>
    have hcond : (ends_with word s && decide ((word.length : Int) - (s.length : Int) ≥ too_short))
        = decide (qualifies word s) := by
      rw [Bool.eq_iff_iff]
      simp only [Bool.and_eq_true, decide_eq_true_eq, ends_with_iff, too_short]
      constructor
      · rintro ⟨h1, h2⟩
        exact ⟨h1, by omega⟩
      · rintro ⟨h1, h2⟩
        exact ⟨h1, by omega⟩
    simp only [stem_loop, hcond, List.find?_cons]
    cases hd : decide (qualifies word s)
    · simp only [Bool.false_eq_true, if_false]
      exact ih
    · simp only [if_true]
      rfl

theorem stem_eq_stem_spec (w : List Nat) : stem w = stem_spec w := by
  unfold stem stem_spec first_qualifying
  rw [stem_loop_find]
  rfl

/-- C13. Stemmer definition: for every word, `stem` yields the stem of the specification
(the lowercased word with the first qualifying suffix of the ordered list removed, where
a suffix qualifies when the word ends with it and at least 3 characters remain, and the
lowercased word when no suffix qualifies); the stem followed by the removed suffix is the
lowercased word, so at most one suffix is removed; and `business` stems to `busi`. -/
theorem stem_definition (w : List Nat) :
    stem w = stem_spec w ∧
    (∀ s, first_qualifying (ascii_lower w) = some s →
      s ∈ spec_suffixes ∧ qualifies (ascii_lower w) s ∧ stem w ++ s = ascii_lower w ∧
      ∀ t, t ∈ spec_suffixes.takeWhile (fun t => !decide (qualifies (ascii_lower w) t)) →
        ¬ qualifies (ascii_lower w) t) ∧
    (first_qualifying (ascii_lower w) = none →
      stem w = ascii_lower w ∧ ∀ t, t ∈ spec_suffixes → ¬ qualifies (ascii_lower w) t) ∧
    stem (bytes "business") = bytes "busi" := by
  refine ⟨stem_eq_stem_spec w, ?_, ?_, by decide⟩
  · intro s hs
    have hmem : s ∈ spec_suffixes := List.mem_of_find?_eq_some hs
    have hq : qualifies (ascii_lower w) s := by
      have := List.find?_some hs
      simpa using this
    refine ⟨hmem, hq, ?_, ?_⟩
    · rw [stem_eq_stem_spec]
      unfold stem_spec
      rw [hs]
      show (ascii_lower w).rdrop s.length ++ s = ascii_lower w
      obtain ⟨p, hp⟩ := hq.1
      rw [← hp]
      simp [List.rdrop]
    · intro t ht
      have h := List.mem_takeWhile_imp ht
      intro hq
      simp [hq] at h
  · intro hnone
    refine ⟨?_, ?_⟩
    · rw [stem_eq_stem_spec]
      unfold stem_spec
      rw [hnone]
    · intro t ht
      have h := List.find?_eq_none.mp hnone t ht
      exact fun hq => h (decide_eq_true hq)

theorem stem_definition_witness :
    first_qualifying (ascii_lower (bytes "Business")) = some (bytes "ness") ∧
    stem (bytes "Business") ++ bytes "ness" = ascii_lower (bytes "Business") ∧
    ascii_lower (bytes "Business") = bytes "business" :=
  ⟨by decide, ((stem_definition (bytes "Business")).2.1 (bytes "ness") (by decide)).2.2.1,
    by decide⟩

/-! ## Who normalises: the indexer stores words as they come, the searcher stems -/

/-- A word is a dictionary key after the reading loop exactly when it is a content word
of the stream. -/
theorem mem_keys_iff_word (stream : List (List Nat)) (st : Indexer)
    (hst : indexer_read stream = some st) (w : List Nat) :
    w ∈ (inorder st.myTree).map Prod.fst ↔ ∃ d ∈ doc_words stream, w ∈ d := by
  obtain ⟨hinv, hlook⟩ := (indexer_read_spec stream).2 st hst
  constructor
  · intro h
    obtain ⟨p, hp, rfl⟩ := List.mem_map.1 h
    exact key_is_word stream st hst p hp
  · rintro ⟨d, hd, hw⟩
    rw [mem_keys_iff st hinv, hlook]
    obtain ⟨i, hi, hget⟩ := List.getElem_of_mem hd
    have hcount : 0 < d.count w := List.count_pos_iff.2 hw
    have hmem : (⟨(i : Int), (d.count w : Nat)⟩ : Posting) ∈
        expected_postings w 0 (doc_words stream) := by
      rw [mem_expected_postings]
      refine ⟨by simp, ?_, ?_⟩
      · show (1 : Int) ≤ ((d.count w : Nat) : Int)
        exact_mod_cast hcount
      · show ((d.count w : Nat) : Int) = _
        simp [List.getElem?_eq_getElem hi, hget]
    exact List.ne_nil_of_mem hmem

/-- C14 (as stated). The indexer does not stem: on the stream of one document whose
content word is `runner` (the parser's stem of `runners`), the dictionary key under
which the word is inserted is `runner` itself, while `stem` maps `runner` to `runn`,
which is no key of the dictionary. -/
theorem indexer_key_counterexample :
    (indexer_read [bytes "A0000000000001", bytes "runner"]).map
        (fun st => (inorder st.myTree).map Prod.fst) = some [bytes "runner"] ∧
    stem (bytes "runner") = bytes "runn" ∧
    (indexer_read [bytes "A0000000000001", bytes "runner"]).map
        (fun st => posting_list_of st.myTree (stem (bytes "runner"))) = some [] := by
  decide

/-- C14 (as amended). For every well-formed stream the indexer turns into index files,
the dictionary keys are exactly the content words of the stream, each inserted under
itself (the indexer applies no normalisation), and for every query word `q` the
searcher looks up `stem q`: `get_posting_list` returns the posting list the dictionary
holds under the key `stem q`, and nothing when `stem q` is no key. -/
theorem normalisation_of_keys (stream : List (List Nat)) (st : Indexer) (files : IndexFiles)
    (hst : indexer_read stream = some st) (hfiles : indexer_main stream = some files)
    (hwf : well_formed_stream stream)
    (hcs : ∀ d ∈ doc_words stream, ∀ w ∈ d, is_c_string w)
    (hlines : stream.length < 2 ^ 31) (hsize : files.POSTING_FILE.length < 2 ^ 31) :
    (∀ w, w ∈ (inorder st.myTree).map Prod.fst ↔ ∃ d ∈ doc_words stream, w ∈ d) ∧
    (∀ d ∈ doc_words stream, ∀ w ∈ d, posting_list_of st.myTree w ≠ []) ∧
    (∀ q, get_posting_list q files.DICT_FILE files.POSTING_FILE
        ((files.DICT_FILE.length / 64 : Nat) : Int) =
      if stem q ∈ (inorder st.myTree).map Prod.fst
      then some (posting_list_of st.myTree (stem q)) else none) := by
  obtain ⟨hinv, hlook⟩ := (indexer_read_spec stream).2 st hst
  have hf := indexer_main_eq stream st hst
  rw [hfiles] at hf
  have hfe := Option.some.inj hf
  subst hfe
  refine ⟨mem_keys_iff_word stream st hst, ?_, ?_⟩
  · intro d hd w hw
    rw [posting_list_of_eq _ _ hinv.1]
    exact (mem_keys_iff st hinv w).1 ((mem_keys_iff_word stream st hst w).2 ⟨d, hd, hw⟩)
  · intro q
    have hlen : (dict_records 0 (inorder st.myTree)).length / 64 = (inorder st.myTree).length := by
      rw [dict_records_length]
      omega
    show get_posting_list q (dict_records 0 (inorder st.myTree))
      (posting_bytes (inorder st.myTree))
      (((dict_records 0 (inorder st.myTree)).length / 64 : Nat) : Int) = _
    rw [hlen, get_posting_list_indexed stream st hst hwf hcs hlines hsize q,
      posting_list_of_eq _ _ hinv.1, hlook]
    have hk := mem_keys_iff st hinv (stem q)
    rw [hlook] at hk
    by_cases he : expected_postings (stem q) 0 (doc_words stream) = []
    · have hn : ¬ stem q ∈ (inorder st.myTree).map Prod.fst := fun hm => hk.1 hm he
      rw [if_pos he, if_neg hn]
    · rw [if_neg he, if_pos (hk.2 he)]

theorem normalisation_of_keys_witness :
    ∃ st, indexer_read sample_stream = some st ∧
      (bytes "dog" ∈ (inorder st.myTree).map Prod.fst ↔
        ∃ d ∈ doc_words sample_stream, bytes "dog" ∈ d) ∧
      get_posting_list (bytes "dogs") sample_files.DICT_FILE sample_files.POSTING_FILE
          ((sample_files.DICT_FILE.length / 64 : Nat) : Int) =
        if stem (bytes "dogs") ∈ (inorder st.myTree).map Prod.fst
        then some (posting_list_of st.myTree (stem (bytes "dogs"))) else none :=
  ((indexer_read_spec sample_stream).1 sample_stream_well_formed).elim
    (fun st hst => ⟨st, hst,
      (normalisation_of_keys sample_stream st sample_files hst (by decide)
        sample_stream_well_formed sample_stream_c_strings (by decide) (by decide)).1
        (bytes "dog"),
      (normalisation_of_keys sample_stream st sample_files hst (by decide)
        sample_stream_well_formed sample_stream_c_strings (by decide) (by decide)).2.2
        (bytes "dogs")⟩)

/-! ## Worked examples of the specification -/

/-- C15 (as stated). On the index of the two documents `A0000000000001` and
`A0000000000002`, each holding the stem of `running` once, the query `run` returns no
result: `stem` maps `running` to `runn` and leaves `run` as it is, and `run` is no key
of the dictionary. -/
theorem query_run_counterexample :
    stem (bytes "running") = bytes "runn" ∧ stem (bytes "run") = bytes "run" ∧
    (indexer_main [bytes "A0000000000001", stem (bytes "running"), [],
        bytes "A0000000000002", stem (bytes "running")]).map
      (fun files => searcher_main files [bytes "run"]) = some (0, []) := by
  decide

/-- C15 (as amended). With a corpus of two documents `A0000000000001` and
`A0000000000002`, each containing the word `running` once (normalised by `stem`, which
gives `runn`), the query `running` returns both documents, each with score 1, in
document order; the query `run`, whose stem is `run`, returns nothing. -/
theorem query_running_example :
    (indexer_main [bytes "A0000000000001", stem (bytes "running"), [],
        bytes "A0000000000002", stem (bytes "running")]).map
      (fun files => searcher_main files [bytes "running"]) =
        some (0, [⟨bytes "A0000000000001", 1⟩, ⟨bytes "A0000000000002", 1⟩]) ∧
    (indexer_main [bytes "A0000000000001", stem (bytes "running"), [],
        bytes "A0000000000002", stem (bytes "running")]).map
      (fun files => searcher_main files [bytes "run"]) = some (0, []) := by
  decide

/-- C16. Encoder test vectors: `variable_byte_encode` writes `[0x80]` for 0, `[0xFF]` for
127, `[0x01, 0x80]` for 128, `[0x7F, 0xFF]` for 16383 and `[0x01, 0x00, 0x80]` for
16384, and the decoder loop run over the concatenation of these five encodings
completes exactly the numbers 0, 127, 128, 16383, 16384, in this order. -/
theorem encoder_test_vectors :
    variable_byte_encode 0 = [0x80] ∧ variable_byte_encode 127 = [0xFF] ∧
    variable_byte_encode 128 = [0x01, 0x80] ∧ variable_byte_encode 16383 = [0x7F, 0xFF] ∧
    variable_byte_encode 16384 = [0x01, 0x00, 0x80] ∧
    completed_numbers 0 (variable_byte_encode 0 ++ variable_byte_encode 127 ++
        variable_byte_encode 128 ++ variable_byte_encode 16383 ++ variable_byte_encode 16384)
      = [0, 127, 128, 16383, 16384] ∧
    (variable_byte_encode 0 ++ variable_byte_encode 127 ++ variable_byte_encode 128 ++
        variable_byte_encode 16383 ++ variable_byte_encode 16384).foldl decode_step decode_init
      = [0, 127, 128, 16383, 16384].foldl decode_emit decode_init := by
  decide

/-! ## The range of the codec -/

theorem completed_numbers_low (l : List Nat) (hl : ∀ b ∈ l, b < 128) (rest : List Nat) :
    ∀ r, completed_numbers r (l ++ rest) =
      completed_numbers (l.foldl (fun r b => ((r ||| b) <<< 7) % 2 ^ 32) r) rest := by
  induction l with
  | nil => intro r; rfl
  | cons b l ih =>
    intro r
    have hb : b < 128 := hl b (List.mem_cons_self _ _)
    have h0 : b &&& 128 = 0 := (low_byte_facts ⟨b, hb⟩).1
    simp only [List.cons_append, completed_numbers, h0, if_true, List.foldl_cons]
    exact ih (fun x hx => hl x (List.mem_cons_of_mem _ hx)) _

theorem completed_numbers_encode (n : Nat) (hn : n < 2 ^ 31) :
    completed_numbers 0 (variable_byte_encode (n : Int)) = [n] := by
  rcases Nat.eq_zero_or_pos n with h0 | hpos
  · subst h0
    decide
  · rw [encode_pos n hpos,
      completed_numbers_low _ (fun b hb => vb_buffer_lt _ _ b (List.mem_reverse.1 hb)),
      List.foldl_reverse]
    have hacc := accumulate_buffer (n - 1) (n >>> 7) (by rw [shr7]; omega) (by rw [shr7]; omega)
    have hlow : n &&& 127 < 128 := by rw [and127]; exact Nat.mod_lt _ (by norm_num)
    obtain ⟨-, h2, h3⟩ := low_byte_facts ⟨n &&& 127, hlow⟩
    simp only at h2 h3
    simp only [completed_numbers, h2, if_false, h3]
    rw [hacc, shr7, or_low _ _ hlow, and127]
    congr 1
    omega

/-- The decoder loop and `completed_numbers` agree: the loop emits the completed numbers
one after the other and ends with the accumulator of the unfinished number. -/
theorem foldl_decode_step_completed (data : List Nat) :
    ∀ s : DecodeState, ∃ r,
      data.foldl decode_step s =
        { (completed_numbers s.res data).foldl decode_emit s with res := r } := by
  induction data with
  | nil => intro s; exact ⟨s.res, rfl⟩
  | cons b data ih =>
    intro s
    by_cases h0 : b &&& 128 = 0
    · obtain ⟨r, hr⟩ := ih { s with res := ((s.res ||| b) <<< 7) % 2 ^ 32 }
      refine ⟨r, ?_⟩
      simp only [List.foldl_cons, decode_step, h0, if_true, completed_numbers]
      rw [hr]
      cases hc : completed_numbers (((s.res ||| b) <<< 7) % 2 ^ 32) data with
      | nil => simp
      | cons a l => simp only [List.foldl_cons, decode_emit_res]
    · obtain ⟨r, hr⟩ := ih (decode_emit s (s.res ||| (b ^^^ 128)))
      refine ⟨r, ?_⟩
      simp only [List.foldl_cons, decode_step, h0, if_false, completed_numbers]
      rw [hr]
      have hres : (decode_emit s (s.res ||| (b ^^^ 128))).res = 0 := by
        unfold decode_emit
        split <;> rfl
      rw [hres]

/-- C17 (as stated). The value `2^31` does not survive the round trip: converted to the
`int` parameter of `variable_byte_encode` it is `-2^31`, for which the single byte
`0x80` is written, and the decoder completes the number 0; and on the bytes that encode
all 32 bits of `2^31` the 32-bit accumulator of the decoder ends as `-2^31`. -/
theorem codec_range_counterexample :
    (2147483648 : Int) < 2 ^ 63 ∧
    wrap32 2147483648 = -2147483648 ∧
    variable_byte_encode (wrap32 2147483648) = [0x80] ∧
    (completed_numbers 0 (variable_byte_encode (wrap32 2147483648))).map toInt32 = [0] ∧
    (completed_numbers 0 (variable_byte_encode 2147483648)).map toInt32 = [-2147483648] ∧
    decode_posting_list (variable_byte_encode 0 ++ variable_byte_encode 2147483648)
      = [⟨0, -2147483648⟩] := by
  decide

/-- C17 (as amended). For all non-negative integers `n` a C `int` represents
(`0 <= n < 2^31`), decoding the bytes written by `variable_byte_encode n` with the
searcher's decoder yields `n`: the loop completes the single number `n`, and
`decode_posting_list` returns `n` both when it is read as a frequency and when it is
read as a document index. -/
theorem codec_range (n : Int) (h0 : 0 ≤ n) (h1 : n < 2 ^ 31) :
    (completed_numbers 0 (variable_byte_encode n)).map toInt32 = [n] ∧
    decode_posting_list (variable_byte_encode 0 ++ variable_byte_encode n) = [⟨0, n⟩] ∧
    decode_posting_list (variable_byte_encode n ++ variable_byte_encode 1) = [⟨n, 1⟩] := by
  obtain ⟨k, rfl⟩ := Int.eq_ofNat_of_zero_le h0
  have hk : k < 2 ^ 31 := by exact_mod_cast h1
  have hto : toInt32 k = (k : Int) := toInt32_of_lt k hk
  have hmod : k % 4294967296 = k := Nat.mod_eq_of_lt (by omega)
  have ht0 : toInt32 0 = 0 := by decide
  have ht1 : toInt32 1 = 1 := by decide
  refine ⟨?_, ?_, ?_⟩
  · rw [completed_numbers_encode k hk]
    simp [hto]
  · unfold decode_posting_list
    rw [List.foldl_append, decode_encode_int 0 (by decide) (by decide) decode_init rfl,
      decode_encode_int (k : Int) h0 h1 _ (by decide)]
    simp [decode_emit, decode_init, hto, ht0]
  · unfold decode_posting_list
    rw [List.foldl_append, decode_encode_int (k : Int) h0 h1 decode_init rfl,
      decode_encode_int 1 (by decide) (by decide) _ (by simp [decode_emit, decode_init])]
    simp [decode_emit, decode_init, hto, hmod, ht1]

theorem codec_range_witness :
    (completed_numbers 0 (variable_byte_encode 2147483647)).map toInt32 = [2147483647] ∧
    decode_posting_list (variable_byte_encode 0 ++ variable_byte_encode 2147483647)
      = [⟨0, 2147483647⟩] ∧
    decode_posting_list (variable_byte_encode 2147483647 ++ variable_byte_encode 1)
      = [⟨2147483647, 1⟩] :=
  codec_range 2147483647 (by decide) (by decide)

/-- C18. Indexing example: on the stream of the two documents `D1` with content words
`cat, cat, dog` and `D2` with content word `dog`, the indexer holds the posting lists
`cat -> [(0,2)]` and `dog -> [(0,1),(1,1)]` and no other, and the postings file it
writes is exactly the 6 bytes `encode(0) encode(2) encode(0) encode(1) encode(1)
encode(1)`. -/
theorem indexing_example :
    (indexer_read [bytes "D1", bytes "cat", bytes "cat", bytes "dog", [],
        bytes "D2", bytes "dog"]).map (fun st => inorder st.myTree) =
      some [(bytes "cat", [⟨0, 2⟩]), (bytes "dog", [⟨0, 1⟩, ⟨1, 1⟩])] ∧
    (indexer_read [bytes "D1", bytes "cat", bytes "cat", bytes "dog", [],
        bytes "D2", bytes "dog"]).map
      (fun st => (posting_list_of st.myTree (bytes "cat"),
        posting_list_of st.myTree (bytes "dog"))) =
      some ([⟨0, 2⟩], [⟨0, 1⟩, ⟨1, 1⟩]) ∧
    (indexer_main [bytes "D1", bytes "cat", bytes "cat", bytes "dog", [],
        bytes "D2", bytes "dog"]).map (fun files => files.POSTING_FILE) =
      some (variable_byte_encode 0 ++ variable_byte_encode 2 ++ variable_byte_encode 0 ++
        variable_byte_encode 1 ++ variable_byte_encode 1 ++ variable_byte_encode 1) ∧
    (indexer_main [bytes "D1", bytes "cat", bytes "cat", bytes "dog", [],
        bytes "D2", bytes "dog"]).map (fun files => files.POSTING_FILE.length) = some 6 := by
  decide

/-- C19. Intersection and ranking example: intersecting the posting lists
`[(0,2),(2,1)]` and `[(0,1),(1,3),(2,5)]`, in that query order, gives `[(0,3),(2,6)]`,
and ranking and sorting these gives exactly two results in this order: document 2 (the
identifier read at offset `2 * 15` of the doc-id file) with score 6, then document 0
(the identifier read at offset 0) with score 3. -/
theorem intersect_and_rank_example (id_file : List Nat) :
    intersect_posting_lists [[⟨0, 2⟩, ⟨2, 1⟩], [⟨0, 1⟩, ⟨1, 3⟩, ⟨2, 5⟩]]
      = some [⟨0, 3⟩, ⟨2, 6⟩] ∧
    (intersect_posting_lists [[⟨0, 2⟩, ⟨2, 1⟩], [⟨0, 1⟩, ⟨1, 3⟩, ⟨2, 5⟩]]).map
        (fun results => linkedlist_sort cmp_search_results (calculate_rank results id_file))
      = some [⟨fread_at id_file (2 * 15) DOC_ID_SIZE, 6⟩, ⟨fread_at id_file 0 DOC_ID_SIZE, 3⟩] ∧
    (intersect_posting_lists [[⟨0, 2⟩, ⟨2, 1⟩], [⟨0, 1⟩, ⟨1, 3⟩, ⟨2, 5⟩]]).map
        (fun results => linkedlist_sort cmp_search_results (calculate_rank results
          (save_id_list [bytes "A0000000000000", bytes "A0000000000001",
            bytes "A0000000000002"])))
      = some [⟨bytes "A0000000000002", 6⟩, ⟨bytes "A0000000000000", 3⟩] := by
  refine ⟨by decide, ?_, by decide⟩
  have h : intersect_posting_lists [[⟨0, 2⟩, ⟨2, 1⟩], [⟨0, 1⟩, ⟨1, 3⟩, ⟨2, 5⟩]]
      = some [⟨0, 3⟩, ⟨2, 6⟩] := by decide
  rw [h]
  rfl

/-! ## Identifiers shorter than `DOC_ID_SIZE` -/

/-- C20. On the index of the one document `DOC-0001` with content words `the, cat, sat`,
the query `cats` yields one result of score 1, for which `fread` delivers only the 8
bytes of the doc-id file, and `calculate_rank` terminates the `doc_id` array at index 14
only: bytes 8 to 13 of the array are what the allocated block held. On a zeroed block
the searcher prints the identifier `DOC-0001`; on a block filled with the byte 167 it
prints `DOC-0001` followed by six bytes 167, not `DOC-0001`. -/
theorem short_doc_id_unterminated :
    (indexer_main [bytes "DOC-0001", bytes "the", bytes "cat", bytes "sat"]).map
      (fun files => searcher_main files [bytes "cats"]) = some (0, [⟨bytes "DOC-0001", 1⟩]) ∧
    printed_doc_id (List.replicate 14 0) ⟨bytes "DOC-0001", 1⟩ = bytes "DOC-0001" ∧
    printed_doc_id (List.replicate 14 167) ⟨bytes "DOC-0001", 1⟩
      = bytes "DOC-0001" ++ List.replicate 6 167 ∧
    printed_doc_id (List.replicate 14 167) ⟨bytes "DOC-0001", 1⟩ ≠ bytes "DOC-0001" := by
  decide

/-- Whatever 14 bytes the block of the result held before, the identifier printed for
the 8-byte doc-id file `DOC-0001` begins with `DOC-0001`, and it is exactly `DOC-0001`
if and only if the byte at index 8 of the block is NUL. -/
theorem printed_short_doc_id (old : List Nat) (hold : old.length = DOC_ID_SIZE) :
    bytes "DOC-0001" <+: printed_doc_id old ⟨bytes "DOC-0001", 1⟩ ∧
      (printed_doc_id old ⟨bytes "DOC-0001", 1⟩ = bytes "DOC-0001" ↔ old.getD 8 0 = 0) := by
  match old, hold with
  | [a0, a1, a2, a3, a4, a5, a6, a7, a8, a9, a10, a11, a12, a13], _ =>
    have hp : printed_doc_id [a0, a1, a2, a3, a4, a5, a6, a7, a8, a9, a10, a11, a12, a13]
        ⟨bytes "DOC-0001", 1⟩ =
        bytes "DOC-0001" ++ [a8, a9, a10, a11, a12, a13, 0].takeWhile (· ≠ 0) := by
      rfl
    rw [hp]
    refine ⟨List.prefix_append _ _, ?_⟩
    rw [List.append_right_eq_self]
    by_cases h8 : a8 = 0
    · simp [h8, List.takeWhile]
    · simp [h8, List.takeWhile]

/-! ## The doc-id file -/

theorem save_id_list_eq_intercalate (ids : List (List Nat)) :
    save_id_list ids = List.intercalate [10] ids := by
  induction ids with
  | nil => rfl
  | cons a rest ih =>
    cases rest with
    | nil => simp [save_id_list, List.intercalate, List.intersperse]
    | cons b rest' =>
      simp only [save_id_list, ih]
      simp [List.intercalate, List.intersperse]

theorem save_id_list_getLast (ids : List (List Nat)) (id : List Nat)
    (h : ids.getLast? = some id) : id <:+ save_id_list ids := by
  induction ids with
  | nil => simp at h
  | cons a rest ih =>
    cases rest with
    | nil =>
      simp only [List.getLast?_singleton, Option.some.injEq] at h
      subst h
      exact List.suffix_refl _
    | cons b rest' =>
      rw [List.getLast?_cons_cons] at h
      simp only [save_id_list]
      exact (ih h).trans (List.suffix_append _ _)

theorem save_id_list_count (ids : List (List Nat)) (h : ∀ id ∈ ids, 10 ∉ id) :
    (save_id_list ids).count 10 = ids.length - 1 := by
  induction ids with
  | nil => rfl
  | cons a rest ih =>
    have ha : a.count 10 = 0 := List.count_eq_zero.2 (h a (List.mem_cons_self _ _))
    cases rest with
    | nil => simpa [save_id_list] using ha
    | cons b rest' =>
      have := ih (fun id hid => h id (List.mem_cons_of_mem _ hid))
      simp only [save_id_list, List.count_append, ha, this, List.length_cons]
      simp
      omega

/-- C21. Doc-id file layout: the indexer runs on every well-formed stream, and the
doc-id file it writes is the identifiers of the documents in doc-index order joined by
single newline bytes: it ends with the last identifier (no newline follows it), it
holds one newline fewer than there are documents when no identifier holds a newline,
and for a single document it is that document's identifier and nothing else. -/
theorem doc_id_file_layout (stream : List (List Nat)) :
    (well_formed_stream stream → ∃ files, indexer_main stream = some files) ∧
    ∀ files, indexer_main stream = some files →
      files.ID_FILE = List.intercalate [10] (doc_ids stream) ∧
      (∀ id, (doc_ids stream).getLast? = some id → id <:+ files.ID_FILE) ∧
      ((∀ id ∈ doc_ids stream, 10 ∉ id) →
        files.ID_FILE.count 10 = (doc_ids stream).length - 1) ∧
      (∀ id, doc_ids stream = [id] → files.ID_FILE = id) := by
  refine ⟨?_, ?_⟩
  · intro hwf
    obtain ⟨st, hst⟩ := (indexer_read_spec stream).1 hwf
    exact ⟨_, indexer_main_eq stream st hst⟩
  · intro files hfiles
    cases hst : indexer_read stream with
    | none => simp [indexer_main, hst] at hfiles
    | some st =>
      have hf := indexer_main_eq stream st hst
      rw [hfiles] at hf
      have hfe := Option.some.inj hf
      subst hfe
      have hids := indexer_read_id_list stream st hst
      simp only [hids]
      refine ⟨save_id_list_eq_intercalate _, save_id_list_getLast _, save_id_list_count _, ?_⟩
      intro id hid
      rw [hid]
      rfl

theorem doc_id_file_layout_witness :
    sample_files.ID_FILE = List.intercalate [10] (doc_ids sample_stream) ∧
    sample_files.ID_FILE.count 10 = (doc_ids sample_stream).length - 1 :=
  ⟨((doc_id_file_layout sample_stream).2 sample_files (by decide)).1,
    ((doc_id_file_layout sample_stream).2 sample_files (by decide)).2.2.1 (by decide)⟩

/-- C22. Doc-id random access: when every identifier is exactly 14 bytes long, then for
every doc index `i` below the number of documents the 14 bytes at byte offset `15 * i`
of the file `save_id_list` writes are the identifier of document `i`, and they are what
`calculate_rank` stores for a posting of document `i` (next to the frequency of the
posting converted to a float); this holds in particular for the doc-id file the indexer
writes for a stream. -/
theorem doc_id_random_access (ids : List (List Nat))
    (h14 : ∀ id ∈ ids, id.length = DOC_ID_SIZE) (i : Nat) (hi : i < ids.length) :
    fread_at (save_id_list ids) (15 * i) DOC_ID_SIZE = ids.getD i [] ∧
    (∀ freq : Int, calculate_rank [⟨(i : Int), freq⟩] (save_id_list ids)
      = [⟨ids.getD i [], float_of_int freq⟩]) ∧
    (∀ stream files, indexer_main stream = some files → doc_ids stream = ids →
      ∀ freq : Int, calculate_rank [⟨(i : Int), freq⟩] files.ID_FILE
        = [⟨(doc_ids stream).getD i [], float_of_int freq⟩]) := by
  have hget : ids[i]? = some (ids.getD i []) := by
    rw [List.getD_eq_getElem?_getD, List.getElem?_eq_getElem hi]
    rfl
  have hread := save_id_list_at ids h14 i _ hget
  have hrank : ∀ freq : Int, calculate_rank [⟨(i : Int), freq⟩] (save_id_list ids)
      = [⟨ids.getD i [], float_of_int freq⟩] := by
    intro freq
    unfold calculate_rank
    rw [calculate_rank_loop_eq _ _ (by intro p hp; simp at hp; subst hp; simp)]
    simp [hread]
  refine ⟨hread, hrank, ?_⟩
  intro stream files hfiles hids freq
  cases hst : indexer_read stream with
  | none => simp [indexer_main, hst] at hfiles
  | some st =>
    have hf := indexer_main_eq stream st hst
    rw [hfiles] at hf
    have hfe := Option.some.inj hf
    subst hfe
    have := indexer_read_id_list stream st hst
    simp only [this, hids]
    exact hrank freq

theorem doc_id_random_access_witness :
    fread_at (save_id_list (doc_ids sample_stream)) (15 * 1) DOC_ID_SIZE
      = bytes "A0000000000002" ∧
    calculate_rank [⟨1, 7⟩] sample_files.ID_FILE = [⟨bytes "A0000000000002", 7⟩] :=
  ⟨(doc_id_random_access (doc_ids sample_stream) (by decide) 1 (by decide)).1,
    (doc_id_random_access (doc_ids sample_stream) (by decide) 1 (by decide)).2.2
      sample_stream sample_files (by decide) rfl 7⟩

/-! ## The dictionary record -/

theorem key_field_eq (key : List Nat) (hlen : key.length < MAX_KEY_SIZE) :
    key_field key = key ++ List.replicate (MAX_KEY_SIZE - key.length) 0 := by
  unfold key_field
  rw [List.take_append_eq_append_take, List.take_of_length_le (le_of_lt hlen),
    List.take_replicate]
  congr 2
  omega

/-- C23. Dictionary record layout: for every term shorter than 60 bytes and every offset
`0 <= o < 2^31` held in `*byte_offset`, the bytes `_write_dict_postings` appends to the
dictionary file for the node of the term are one record of exactly 64 bytes: the bytes
of the term, then zero bytes up to position 60, then `o` as 4 bytes, most significant
first; and `read_int_big_endian` applied to those 4 bytes returns `o`. -/
theorem dictionary_record_layout (key : List Nat) (list : List Posting) (c : RBColor)
    (w : Writer) (hlen : key.length < MAX_KEY_SIZE)
    (h0 : 0 ≤ w.byte_offset) (h1 : w.byte_offset < 2 ^ 31) :
    ∃ record, (_write_dict_postings (node key list c nil nil) w).fp_dict = w.fp_dict ++ record ∧
      record.length = MAX_KEY_SIZE + OFFSET_SIZE ∧ record.length = 64 ∧
      record.take MAX_KEY_SIZE = key ++ List.replicate (MAX_KEY_SIZE - key.length) 0 ∧
      record.drop MAX_KEY_SIZE =
        [w.byte_offset.toNat / 2 ^ 24 % 256, w.byte_offset.toNat / 2 ^ 16 % 256,
          w.byte_offset.toNat / 2 ^ 8 % 256, w.byte_offset.toNat % 256] ∧
      read_int_big_endian (record.drop MAX_KEY_SIZE) = w.byte_offset := by
  have hkl : (key_field key).length = MAX_KEY_SIZE := key_field_length key
  refine ⟨key_field key ++ write_int_big_endian w.byte_offset, ?_, ?_, ?_, ?_, ?_, ?_⟩
  · simp [_write_dict_postings]
  · simp [key_field_length, write_int_length, MAX_KEY_SIZE, OFFSET_SIZE]
  · simp [key_field_length, write_int_length]
  · rw [List.take_left' hkl, key_field_eq key hlen]
  · rw [List.drop_left' hkl]
    obtain ⟨n, hn⟩ := Int.eq_ofNat_of_zero_le h0
    have hn31 : n < 2 ^ 31 := by rw [hn] at h1; exact_mod_cast h1
    have hof : ofInt32 w.byte_offset = n := by
      rw [hn]
      unfold ofInt32
      have : (n : Int) % 2 ^ 32 = n := Int.emod_eq_of_lt (by omega) (by omega)
      rw [this]; simp
    have m : ∀ x : Nat, x &&& 0xFF = x % 256 := fun x => Nat.and_pow_two_sub_one_eq_mod x 8
    unfold write_int_big_endian
    simp only [hof, m, Nat.shiftRight_eq_div_pow]
    rw [hn]
    simp only [Int.toNat_ofNat]
  · rw [List.drop_left' hkl]
    exact read_write_int_of_range _ h0 h1

theorem dictionary_record_layout_witness :
    ∃ record, (_write_dict_postings (node (bytes "dog") [⟨0, 1⟩] BLACK nil nil)
        ⟨[], [], 258⟩).fp_dict = [] ++ record ∧
      record.length = MAX_KEY_SIZE + OFFSET_SIZE ∧ record.length = 64 ∧
      record.take MAX_KEY_SIZE = bytes "dog" ++ List.replicate (MAX_KEY_SIZE - 3) 0 ∧
      record.drop MAX_KEY_SIZE = [258 / 2 ^ 24 % 256, 258 / 2 ^ 16 % 256,
        258 / 2 ^ 8 % 256, 258 % 256] ∧
      read_int_big_endian (record.drop MAX_KEY_SIZE) = 258 :=
  dictionary_record_layout (bytes "dog") [⟨0, 1⟩] BLACK ⟨[], [], 258⟩ (by decide) (by decide)
    (by decide)

/-! ## The in-order traversal without a limit -/

theorem size_eq_length_inorder (t : RBTreeNode V) : size t = (inorder t).length := by
  induction t with
  | nil => rfl
  | node k v c l r ihl ihr => simp [size, inorder, ihl, ihr]; omega

theorem inorder_traversal_util_all (t : RBTreeNode V) :
    ∀ count : Int, 0 ≤ count →
      inorder_traversal_util t count (-1) = (inorder t, count + (size t : Int)) := by
  induction t with
  | nil => intro count _; simp [inorder_traversal_util, inorder, size]
  | node k v c l r ihl ihr =>
    intro count hc
    have h1 : count ≠ -1 := by omega
    have h2 : 0 ≤ count + (size l : Int) + 1 := by omega
    simp only [inorder_traversal_util, h1, if_false, ihl count hc, or_true, if_true, ihr _ h2,
      inorder, size]
    refine Prod.ext ?_ ?_
    · simp
    · simp only [Nat.cast_add, Nat.cast_one]; ring

theorem rb_inorder_traversal_all (t : RBTreeNode V) : rb_inorder_traversal t (-1) = inorder t := by
  unfold rb_inorder_traversal
  rw [inorder_traversal_util_all t 0 (le_refl _)]

/-! ## Insertion with repeated keys -/

theorem strcmp_le_iff (a b : List Nat) : strcmp a b ≤ 0 ↔ a ≤ b := by
  rw [← not_lt, ← not_lt, strcmp_pos_iff]

/-- Weak search-tree order: the keys met by the in-order walk never decrease. -/
theorem insert_descend_split_le (key : List Nat) (t : RBTreeNode V) (path : List (Frame V))
    (ht : (inorder t).Pairwise (fun a b => a.1 ≤ b.1)) :
    ∃ l₁ l₂, inorder t = l₁ ++ l₂ ∧ (∀ a ∈ l₁, a.1 ≤ key) ∧ (∀ b ∈ l₂, key < b.1) ∧
      path_before (insert_descend key t path) = path_before path ++ l₁ ∧
      path_after (insert_descend key t path) = l₂ ++ path_after path := by
  induction t generalizing path with
  | nil => exact ⟨[], [], by simp [inorder, insert_descend]⟩
  | node k v c l r ihl ihr =>
    simp only [inorder] at ht
    rw [List.pairwise_append] at ht
    obtain ⟨hol, hr, hlr⟩ := ht
    rw [List.pairwise_cons] at hr
    obtain ⟨hgt, hor⟩ := hr
    have hlt : ∀ a ∈ inorder l, a.1 ≤ k := fun a ha => hlr a ha (k, v) (List.mem_cons_self _ _)
    unfold insert_descend
    by_cases hk : strcmp key k < 0
    · simp only [hk, if_true]
      have hkey : key < k := (strcmp_lt_iff _ _).1 hk
      obtain ⟨l₁, l₂, e, h1, h2, hb, ha⟩ := ihl (⟨k, v, c, Dir.L, r⟩ :: path) hol
      refine ⟨l₁, l₂ ++ (k, v) :: inorder r, ?_, h1, ?_, ?_, ?_⟩
      · simp [inorder, e]
      · intro b hb'
        rcases List.mem_append.1 hb' with h | h
        · exact h2 b h
        · rcases List.mem_cons.1 h with h | h
          · subst h; exact hkey
          · exact lt_of_lt_of_le hkey (hgt b h)
      · rw [hb]; simp [path_before]
      · rw [ha]; simp [path_after]
    · simp only [hk, if_false]
      have hkey : k ≤ key := not_lt.1 (fun h => hk ((strcmp_lt_iff _ _).2 h))
      obtain ⟨l₁, l₂, e, h1, h2, hb, ha⟩ := ihr (⟨k, v, c, Dir.R, l⟩ :: path) hor
      refine ⟨inorder l ++ (k, v) :: l₁, l₂, ?_, ?_, h2, ?_, ?_⟩
      · simp [inorder, e]
      · intro a ha'
        rcases List.mem_append.1 ha' with h | h
        · exact le_trans (hlt a h) hkey
        · rcases List.mem_cons.1 h with h | h
          · subst h; exact hkey
          · exact h1 a h
      · rw [hb]; simp [path_before]
      · rw [ha]; simp [path_after]

/-- Insertion by `rb_insert` into a tree whose keys never decrease and whose root is
black: the call is defined, the new pair enters the in-order sequence after the keys
that are not greater and before the greater ones, and the root is black again. -/
theorem rb_insert_spec_le (t : RBTreeNode V) (key : List Nat) (value : V)
    (ht : (inorder t).Pairwise (fun a b => a.1 ≤ b.1)) (hroot : color_of t = BLACK)
    (hlen : key.length < MAX_KEY_SIZE) :
    ∃ t' l₁ l₂, rb_insert t key value = some t' ∧ inorder t = l₁ ++ l₂ ∧
      inorder t' = l₁ ++ (key, value) :: l₂ ∧
      (∀ a ∈ l₁, a.1 ≤ key) ∧ (∀ b ∈ l₂, key < b.1) ∧ color_of t' = BLACK := by
  obtain ⟨l₁, l₂, e, h1, h2, hb, ha⟩ := insert_descend_split_le key t [] ht
  obtain ⟨t₀, h₀⟩ := fixup_loop_isSome _ (insert_descend key t []) (node key value RED nil nil)
    (le_refl _) (insert_descend_root_black key t hroot)
  have hin := inorder_fixup_loop _ _ _ _ (le_refl _) h₀
  rw [inorder_fill, hb, ha] at hin
  simp only [path_before, path_after, inorder, List.nil_append, List.append_nil] at hin
  refine ⟨set_color BLACK t₀, l₁, l₂, ?_, e, ?_, h1, h2, ?_⟩
  · simp [rb_insert, hlen, rb_insert_fixup, h₀]
  · simp [hin]
  · apply color_of_set_color
    apply ne_nil_of_inorder
    rw [hin]; simp

theorem pairwise_le_insert {l₁ l₂ : List (List Nat × V)} {key : List Nat} {value : V}
    (h : (l₁ ++ l₂).Pairwise (fun a b => a.1 ≤ b.1))
    (h1 : ∀ a ∈ l₁, a.1 ≤ key) (h2 : ∀ b ∈ l₂, key < b.1) :
    (l₁ ++ (key, value) :: l₂).Pairwise (fun a b => a.1 ≤ b.1) := by
  rw [List.pairwise_append] at h ⊢
  obtain ⟨ha, hb, hab⟩ := h
  refine ⟨ha, List.pairwise_cons.2 ⟨fun b hb' => le_of_lt (h2 b hb'), hb⟩, ?_⟩
  intro a ha' b hb'
  rcases List.mem_cons.1 hb' with h | h
  · subst h; exact h1 a ha'
  · exact hab a ha' b h

/-- A sequence of `rb_insert` calls with keys shorter than 60 bytes on a tree whose keys
never decrease and whose root is black: every call is defined, and the final tree
holds the former pairs and the inserted ones, again in non-decreasing key order. -/
theorem rb_calls_insert (kvs : List (List Nat × V)) :
    ∀ t : RBTreeNode V, (inorder t).Pairwise (fun a b => a.1 ≤ b.1) → color_of t = BLACK →
      (∀ p ∈ kvs, p.1.length < MAX_KEY_SIZE) →
      ∃ t', rb_calls t (kvs.map (fun p => RBCall.insert p.1 p.2)) = some t' ∧
        (inorder t').Perm (inorder t ++ kvs) ∧
        (inorder t').Pairwise (fun a b => a.1 ≤ b.1) ∧ color_of t' = BLACK := by
  induction kvs with
  | nil => intro t ht hroot _; exact ⟨t, rfl, by simp, ht, hroot⟩
  | cons p rest ih =>
    intro t ht hroot hlen
    obtain ⟨t₁, l₁, l₂, hins, e, e', h1, h2, hblack⟩ :=
      rb_insert_spec_le t p.1 p.2 ht hroot (hlen p (List.mem_cons_self _ _))
    have hsorted : (inorder t₁).Pairwise (fun a b => a.1 ≤ b.1) := by
      rw [e']; exact pairwise_le_insert (e ▸ ht) h1 h2
    obtain ⟨t', hcalls, hperm, hs, hb⟩ :=
      ih t₁ hsorted hblack (fun q hq => hlen q (List.mem_cons_of_mem _ hq))
    refine ⟨t', ?_, ?_, hs, hb⟩
    · simp only [List.map_cons, rb_calls, rb_call, hins]
      exact hcalls
    · refine hperm.trans ?_
      rw [e', e]
      have hmid : (l₁ ++ (p.1, p.2) :: l₂).Perm ((p.1, p.2) :: (l₁ ++ l₂)) := List.perm_middle
      have : ((l₁ ++ (p.1, p.2) :: l₂) ++ rest).Perm ((l₁ ++ l₂) ++ (p.1, p.2) :: rest) := by
        refine (hmid.append_right rest).trans ?_
        simp only [List.cons_append]
        exact List.perm_middle.symm
      exact this

/-- C25. Ordered traversal: after any sequence of `rb_insert` calls with keys shorter
than 60 bytes on an initially empty tree, every call being defined, the in-order
traversal (`rb_inorder_traversal` with `n = -1`) visits exactly the inserted pairs,
each key as many times as it was inserted, in non-decreasing byte-lexicographic order
of the keys. -/
theorem ordered_traversal (kvs : List (List Nat × V))
    (hlen : ∀ p ∈ kvs, p.1.length < MAX_KEY_SIZE) :
    ∃ t, rb_calls nil (kvs.map (fun p => RBCall.insert p.1 p.2)) = some t ∧
      (rb_inorder_traversal t (-1)).Perm kvs ∧
      (∀ key, ((rb_inorder_traversal t (-1)).map Prod.fst).count key
        = (kvs.map Prod.fst).count key) ∧
      (rb_inorder_traversal t (-1)).Pairwise (fun a b => strcmp a.1 b.1 ≤ 0) := by
  obtain ⟨t, hcalls, hperm, hs, -⟩ :=
    rb_calls_insert kvs (nil : RBTreeNode V) (by simp [inorder]) rfl hlen
  simp only [inorder, List.nil_append] at hperm
  refine ⟨t, hcalls, ?_, ?_, ?_⟩
  · rw [rb_inorder_traversal_all]; exact hperm
  · intro key
    rw [rb_inorder_traversal_all]
    exact List.Perm.countP_eq _ (hperm.map Prod.fst)
  · rw [rb_inorder_traversal_all]
    exact hs.imp (fun h => (strcmp_le_iff _ _).2 h)

theorem ordered_traversal_witness :
    ∃ t, rb_calls nil ([(bytes "dog", 1), (bytes "cat", 2), (bytes "dog", 3)].map
        (fun p => RBCall.insert p.1 p.2)) = some t ∧
      (rb_inorder_traversal t (-1)).Perm [(bytes "dog", 1), (bytes "cat", 2), (bytes "dog", 3)] ∧
      (∀ key, ((rb_inorder_traversal t (-1)).map Prod.fst).count key
        = ([(bytes "dog", 1), (bytes "cat", 2), (bytes "dog", 3)].map Prod.fst).count key) ∧
      (rb_inorder_traversal t (-1)).Pairwise (fun a b => strcmp a.1 b.1 ≤ 0) :=
  ordered_traversal [(bytes "dog", 1), (bytes "cat", 2), (bytes "dog", 3)] (by decide)

/-! ## Lookup in an ordered tree -/

theorem value_unique_of_ordered {l : List (List Nat × V)}
    (h : l.Pairwise (fun a b => a.1 < b.1)) {k : List Nat} {v v' : V}
    (h1 : (k, v) ∈ l) (h2 : (k, v') ∈ l) : v = v' := by
  induction l with
  | nil => simp at h1
  | cons a rest ih =>
    rw [List.pairwise_cons] at h
    rcases List.mem_cons.1 h1 with e1 | m1
    · rcases List.mem_cons.1 h2 with e2 | m2
      · rw [← e1] at e2
        exact (Prod.mk.inj e2).2.symm
      · have := h.1 _ m2
        rw [← e1] at this
        exact absurd this (lt_irrefl _)
    · rcases List.mem_cons.1 h2 with e2 | m2
      · have := h.1 _ m1
        rw [← e2] at this
        exact absurd this (lt_irrefl _)
      · exact ih h.2 m1 m2

theorem rb_search_of_mem (t : RBTreeNode V) (ht : ordered t) (k : List Nat) (v : V)
    (h : (k, v) ∈ inorder t) : ∃ c l r, rb_search t k = node k v c l r := by
  cases hs : rb_search t k with
  | nil => exact absurd rfl (rb_search_nil t k ht hs (k, v) h)
  | node k' v' c l r =>
    obtain ⟨hk, hm⟩ := rb_search_mem t k hs
    subst hk
    have := value_unique_of_ordered ht h hm
    subst this
    exact ⟨c, l, r, rfl⟩

theorem rb_search_of_not_mem (t : RBTreeNode V) (k : List Nat)
    (h : k ∉ (inorder t).map Prod.fst) : rb_search t k = nil := by
  cases hs : rb_search t k with
  | nil => rfl
  | node k' v' c l r =>
    obtain ⟨-, hm⟩ := rb_search_mem t k hs
    exact absurd (List.mem_map.2 ⟨(k, v'), hm, rfl⟩) h

theorem ordered_of_le_of_nodup {l : List (List Nat × V)}
    (h : l.Pairwise (fun a b => a.1 ≤ b.1)) (hn : (l.map Prod.fst).Nodup) :
    l.Pairwise (fun a b => a.1 < b.1) := by
  unfold List.Nodup at hn
  rw [List.pairwise_map] at hn
  exact (h.and hn).imp (fun hab => lt_of_le_of_ne hab.1 hab.2)

/-- C26. Lookup: after any sequence of `rb_insert` calls with pairwise distinct keys
shorter than 60 bytes on an initially empty tree, every call being defined, `rb_search`
returns for every inserted key the node that holds the key and the value inserted with
it, and returns the sentinel for every key that was never inserted. -/
theorem lookup_after_inserts (kvs : List (List Nat × V))
    (hlen : ∀ p ∈ kvs, p.1.length < MAX_KEY_SIZE) (hdistinct : (kvs.map Prod.fst).Nodup) :
    ∃ t, rb_calls nil (kvs.map (fun p => RBCall.insert p.1 p.2)) = some t ∧
      (∀ p ∈ kvs, ∃ c l r, rb_search t p.1 = node p.1 p.2 c l r) ∧
      (∀ k, k ∉ kvs.map Prod.fst → rb_search t k = nil) := by
  obtain ⟨t, hcalls, hperm, hs, -⟩ :=
    rb_calls_insert kvs (nil : RBTreeNode V) (by simp [inorder]) rfl hlen
  simp only [inorder, List.nil_append] at hperm
  have hord : ordered t :=
    ordered_of_le_of_nodup hs ((hperm.map Prod.fst).nodup_iff.2 hdistinct)
  refine ⟨t, hcalls, ?_, ?_⟩
  · intro p hp
    exact rb_search_of_mem t hord p.1 p.2 (hperm.mem_iff.2 hp)
  · intro k hk
    apply rb_search_of_not_mem
    intro hm
    exact hk ((hperm.map Prod.fst).mem_iff.1 hm)

theorem lookup_after_inserts_witness :
    ∃ t, rb_calls nil ([(bytes "dog", 1), (bytes "cat", 2), (bytes "emu", 3)].map
        (fun p => RBCall.insert p.1 p.2)) = some t ∧
      (∀ p ∈ [(bytes "dog", 1), (bytes "cat", 2), (bytes "emu", 3)],
        ∃ c l r, rb_search t p.1 = node p.1 p.2 c l r) ∧
      (∀ k, k ∉ [(bytes "dog", 1), (bytes "cat", 2), (bytes "emu", 3)].map Prod.fst →
        rb_search t k = nil) :=
  lookup_after_inserts [(bytes "dog", 1), (bytes "cat", 2), (bytes "emu", 3)]
    (by decide) (by decide)

/-! ## `rb_insert_or_check` -/

theorem insert_or_check_descend_none_iff (key : List Nat) (t : RBTreeNode V) :
    ∀ path : List (Frame V),
      insert_or_check_descend key t path = none ↔ rb_search t key ≠ nil := by
  induction t with
  | nil => intro path; simp [insert_or_check_descend, rb_search]
  | node k v c l r ihl ihr =>
    intro path
    unfold insert_or_check_descend rb_search
    by_cases h0 : strcmp key k = 0
    · simp [h0]
    · by_cases h1 : strcmp key k < 0
      · simp only [h0, h1, if_false, if_true, ne_eq, not_false_eq_true]
        exact ihl _
      · simp only [h0, h1, if_false, if_true, ne_eq, not_false_eq_true]
        exact ihr _

theorem insert_or_check_descend_some (key : List Nat) (t : RBTreeNode V) :
    ∀ path p : List (Frame V),
      insert_or_check_descend key t path = some p → p = insert_descend key t path := by
  induction t with
  | nil =>
    intro path p h
    simp only [insert_or_check_descend, Option.some.injEq] at h
    simp [insert_descend, h]
  | node k v c l r ihl ihr =>
    intro path p h
    unfold insert_or_check_descend at h
    unfold insert_descend
    by_cases h0 : strcmp key k = 0
    · simp [h0] at h
    · by_cases h1 : strcmp key k < 0
      · simp only [h0, h1, if_false, if_true] at h ⊢
        exact ihl _ _ h
      · simp only [h0, h1, if_false] at h ⊢
        exact ihr _ _ h

/-- The two outcomes of `rb_insert_or_check`: the tree is returned as it is when the
search meets the key, and otherwise the new node, holding the first 59 bytes of the
key, is linked where `rb_insert` would link it. -/
theorem rb_insert_or_check_eq (t : RBTreeNode V) (key : List Nat) (value : V) :
    (rb_search t key ≠ nil → rb_insert_or_check t key value = some (t, 0)) ∧
    (rb_search t key = nil → rb_insert_or_check t key value =
      (rb_insert_fixup (node (key.take (MAX_KEY_SIZE - 1)) value RED nil nil)
        (insert_descend key t [])).map (fun t' => (t', 1))) := by
  unfold rb_insert_or_check
  cases hd : insert_or_check_descend key t [] with
  | none =>
    have := (insert_or_check_descend_none_iff key t []).1 hd
    exact ⟨fun _ => rfl, fun h => absurd h this⟩
  | some p =>
    have hne : ¬ rb_search t key ≠ nil := by
      intro h
      have := (insert_or_check_descend_none_iff key t []).2 h
      rw [hd] at this
      cases this
    have hp := insert_or_check_descend_some key t [] p hd
    subst hp
    exact ⟨fun h => absurd h hne, fun _ => rfl⟩

/-- One call of `rb_insert_or_check` with a key of at most 59 bytes on an ordered tree
with a black root. -/
theorem rb_insert_or_check_step (t : RBTreeNode V) (ht : ordered t)
    (hroot : color_of t = BLACK) (key : List Nat) (value : V)
    (hlen : key.length ≤ MAX_KEY_SIZE - 1) :
    (key ∈ (inorder t).map Prod.fst → rb_insert_or_check t key value = some (t, 0)) ∧
    (key ∉ (inorder t).map Prod.fst →
      ∃ t' l₁ l₂, rb_insert_or_check t key value = some (t', 1) ∧ inorder t = l₁ ++ l₂ ∧
        inorder t' = l₁ ++ (key, value) :: l₂ ∧ ordered t' ∧ color_of t' = BLACK) := by
  obtain ⟨hfound, hmissing⟩ := rb_insert_or_check_eq t key value
  constructor
  · intro hmem
    obtain ⟨p, hp, hk⟩ := List.mem_map.1 hmem
    obtain ⟨c, l, r, hs⟩ := rb_search_of_mem t ht key p.2 (by rw [← hk]; exact hp)
    exact hfound (by rw [hs]; exact fun h => RBTreeNode.noConfusion h)
  · intro hnot
    have hs := rb_search_of_not_mem t key hnot
    have hlt : key.length < MAX_KEY_SIZE := by
      have : MAX_KEY_SIZE = 60 := rfl
      omega
    obtain ⟨t', l₁, l₂, hins, e, e', h1, h2, hblack⟩ := rb_insert_spec t key value ht hroot hlt
    have htake : key.take (MAX_KEY_SIZE - 1) = key := List.take_of_length_le hlen
    have hfix : rb_insert_fixup (node key value RED nil nil) (insert_descend key t []) = some t' := by
      simpa [rb_insert, hlt] using hins
    refine ⟨t', l₁, l₂, ?_, e, e', ?_, hblack⟩
    · rw [hmissing hs, htake, hfix]
      rfl
    · unfold ordered
      rw [e']
      have hord : (l₁ ++ l₂).Pairwise (fun a b => a.1 < b.1) := e ▸ ht
      rw [List.pairwise_append] at hord ⊢
      obtain ⟨ha, hb, hab⟩ := hord
      have h1' : ∀ a ∈ l₁, a.1 < key := by
        intro a ha'
        refine lt_of_le_of_ne (h1 a ha') ?_
        intro e1
        apply hnot
        rw [e]
        exact List.mem_map.2 ⟨a, List.mem_append_left _ ha', e1⟩
      refine ⟨ha, List.pairwise_cons.2 ⟨fun b hb' => h2 b hb', hb⟩, ?_⟩
      intro a ha' b hb'
      rcases List.mem_cons.1 hb' with h | h
      · subst h; exact h1' a ha'
      · exact hab a ha' b h

theorem rb_calls_insert_or_check (kvs : List (List Nat × V)) :
    ∀ t : RBTreeNode V, ordered t → color_of t = BLACK →
      (∀ p ∈ kvs, p.1.length ≤ MAX_KEY_SIZE - 1) →
      ∃ t', rb_calls t (kvs.map (fun p => RBCall.insert_or_check p.1 p.2)) = some t' ∧
        ordered t' ∧ color_of t' = BLACK := by
  induction kvs with
  | nil => intro t ht hroot _; exact ⟨t, rfl, ht, hroot⟩
  | cons p rest ih =>
    intro t ht hroot hlen
    have hstep := rb_insert_or_check_step t ht hroot p.1 p.2 (hlen p (List.mem_cons_self _ _))
    by_cases hmem : p.1 ∈ (inorder t).map Prod.fst
    · obtain ⟨t', hcalls, h⟩ := ih t ht hroot (fun q hq => hlen q (List.mem_cons_of_mem _ hq))
      refine ⟨t', ?_, h⟩
      simp only [List.map_cons, rb_calls, rb_call, hstep.1 hmem, Option.map_some']
      exact hcalls
    · obtain ⟨t₁, l₁, l₂, hins, -, -, hord, hblack⟩ := hstep.2 hmem
      obtain ⟨t', hcalls, h⟩ := ih t₁ hord hblack (fun q hq => hlen q (List.mem_cons_of_mem _ hq))
      refine ⟨t', ?_, h⟩
      simp only [List.map_cons, rb_calls, rb_call, hins, Option.map_some']
      exact hcalls

/-- C27. For every tree built by a sequence of `rb_insert_or_check` calls (keys of at most
59 bytes) on an initially empty tree, every call being defined, and every key of at most
59 bytes: the call returns 0 and leaves the tree unchanged if a node with that key is
present, and otherwise inserts `(key, value)` at its place in the key order and returns
1; the tree never holds two nodes with the same key, before or after the call. -/
theorem insert_or_check_spec (kvs : List (List Nat × V))
    (hlen : ∀ p ∈ kvs, p.1.length ≤ MAX_KEY_SIZE - 1) :
    ∃ t, rb_calls nil (kvs.map (fun p => RBCall.insert_or_check p.1 p.2)) = some t ∧
      ((inorder t).map Prod.fst).Nodup ∧
      ∀ key value, key.length ≤ MAX_KEY_SIZE - 1 →
        (key ∈ (inorder t).map Prod.fst → rb_insert_or_check t key value = some (t, 0)) ∧
        (key ∉ (inorder t).map Prod.fst →
          ∃ t' l₁ l₂, rb_insert_or_check t key value = some (t', 1) ∧
            inorder t = l₁ ++ l₂ ∧ inorder t' = l₁ ++ (key, value) :: l₂ ∧
            ((inorder t').map Prod.fst).Nodup) := by
  obtain ⟨t, hcalls, hord, hblack⟩ :=
    rb_calls_insert_or_check kvs (nil : RBTreeNode V) (by simp [ordered, inorder]) rfl hlen
  refine ⟨t, hcalls, keys_nodup _ hord, ?_⟩
  intro key value hk
  have hstep := rb_insert_or_check_step t hord hblack key value hk
  refine ⟨hstep.1, ?_⟩
  intro hnot
  obtain ⟨t', l₁, l₂, hins, e, e', hord', -⟩ := hstep.2 hnot
  exact ⟨t', l₁, l₂, hins, e, e', keys_nodup _ hord'⟩

theorem insert_or_check_spec_witness :
    ∃ t, rb_calls nil ([(bytes "dog", 1), (bytes "cat", 2), (bytes "dog", 3)].map
        (fun p => RBCall.insert_or_check p.1 p.2)) = some t ∧
      ((inorder t).map Prod.fst).Nodup ∧
      ∀ key value, key.length ≤ MAX_KEY_SIZE - 1 →
        (key ∈ (inorder t).map Prod.fst → rb_insert_or_check t key value = some (t, 0)) ∧
        (key ∉ (inorder t).map Prod.fst →
          ∃ t' l₁ l₂, rb_insert_or_check t key value = some (t', 1) ∧
            inorder t = l₁ ++ l₂ ∧ inorder t' = l₁ ++ (key, value) :: l₂ ∧
            ((inorder t').map Prod.fst).Nodup) :=
  insert_or_check_spec [(bytes "dog", 1), (bytes "cat", 2), (bytes "dog", 3)] (by decide)

/-! ## Terms of 59 and of 60 bytes -/

/-- C24. A content term of exactly 59 bytes is stored intact: it is the key of the
dictionary and the term of its record. For a content term of 60 bytes `rb_insert`
copies all 60 bytes and the terminator into the 60-byte array `key` (`strcpy`), which
overruns the array: the behaviour of the indexer is undefined and no index is
produced by the model; nothing on this path truncates the term. The sibling
`rb_insert_or_check` stores the first 59 bytes. -/
theorem oversize_term_overrun :
    (indexer_read [bytes "D1", List.replicate 59 97]).map
        (fun st => (inorder st.myTree).map Prod.fst) = some [List.replicate 59 97] ∧
    (indexer_main [bytes "D1", List.replicate 59 97]).map
        (fun files => read_word files.DICT_FILE 0) = some (List.replicate 59 97) ∧
    rb_insert (nil : RBTreeNode (List Posting)) (List.replicate 60 97) [⟨0, 1⟩] = none ∧
    indexer_read [bytes "D1", List.replicate 60 97] = none ∧
    indexer_main [bytes "D1", List.replicate 60 97] = none ∧
    rb_insert_or_check (nil : RBTreeNode (List Posting)) (List.replicate 60 97) [⟨0, 1⟩]
      = some (node (List.replicate 59 97) [⟨0, 1⟩] BLACK nil nil, 1) := by
  decide

/-! ## `linkedlist_sort` and the `tail` pointer -/

theorem last_position_eq {α : Type} (l : List α) : last_position l = l.length - 1 := by
  induction l with
  | nil => rfl
  | cons a rest ih =>
    cases rest with
    | nil => rfl
    | cons b rest' =>
      simp only [last_position, ih, List.length_cons]
      omega

theorem merge_sort_length {α : Type} (cmp : α → α → Int) (l : List α) :
    (merge_sort cmp l.length l).length = l.length := by
  have hperm : ∀ (fuel : Nat) (l : List α), l.length ≤ fuel →
      (merge_sort cmp fuel l).Perm l := by
    intro fuel
    induction fuel with
    | zero => intro l _; simp [merge_sort]
    | succ n ih =>
      intro l hl
      match l, hl with
      | [], _ => simp [merge_sort]
      | [a], _ => simp [merge_sort]
      | a :: b :: rest, hl =>
        obtain ⟨happ, h1, h2⟩ := split_list_spec a b rest
        simp only [merge_sort]
        have p1 := ih _ (by simp only [List.length_cons] at hl h1; omega :
          (split_list (a :: b :: rest)).1.length ≤ n)
        have p2 := ih _ (by simp only [List.length_cons] at hl h2; omega :
          (split_list (a :: b :: rest)).2.length ≤ n)
        refine (merge_sorted_lists_perm cmp _ _ _ (le_refl _)).trans ?_
        exact (p1.append p2).trans (by rw [happ])
  exact (hperm l.length l (le_refl _)).length_eq

/-- The chain of the sorted list is what `linkedlist_sort` computes on the chain. -/
theorem linkedlist_sort_head {α : Type} (cmp : α → α → Int) (list : LinkedList α) :
    (LinkedList.linkedlist_sort cmp list).head = linkedlist_sort cmp list.head := by
  unfold LinkedList.linkedlist_sort
  cases hh : list.head with
  | nil => simp [hh, linkedlist_sort, merge_sort]
  | cons a rest =>
    simp only
    unfold linkedlist_sort
    cases merge_sort cmp (a :: rest).length (a :: rest) <;> rfl

theorem linkedlist_sort_tail {α : Type} (cmp : α → α → Int) (list : LinkedList α)
    (hne : list.head ≠ []) :
    (LinkedList.linkedlist_sort cmp list).tail =
      TailPtr.node ((LinkedList.linkedlist_sort cmp list).head.length - 1) := by
  unfold LinkedList.linkedlist_sort
  cases hh : list.head with
  | nil => exact absurd hh hne
  | cons a rest =>
    simp only
    cases hm : merge_sort cmp (a :: rest).length (a :: rest) with
    | nil =>
      have := merge_sort_length cmp (a :: rest)
      rw [hm] at this
      simp at this
    | cons b rest' =>
      simp only [last_position_eq]

/-- C28. Stable sort: for every list and every comparator that is a total preorder
(`cmp(a, b) <= 0` is total and transitive), after `linkedlist_sort` the list holds a
permutation of its former elements, each adjacent pair `(a, b)` satisfies
`cmp(a, b) <= 0` (and so does every pair in list order), the elements that compare
equal to any given element keep their original relative order, and `tail` is the last
node; on the empty list nothing changes. -/
theorem linkedlist_sort_stable {α : Type} (cmp : α → α → Int)
    (htotal : ∀ x y, cmp x y ≤ 0 ∨ cmp y x ≤ 0)
    (htrans : ∀ x y z, cmp x y ≤ 0 → cmp y z ≤ 0 → cmp x z ≤ 0) (list : LinkedList α) :
    (LinkedList.linkedlist_sort cmp list).head.Perm list.head ∧
    (LinkedList.linkedlist_sort cmp list).head.Chain' (fun a b => cmp a b ≤ 0) ∧
    (LinkedList.linkedlist_sort cmp list).head.Pairwise (fun a b => cmp a b ≤ 0) ∧
    (∀ x, (LinkedList.linkedlist_sort cmp list).head.filter
        (fun y => decide (cmp x y ≤ 0 ∧ cmp y x ≤ 0))
      = list.head.filter (fun y => decide (cmp x y ≤ 0 ∧ cmp y x ≤ 0))) ∧
    (list.head ≠ [] → (LinkedList.linkedlist_sort cmp list).tail =
      TailPtr.node ((LinkedList.linkedlist_sort cmp list).head.length - 1)) ∧
    (list.head = [] → (LinkedList.linkedlist_sort cmp list).head = [] ∧
      (LinkedList.linkedlist_sort cmp list).tail = list.tail) := by
  obtain ⟨hperm, hsorted, hstable⟩ := linkedlist_sort_spec cmp htotal htrans list.head
  rw [linkedlist_sort_head]
  refine ⟨hperm, hsorted.chain', hsorted, ?_, ?_, ?_⟩
  · intro x
    apply hstable
    intro y z hy hz
    simp only [decide_eq_true_eq] at hy hz
    exact htrans y x z hy.2 hz.1
  · intro hne
    rw [linkedlist_sort_tail cmp list hne, linkedlist_sort_head]
  · intro he
    refine ⟨by rw [he]; rfl, ?_⟩
    unfold LinkedList.linkedlist_sort
    simp [he]

theorem linkedlist_sort_stable_witness :
    (LinkedList.linkedlist_sort cmp_search_results
      ⟨[⟨bytes "a", 1⟩, ⟨bytes "b", 3⟩, ⟨bytes "c", 1⟩], TailPtr.node 2⟩).head.Perm
        [⟨bytes "a", 1⟩, ⟨bytes "b", 3⟩, ⟨bytes "c", 1⟩] ∧
    (LinkedList.linkedlist_sort cmp_search_results
      ⟨[⟨bytes "a", 1⟩, ⟨bytes "b", 3⟩, ⟨bytes "c", 1⟩], TailPtr.node 2⟩).tail = TailPtr.node 2 ∧
    (LinkedList.linkedlist_sort cmp_search_results
      ⟨[⟨bytes "a", 1⟩, ⟨bytes "b", 3⟩, ⟨bytes "c", 1⟩], TailPtr.node 2⟩).head
        = [⟨bytes "b", 3⟩, ⟨bytes "a", 1⟩, ⟨bytes "c", 1⟩] :=
  ⟨(linkedlist_sort_stable cmp_search_results
      (fun x y => by rw [cmp_search_results_le, cmp_search_results_le]; exact le_total _ _)
      (fun x y z h1 h2 => by
        rw [cmp_search_results_le] at h1 h2 ⊢; exact le_trans h2 h1)
      ⟨[⟨bytes "a", 1⟩, ⟨bytes "b", 3⟩, ⟨bytes "c", 1⟩], TailPtr.node 2⟩).1,
    by decide, by decide⟩

/-! ## `rb_minimum` and `rb_successor` -/

theorem rb_minimum_spec (t : RBTreeNode V) (ht : t ≠ nil) :
    ∃ k v c r rest, rb_minimum t = node k v c nil r ∧ inorder t = (k, v) :: rest := by
  induction t with
  | nil => exact absurd rfl ht
  | node k v c l r ihl _ =>
    cases l with
    | nil => exact ⟨k, v, c, r, inorder r, rfl, by simp [inorder]⟩
    | node k2 v2 c2 l2 r2 =>
      obtain ⟨k', v', c', r', rest, hmin, hin⟩ := ihl (fun h => RBTreeNode.noConfusion h)
      refine ⟨k', v', c', r', rest ++ (k, v) :: inorder r, ?_, ?_⟩
      · simp only [rb_minimum]; exact hmin
      · simp only [inorder] at hin ⊢
        rw [hin]; rfl

/-- C30. For every node with a non-sentinel right child, `rb_successor` returns the
leftmost node of the right subtree (`rb_minimum` of it, a node without left child),
and the pair of that node follows the pair of the node immediately in the in-order
sequence of the whole tree; for every node without a right child it returns NULL,
whatever its ancestors are, also when the parent is its in-order successor. -/
theorem rb_successor_spec (k : List Nat) (v : V) (c : RBColor) (l right : RBTreeNode V)
    (ancestors : List (Frame V)) :
    (right ≠ nil → ∃ k' v' c' r' rest,
      rb_successor (node k v c l right) ancestors = some (node k' v' c' nil r') ∧
      rb_minimum right = node k' v' c' nil r' ∧ inorder right = (k', v') :: rest ∧
      inorder (fill ancestors (node k v c l right)) =
        (path_before ancestors ++ inorder l) ++ (k, v) :: (k', v') ::
          (rest ++ path_after ancestors)) ∧
    rb_successor (node k v c l nil) ancestors = none ∧
    (∀ kp vp cp sibling rest,
      ancestors = (⟨kp, vp, cp, Dir.L, sibling⟩ : Frame V) :: rest →
      rb_successor (node k v c l nil) ancestors = none ∧
      ∃ before after, inorder (fill ancestors (node k v c l nil)) =
        before ++ (k, v) :: (kp, vp) :: after) := by
  refine ⟨?_, rfl, ?_⟩
  · intro hne
    obtain ⟨k', v', c', r', rest, hmin, hin⟩ := rb_minimum_spec right hne
    refine ⟨k', v', c', r', rest, ?_, hmin, hin, ?_⟩
    · cases right with
      | nil => exact absurd rfl hne
      | node k2 v2 c2 l2 r2 => simp only [rb_successor]; rw [hmin]
    · rw [inorder_fill]
      simp only [inorder, hin, List.append_assoc, List.cons_append]
  · intro kp vp cp sibling rest he
    refine ⟨rfl, path_before rest ++ inorder l, inorder sibling ++ path_after rest, ?_⟩
    subst he
    rw [inorder_fill]
    simp [inorder, path_before, path_after]

theorem rb_successor_spec_witness :
    ∃ k' v' c' r' rest,
      rb_successor (node (bytes "b") 1 BLACK nil
        (node (bytes "d") 2 BLACK (node (bytes "c") 3 RED nil nil) nil)) ([] : List (Frame Nat))
          = some (node k' v' c' nil r') ∧
      rb_minimum (node (bytes "d") 2 BLACK (node (bytes "c") 3 RED nil nil) nil)
        = node k' v' c' nil r' ∧
      inorder (node (bytes "d") 2 BLACK (node (bytes "c") 3 RED nil nil) nil)
        = (k', v') :: rest ∧
      inorder (fill [] (node (bytes "b") 1 BLACK nil
        (node (bytes "d") 2 BLACK (node (bytes "c") 3 RED nil nil) nil))) =
        (path_before [] ++ inorder nil) ++ (bytes "b", 1) :: (k', v') ::
          (rest ++ path_after []) :=
  (rb_successor_spec (bytes "b") 1 BLACK nil
    (node (bytes "d") 2 BLACK (node (bytes "c") 3 RED nil nil) nil) []).1
    (fun h => RBTreeNode.noConfusion h)

/-! ## The red-black shape -/

theorem color_cases (c : RBColor) : c = RED ∨ c = BLACK := by
  cases c
  · exact Or.inl rfl
  · exact Or.inr rfl

theorem color_of_node (k : List Nat) (v : V) (c : RBColor) (l r : RBTreeNode V) :
    color_of (node k v c l r) = c := rfl

theorem black_height_node (k : List Nat) (v : V) (c : RBColor) (l r : RBTreeNode V) :
    black_height (node k v c l r) = black_height l + (if c = BLACK then 1 else 0) := rfl

theorem red_black_node (k : List Nat) (v : V) (c : RBColor) (l r : RBTreeNode V) :
    red_black (node k v c l r) ↔ red_black l ∧ red_black r ∧ black_height l = black_height r ∧
      (c = RED → color_of l = BLACK ∧ color_of r = BLACK) := Iff.rfl

theorem red_black_path_cast (rest : List (Frame V)) (c : RBColor) {h h' : Nat} (e : h = h')
    (hp : red_black_path rest h c) : red_black_path rest h' c := e ▸ hp

theorem node_of_red {z : RBTreeNode V} (h : color_of z = RED) :
    ∃ k v l r, z = node k v RED l r := by
  cases z with
  | nil => simp [color_of] at h
  | node k v c l r =>
    simp only [color_of] at h
    subst h
    exact ⟨k, v, l, r, rfl⟩

theorem red_black_set_black {t : RBTreeNode V} (h : red_black t) :
    red_black (set_color BLACK t) := by
  cases t with
  | nil => exact h
  | node k v c l r =>
    simp only [set_color, red_black] at h ⊢
    exact ⟨h.1, h.2.1, h.2.2.1, fun e => by cases e⟩

theorem fill_red_black_iff (path : List (Frame V)) :
    ∀ t : RBTreeNode V, red_black (fill path t) ↔
      red_black t ∧ red_black_path path (black_height t) (color_of t) := by
  induction path with
  | nil => intro t; simp [fill, red_black_path]
  | cons f rest ih =>
    intro t
    obtain ⟨fk, fv, fc, fd, fs⟩ := f
    rw [fill, ih]
    cases fd
    · simp only [Frame.attach, red_black, black_height, color_of, red_black_path]
      constructor
      · rintro ⟨⟨h1, h2, h3, h4⟩, h5⟩
        exact ⟨h1, h2, h3.symm, h4, h5⟩
      · rintro ⟨h1, h2, h3, h4, h5⟩
        exact ⟨⟨h1, h2, h3.symm, h4⟩, h5⟩
    · simp only [Frame.attach, red_black, black_height, color_of, red_black_path]
      constructor
      · rintro ⟨⟨h1, h2, h3, h4⟩, h5⟩
        exact ⟨h2, h1, h3, fun e => ⟨(h4 e).2, (h4 e).1⟩, h3 ▸ h5⟩
      · rintro ⟨h1, h2, h3, h4, h5⟩
        exact ⟨⟨h2, h1, h3, fun e => ⟨(h4 e).2, (h4 e).1⟩⟩, h3 ▸ h5⟩

theorem red_black_path_of_black_head (p : Frame V) (above : List (Frame V)) (h : Nat)
    (c c' : RBColor) (hp : p.color ≠ RED) (hpath : red_black_path (p :: above) h c) :
    red_black_path (p :: above) h c' := by
  simp only [red_black_path] at hpath ⊢
  exact ⟨hpath.1, hpath.2.1, fun e => absurd e hp, hpath.2.2.2⟩

/-- The fix-up loop re-establishes the red-black shape: started at a red node `z` whose
subtree has the shape, below ancestors that leave the shape intact around a black
subtree of the same black height, it ends with a tree of the red-black shape. -/
theorem fixup_loop_red_black : ∀ (n : Nat) (path : List (Frame V)) (z t : RBTreeNode V),
    path.length ≤ n → rb_insert_fixup_loop z path = some t →
    red_black z → color_of z = RED → red_black_path path (black_height z) BLACK →
    red_black t := by
  intro n
  induction n with
  | zero =>
    intro path z t hlen h hz _ _
    have : path = [] := List.length_eq_zero.1 (Nat.le_zero.1 hlen)
    subst this
    simp only [rb_insert_fixup_loop, Option.some.injEq] at h
    subst h; exact hz
  | succ n ih =>
    intro path z t hlen h hz hzc hpath
    match path, hlen, h, hpath with
    | [], _, h, _ =>
      simp only [rb_insert_fixup_loop, Option.some.injEq] at h
      subst h; exact hz
    | p :: above, hlen, h, hpath =>
      by_cases hp : p.color = RED
      · match above, hlen, h, hpath with
        | [], _, h, _ =>
          unfold rb_insert_fixup_loop at h
          simp [hp] at h
        | g :: rest, hlen, h, hpath =>
          have hrest : rest.length ≤ n := by simp at hlen; omega
          obtain ⟨kz, vz, zl, zr, rfl⟩ := node_of_red hzc
          obtain ⟨pk, pv, pc, pd, ps⟩ := p
          obtain ⟨gk, gv, gc, gd, y⟩ := g
          simp only at hp
          subst hp
          simp only [red_black_path, black_height_node, if_false, Nat.add_zero,
            (by decide : ¬ (RED = BLACK)), false_and, imp_false, not_true_eq_false,
            forall_true_left, true_and] at hpath
          obtain ⟨hps, hpsb, hpsc, hy, hyb, hgc, hrr⟩ := hpath
          have hg : gc = BLACK := by
            rcases color_cases gc with e | e
            · exact absurd e hgc
            · exact e
          subst hg
          simp only [if_true] at hrr
          rw [red_black_node] at hz
          obtain ⟨hzl, hzr, hzb, hzcc⟩ := hz
          obtain ⟨hzlc, hzrc⟩ := hzcc rfl
          unfold rb_insert_fixup_loop at h
          simp only [if_true] at h
          by_cases hyc : color_of y = RED
          · obtain ⟨ky, vy, yl, yr, rfl⟩ := node_of_red hyc
            rw [red_black_node] at hy
            obtain ⟨hyl, hyr, hyeq, hycc⟩ := hy
            obtain ⟨hylc, hyrc⟩ := hycc rfl
            simp only [black_height_node, if_false, (by decide : ¬ (RED = BLACK)),
              Nat.add_zero] at hyb
            cases gd <;> cases pd <;>
              simp only [color_of_node, if_true, Frame.attach, set_color] at h <;>
              refine ih rest _ t hrest h ?_ rfl ?_ <;>
              simp only [red_black_node, black_height_node, color_of_node, if_true, if_false,
                (by decide : ¬ (RED = BLACK)), (by decide : ¬ (BLACK = RED)), Nat.add_zero,
                forall_true_left, true_and, and_true, imp_false, not_true_eq_false,
                not_false_eq_true, and_self, false_implies, implies_true] <;>
              first
              | (refine red_black_path_cast rest BLACK ?_ hrr; omega)
              | (split_ands <;> first | assumption | omega)
          · have hyb' : color_of y = BLACK := by
              rcases color_cases (color_of y) with e | e
              · exact absurd e hyc
              · exact e
            simp only [hyc, if_false] at h
            cases gd <;> cases pd <;>
              simp only [Frame.attach, set_color, left_rotate, right_rotate,
                Option.some.injEq] at h <;>
              subst h <;>
              rw [fill_red_black_iff] <;>
              simp only [red_black_node, black_height_node, color_of_node, if_true, if_false,
                (by decide : ¬ (RED = BLACK)), (by decide : ¬ (BLACK = RED)), Nat.add_zero,
                forall_true_left, true_and, and_true, imp_false, not_true_eq_false,
                not_false_eq_true, and_self, false_implies, implies_true] <;>
              refine ⟨?_, red_black_path_cast rest BLACK ?_ hrr⟩ <;>
              first
              | omega
              | (split_ands <;> first | assumption | omega)
      · unfold rb_insert_fixup_loop at h
        simp only [hp, if_false, Option.some.injEq] at h
        subst h
        rw [fill_red_black_iff]
        exact ⟨hz, red_black_path_of_black_head p above _ _ _ hp hpath⟩

/-! ## Insertion keeps the red-black shape -/

theorem fill_insert_descend (key : List Nat) (t : RBTreeNode V) :
    ∀ path : List (Frame V), fill (insert_descend key t path) nil = fill path t := by
  induction t with
  | nil => intro path; rfl
  | node k v c l r ihl ihr =>
    intro path
    unfold insert_descend
    split
    · rw [ihl]; rfl
    · rw [ihr]; rfl

/-- Linking a red node at the end of a descent of `rb_insert` and running
`rb_insert_fixup`: on a tree of the red-black shape with a black root the call is
defined and gives a tree of the red-black shape with a black root. -/
theorem rb_insert_fixup_red_black (t : RBTreeNode V) (ht : red_black t)
    (hroot : color_of t = BLACK) (key stored : List Nat) (value : V) :
    ∃ t', rb_insert_fixup (node stored value RED nil nil) (insert_descend key t []) = some t' ∧
      red_black t' ∧ color_of t' = BLACK := by
  obtain ⟨t₀, h₀⟩ := fixup_loop_isSome _ (insert_descend key t []) (node stored value RED nil nil)
    (le_refl _) (insert_descend_root_black key t hroot)
  have hfill : red_black (fill (insert_descend key t []) (nil : RBTreeNode V)) := by
    rw [fill_insert_descend]; exact ht
  rw [fill_red_black_iff] at hfill
  have hshape := fixup_loop_red_black _ _ _ t₀ (le_refl _) h₀
    (by simp [red_black_node, red_black, color_of]) rfl hfill.2
  have hin := inorder_fixup_loop _ _ _ _ (le_refl _) h₀
  refine ⟨set_color BLACK t₀, by simp [rb_insert_fixup, h₀], red_black_set_black hshape, ?_⟩
  apply color_of_set_color
  apply ne_nil_of_inorder
  rw [hin, inorder_fill]
  simp [inorder]

theorem rb_call_red_black (t : RBTreeNode V) (ht : red_black t) (hroot : color_of t = BLACK)
    (call : RBCall V)
    (hlen : ∀ key value, call = RBCall.insert key value → key.length < MAX_KEY_SIZE) :
    ∃ t', rb_call t call = some t' ∧ red_black t' ∧ color_of t' = BLACK := by
  cases call with
  | insert key value =>
    obtain ⟨t', h, hs⟩ := rb_insert_fixup_red_black t ht hroot key key value
    exact ⟨t', by simp [rb_call, rb_insert, hlen key value rfl, h], hs⟩
  | insert_or_check key value =>
    obtain ⟨hfound, hmissing⟩ := rb_insert_or_check_eq t key value
    cases hs : rb_search t key with
    | nil =>
      obtain ⟨t', h, hshape⟩ :=
        rb_insert_fixup_red_black t ht hroot key (key.take (MAX_KEY_SIZE - 1)) value
      exact ⟨t', by simp [rb_call, hmissing hs, h], hshape⟩
    | node k v c l r =>
      have := hfound (by rw [hs]; exact fun h => RBTreeNode.noConfusion h)
      exact ⟨t, by simp [rb_call, this], ht, hroot⟩

theorem rb_calls_red_black (calls : List (RBCall V)) :
    ∀ t : RBTreeNode V, red_black t → color_of t = BLACK →
      (∀ key value, RBCall.insert key value ∈ calls → key.length < MAX_KEY_SIZE) →
      ∃ t', rb_calls t calls = some t' ∧ red_black t' ∧ color_of t' = BLACK := by
  induction calls with
  | nil => intro t ht hroot _; exact ⟨t, rfl, ht, hroot⟩
  | cons call rest ih =>
    intro t ht hroot hlen
    obtain ⟨t₁, h₁, hs₁, hr₁⟩ := rb_call_red_black t ht hroot call
      (fun key value e => hlen key value (by rw [e]; exact List.mem_cons_self _ _))
    obtain ⟨t', h', hs'⟩ := ih t₁ hs₁ hr₁
      (fun key value hm => hlen key value (List.mem_cons_of_mem _ hm))
    exact ⟨t', by simp only [rb_calls, h₁]; exact h', hs'⟩

/-! ## What the shape gives -/

theorem no_red_red_of_red_black (t : RBTreeNode V) (h : red_black t) : no_red_red t := by
  induction t with
  | nil => trivial
  | node k v c l r ihl ihr =>
    rw [red_black_node] at h
    exact ⟨h.2.2.2, ihl h.1, ihr h.2.1⟩

theorem path_blacks_of_red_black (t : RBTreeNode V) (h : red_black t) :
    ∀ b ∈ path_blacks t, b = black_height t := by
  induction t with
  | nil => intro b hb; simpa [path_blacks, black_height] using hb
  | node k v c l r ihl ihr =>
    rw [red_black_node] at h
    intro b hb
    simp only [path_blacks, List.mem_map, List.mem_append] at hb
    obtain ⟨a, ha, rfl⟩ := hb
    rw [black_height_node]
    rcases ha with ha | ha
    · rw [ihl h.1 a ha]
    · rw [ihr h.2.1 a ha, h.2.2.1]

theorem height_le_of_red_black (t : RBTreeNode V) (h : red_black t) :
    height t ≤ 2 * black_height t + (if color_of t = RED then 1 else 0) := by
  induction t with
  | nil => simp [height, black_height]
  | node k v c l r ihl ihr =>
    rw [red_black_node] at h
    obtain ⟨hl, hr, hb, hc⟩ := h
    have h1 := ihl hl
    have h2 := ihr hr
    rw [black_height_node, color_of_node]
    simp only [height]
    rcases color_cases c with e | e
    · subst e
      obtain ⟨cl, cr⟩ := hc rfl
      simp only [cl, cr, (by decide : ¬ (BLACK = RED)), (by decide : ¬ (RED = BLACK)),
        if_false, if_true, Nat.add_zero] at h1 h2 ⊢
      omega
    · subst e
      simp only [(by decide : ¬ (BLACK = RED)), if_false, if_true, Nat.add_zero] at h1 h2 ⊢
      split at h1 <;> split at h2 <;> omega

theorem pow_black_height_le_size (t : RBTreeNode V) (h : red_black t) :
    2 ^ black_height t ≤ size t + 1 := by
  induction t with
  | nil => simp [black_height, size]
  | node k v c l r ihl ihr =>
    rw [red_black_node] at h
    obtain ⟨hl, hr, hb, -⟩ := h
    have h1 := ihl hl
    have h2 := ihr hr
    rw [← hb] at h2
    rw [black_height_node]
    simp only [size]
    have hle : 2 ^ (black_height l + (if c = BLACK then 1 else 0)) ≤ 2 ^ (black_height l + 1) :=
      Nat.pow_le_pow_right (by norm_num) (by split <;> omega)
    rw [pow_succ] at hle
    omega

/-- C29. Red-black balance: after any sequence of `rb_insert` and `rb_insert_or_check`
calls on an initially empty tree (the keys given to `rb_insert` shorter than 60 bytes),
every call is defined, the root is black, no red node has a red child, and every path
from the root to the sentinel contains the same number of black nodes; hence the height
of the tree, which has `size` nodes, is at most `2 * log2 (size + 1)`. -/
theorem red_black_balance (calls : List (RBCall V))
    (hlen : ∀ key value, RBCall.insert key value ∈ calls → key.length < MAX_KEY_SIZE) :
    ∃ t, rb_calls nil calls = some t ∧ color_of t = BLACK ∧ no_red_red t ∧
      (∀ a ∈ path_blacks t, ∀ b ∈ path_blacks t, a = b) ∧
      size t = (inorder t).length ∧
      height t ≤ 2 * Nat.log 2 (size t + 1) ∧ 2 ^ height t ≤ (size t + 1) ^ 2 := by
  obtain ⟨t, hcalls, hshape, hroot⟩ :=
    rb_calls_red_black calls (nil : RBTreeNode V) trivial rfl hlen
  have hh := height_le_of_red_black t hshape
  have hs := pow_black_height_le_size t hshape
  simp only [hroot, (by decide : ¬ (BLACK = RED)), if_false, Nat.add_zero] at hh
  have hlog : black_height t ≤ Nat.log 2 (size t + 1) :=
    (Nat.pow_le_iff_le_log (by norm_num) (by omega)).1 hs
  refine ⟨t, hcalls, hroot, no_red_red_of_red_black t hshape, ?_, size_eq_length_inorder t,
    by omega, ?_⟩
  · intro a ha b hb
    rw [path_blacks_of_red_black t hshape a ha, path_blacks_of_red_black t hshape b hb]
  · calc 2 ^ height t ≤ 2 ^ (2 * black_height t) := Nat.pow_le_pow_right (by norm_num) hh
      _ = (2 ^ black_height t) ^ 2 := by rw [Nat.mul_comm, pow_mul]
      _ ≤ (size t + 1) ^ 2 := Nat.pow_le_pow_left hs 2

theorem red_black_balance_witness :
    ∃ t, rb_calls nil [RBCall.insert (bytes "dog") 1, RBCall.insert_or_check (bytes "cat") 2,
        RBCall.insert (bytes "emu") 3, RBCall.insert_or_check (bytes "dog") 4,
        RBCall.insert (bytes "ant") 5] = some t ∧ color_of t = BLACK ∧ no_red_red t ∧
      (∀ a ∈ path_blacks t, ∀ b ∈ path_blacks t, a = b) ∧
      size t = (inorder t).length ∧
      height t ≤ 2 * Nat.log 2 (size t + 1) ∧ 2 ^ height t ≤ (size t + 1) ^ 2 :=
  red_black_balance [RBCall.insert (bytes "dog") 1, RBCall.insert_or_check (bytes "cat") 2,
      RBCall.insert (bytes "emu") 3, RBCall.insert_or_check (bytes "dog") 4,
      RBCall.insert (bytes "ant") 5]
    (fun key value hm => by
      simp only [List.mem_cons, RBCall.insert.injEq, List.mem_singleton, List.not_mem_nil,
        or_false, false_or, reduceCtorEq] at hm
      rcases hm with h | h | h <;> (rw [h.1]; decide))

/-! ## The nested scan against the two-pointer merge -/

theorem intersect_step_nil (P : List Posting) : intersect_step [] P = [] := rfl

theorem intersect_step_cons (r : Posting) (rs P : List Posting) :
    intersect_step (r :: rs) P =
      (match find_current r P with
        | some c => [(⟨r.doc_id, r.freq + c.freq⟩ : Posting)]
        | none => []) ++ intersect_step rs P := by
  unfold intersect_step
  rw [List.filterMap_cons]
  cases find_current r P <;> rfl

theorem intersect_step_nil_right (R : List Posting) : intersect_step R [] = [] := by
  induction R with
  | nil => rfl
  | cons r rs ih => rw [intersect_step_cons, ih]; rfl

theorem intersect_step_congr (R P P' : List Posting)
    (h : ∀ x ∈ R, find_current x P = find_current x P') :
    intersect_step R P = intersect_step R P' := by
  unfold intersect_step
  apply List.filterMap_congr
  intro x hx
  rw [h x hx]

theorem find_current_none_of_lt (r : Posting) (P : List Posting)
    (h : ∀ p ∈ P, r.doc_id < p.doc_id) : find_current r P = none := by
  induction P with
  | nil => rfl
  | cons p ps ih =>
    have hp := h p (List.mem_cons_self _ _)
    have hne : ¬ p.doc_id = r.doc_id := by omega
    simp only [find_current, hne, if_false]
    exact ih (fun q hq => h q (List.mem_cons_of_mem _ hq))

/-- On lists strictly ascending in doc index the nested scan of one merge step and the
two-pointer walk give the same list, whenever the walk is allowed enough steps. -/
theorem two_pointer_merge_steps_eq : ∀ (fuel : Nat) (R P : List Posting),
    R.length + P.length ≤ fuel →
    R.Pairwise (fun a b => a.doc_id < b.doc_id) →
    P.Pairwise (fun a b => a.doc_id < b.doc_id) →
    two_pointer_merge_steps fuel R P = intersect_step R P := by
  intro fuel
  induction fuel with
  | zero =>
    intro R P hlen _ _
    have hR : R = [] := List.length_eq_zero.1 (by omega)
    subst hR
    rfl
  | succ n ih =>
    intro R P hlen hR hP
    match R, P, hlen, hR, hP with
    | [], P, _, _, _ => cases P <;> rfl
    | r :: rs, [], _, _, _ =>
      simp only [two_pointer_merge_steps]
      rw [intersect_step_nil_right]
    | r :: rs, p :: ps, hlen, hR, hP =>
      rw [List.pairwise_cons] at hR hP
      simp only [List.length_cons] at hlen
      simp only [two_pointer_merge_steps]
      by_cases heq : r.doc_id = p.doc_id
      · simp only [heq, if_true]
        rw [ih rs ps (by omega) hR.2 hP.2, intersect_step_cons]
        have hfind : find_current r (p :: ps) = some p := by simp [find_current, heq]
        rw [hfind]
        simp only [heq, List.singleton_append, List.cons.injEq, true_and]
        apply intersect_step_congr
        intro x hx
        have hx' := hR.1 x hx
        have hne : ¬ p.doc_id = x.doc_id := by omega
        simp [find_current, hne]
      · simp only [heq, if_false]
        by_cases hlt : r.doc_id < p.doc_id
        · simp only [hlt, if_true]
          rw [ih rs (p :: ps) (by simp only [List.length_cons]; omega) hR.2
            (List.pairwise_cons.2 hP), intersect_step_cons]
          have hfind : find_current r (p :: ps) = none := by
            apply find_current_none_of_lt
            intro q hq
            rcases List.mem_cons.1 hq with e | hq'
            · rw [e]; exact hlt
            · exact lt_trans hlt (hP.1 q hq')
          rw [hfind]
          rfl
        · simp only [hlt, if_false]
          rw [ih (r :: rs) ps (by simp only [List.length_cons]; omega)
            (List.pairwise_cons.2 hR) hP.2]
          apply intersect_step_congr
          intro x hx
          have hx' : r.doc_id ≤ x.doc_id := by
            rcases List.mem_cons.1 hx with e | hx''
            · rw [e]
            · exact le_of_lt (hR.1 x hx'')
          have hne : ¬ p.doc_id = x.doc_id := by omega
          simp [find_current, hne]

/-- C31. Intersection refinement: for every two posting lists `R` and `P` that are
strictly ascending in doc index, one merge step of `intersect_posting_lists` (the
nested linear scan of `P` for every posting of `R`) returns the same list of
(doc index, summed freq) postings as the linear two-pointer merge of `R` and `P`, and
so does `intersect_posting_lists` on the two lists. -/
theorem intersection_refinement (R P : List Posting)
    (hR : R.Pairwise (fun a b => a.doc_id < b.doc_id))
    (hP : P.Pairwise (fun a b => a.doc_id < b.doc_id)) :
    intersect_step R P = two_pointer_merge R P ∧
    intersect_posting_lists [R, P] = some (two_pointer_merge R P) := by
  have h := two_pointer_merge_steps_eq (R.length + P.length) R P (le_refl _) hR hP
  refine ⟨h.symm, ?_⟩
  simp only [intersect_posting_lists, List.foldl_cons, List.foldl_nil, copy_posting_list_eq]
  rw [← h]
  rfl

theorem intersection_refinement_witness :
    intersect_step [⟨0, 2⟩, ⟨2, 1⟩, ⟨5, 1⟩] [⟨0, 1⟩, ⟨1, 3⟩, ⟨2, 5⟩]
      = two_pointer_merge [⟨0, 2⟩, ⟨2, 1⟩, ⟨5, 1⟩] [⟨0, 1⟩, ⟨1, 3⟩, ⟨2, 5⟩] ∧
    intersect_posting_lists [[⟨0, 2⟩, ⟨2, 1⟩, ⟨5, 1⟩], [⟨0, 1⟩, ⟨1, 3⟩, ⟨2, 5⟩]]
      = some (two_pointer_merge [⟨0, 2⟩, ⟨2, 1⟩, ⟨5, 1⟩] [⟨0, 1⟩, ⟨1, 3⟩, ⟨2, 5⟩]) :=
  intersection_refinement [⟨0, 2⟩, ⟨2, 1⟩, ⟨5, 1⟩] [⟨0, 1⟩, ⟨1, 3⟩, ⟨2, 5⟩]
    (by decide) (by decide)

/-! ## The suffix that `stem` removes -/

theorem suffix_eq_of_length_eq {a b v : List Nat} (ha : a <:+ v) (hb : b <:+ v)
    (h : a.length = b.length) : a = b := by
  rw [List.suffix_iff_eq_drop] at ha hb
  rw [ha, hb, h]

/-- The first qualifying suffix of the ordered list is longer than every other
qualifying suffix. -/
theorem first_qualifying_longest (lw s : List Nat) (h : first_qualifying lw = some s) :
    ∀ t ∈ spec_suffixes, qualifies lw t → t ≠ s → t.length < s.length := by
  unfold first_qualifying at h
  obtain ⟨hq, l₁, l₂, hl, hfirst⟩ := List.find?_eq_some.1 h
  have hqs : qualifies lw s := by simpa using hq
  have hsorted : spec_suffixes.Pairwise (fun a b => b.length ≤ a.length) := by decide
  rw [hl, List.pairwise_append] at hsorted
  obtain ⟨-, h2, -⟩ := hsorted
  rw [List.pairwise_cons] at h2
  intro t ht hqt hne
  rw [hl] at ht
  rcases List.mem_append.1 ht with h1 | h1
  · have := hfirst t h1
    simp only [Bool.not_eq_true', decide_eq_false_iff_not] at this
    exact absurd hqt this
  · rcases List.mem_cons.1 h1 with e | h1'
    · exact absurd e hne
    · have hle := h2.1 t h1'
      rcases Nat.lt_or_ge t.length s.length with hlt | hge
      · exact hlt
      · exact absurd (suffix_eq_of_length_eq hqt.1 hqs.1 (le_antisymm hle hge)) hne

/-- C32. Longest eligible suffix: for every word `w`, if `stem` removes a suffix of the
list then the word ends with it, its removal leaves at least 3 characters, and every
other member of the list with these two properties is strictly shorter (the list is
ordered by non-increasing length, and two suffixes of equal length that end the same
word are equal); and `stem w` is a prefix of the lowercased word and has length at
least `min 3 (length w)`. -/
theorem longest_eligible_suffix (w : List Nat) :
    (∀ s ∈ suffixes, stem w ++ s = w.map tolower →
      qualifies (w.map tolower) s ∧
      ∀ t ∈ suffixes, qualifies (w.map tolower) t → t ≠ s → t.length < s.length) ∧
    suffixes.Pairwise (fun a b => b.length ≤ a.length) ∧
    (∀ a b v : List Nat, a <:+ v → b <:+ v → a.length = b.length → a = b) ∧
    stem w <+: w.map tolower ∧ min 3 w.length ≤ (stem w).length := by
  have hlower : ascii_lower w = w.map tolower := rfl
  have hsuff : spec_suffixes = suffixes := by decide
  have hspec := stem_eq_stem_spec w
  unfold stem_spec at hspec
  refine ⟨?_, by decide, fun a b v ha hb h => suffix_eq_of_length_eq ha hb h, ?_⟩
  · intro s hs hrem
    cases hf : first_qualifying (ascii_lower w) with
    | none =>
      rw [hf] at hspec
      simp only at hspec
      rw [hspec, hlower] at hrem
      have : s = [] := by simpa using hrem
      subst this
      exact absurd hs (by decide)
    | some s0 =>
      rw [hf] at hspec
      simp only at hspec
      have hq0 : qualifies (ascii_lower w) s0 := by
        have := List.find?_some hf
        simpa using this
      have hrem0 : stem w ++ s0 = ascii_lower w := by
        rw [hspec]
        obtain ⟨p, hp⟩ := hq0.1
        rw [← hp]
        simp [List.rdrop]
      rw [← hlower, ← hrem0] at hrem
      have hs0 : s = s0 := List.append_cancel_left hrem
      subst hs0
      rw [← hlower]
      refine ⟨hq0, ?_⟩
      intro t ht
      rw [← hsuff] at ht
      exact first_qualifying_longest _ s hf t ht
  · cases hf : first_qualifying (ascii_lower w) with
    | none =>
      rw [hf] at hspec
      simp only at hspec
      rw [hspec, hlower]
      refine ⟨List.prefix_refl _, ?_⟩
      simp
    | some s0 =>
      rw [hf] at hspec
      simp only at hspec
      have hq0 : qualifies (ascii_lower w) s0 := by
        have := List.find?_some hf
        simpa using this
      rw [hspec, ← hlower]
      refine ⟨?_, ?_⟩
      · unfold List.rdrop
        exact List.take_prefix _ _
      · unfold List.rdrop
        rw [List.length_take]
        have h3 := hq0.2
        have hle : (ascii_lower w).length - s0.length ≤ (ascii_lower w).length := Nat.sub_le _ _
        omega

theorem longest_eligible_suffix_witness :
    qualifies ((bytes "Business").map tolower) (bytes "ness") ∧
    ∀ t ∈ suffixes, qualifies ((bytes "Business").map tolower) t → t ≠ bytes "ness" →
      t.length < (bytes "ness").length :=
  (longest_eligible_suffix (bytes "Business")).1 (bytes "ness") (by decide) (by decide)

/-! ## Stemming twice -/

/-- C33. The function `stem` is not idempotent: `stem` maps `runners` to `runner` and
`runner` to `runn`, so stemming the stemmed word changes it. A word stream that is
already stemmed must therefore not be stemmed again before insertion: the query
`runners` finds the document indexed under the stem of `runners`, and finds nothing
when the indexed word has been stemmed twice. -/
theorem stem_not_idempotent :
    (∃ w, stem (stem w) ≠ stem w) ∧
    stem (bytes "runners") = bytes "runner" ∧ stem (bytes "runner") = bytes "runn" ∧
    (indexer_main [bytes "A0000000000001", stem (bytes "runners")]).map
      (fun files => searcher_main files [bytes "runners"])
        = some (0, [⟨bytes "A0000000000001", 1⟩]) ∧
    (indexer_main [bytes "A0000000000001", stem (stem (bytes "runners"))]).map
      (fun files => searcher_main files [bytes "runners"]) = some (0, []) :=
  ⟨⟨bytes "runners", by decide⟩, by decide, by decide, by decide, by decide⟩

/-! ## The order of the query terms -/

/-- The expected intersection, seen from the doc indexes: the doc indexes of the first
list that occur in every list, each with the sum of its frequencies over the lists. -/
theorem expected_intersection_by_ids (first : List Posting) (rest : List (List Posting)) :
    ∀ F : List Posting, (∀ p ∈ F, p.doc_id ∈ first.map Posting.doc_id) →
      F.filterMap (fun p =>
        if ∀ l ∈ rest, p.doc_id ∈ l.map Posting.doc_id then
          some (⟨p.doc_id, ((first :: rest).map (fun l => doc_freq l p.doc_id)).sum⟩ : Posting)
        else none) =
      ((F.map Posting.doc_id).filter
          (fun d => decide (∀ l ∈ first :: rest, d ∈ l.map Posting.doc_id))).map
        (fun d => (⟨d, ((first :: rest).map (fun l => doc_freq l d)).sum⟩ : Posting)) := by
  intro F
  induction F with
  | nil => intro _; rfl
  | cons p ps ih =>
    intro hF
    have hp := hF p (List.mem_cons_self _ _)
    have hiff : (∀ l ∈ first :: rest, p.doc_id ∈ l.map Posting.doc_id) ↔
        ∀ l ∈ rest, p.doc_id ∈ l.map Posting.doc_id := by
      constructor
      · intro h l hl; exact h l (List.mem_cons_of_mem _ hl)
      · intro h l hl
        rcases List.mem_cons.1 hl with e | hl'
        · rw [e]; exact hp
        · exact h l hl'
    have ih' := ih (fun q hq => hF q (List.mem_cons_of_mem _ hq))
    have hmap : (p :: ps).map Posting.doc_id = p.doc_id :: ps.map Posting.doc_id := rfl
    rw [hmap]
    by_cases hc : ∀ l ∈ rest, p.doc_id ∈ l.map Posting.doc_id
    · have hd : decide (∀ l ∈ first :: rest, p.doc_id ∈ l.map Posting.doc_id) = true :=
        decide_eq_true (hiff.2 hc)
      rw [List.filterMap_cons_some (by rw [if_pos hc]), List.filter_cons, if_pos hd, ih']
      rfl
    · have hd : ¬ decide (∀ l ∈ first :: rest, p.doc_id ∈ l.map Posting.doc_id) = true := by
        rw [decide_eq_true_eq]
        exact fun h => hc (hiff.1 h)
      rw [List.filterMap_cons_none (by rw [if_neg hc]), List.filter_cons, if_neg hd, ih']

/-- On lists strictly ascending in doc index the result of `intersect_posting_lists`
does not depend on the order of the lists. -/
theorem intersect_perm (L L' : List (List Posting)) (hperm : L.Perm L')
    (hasc : ∀ l ∈ L, l.Pairwise (fun a b => a.doc_id < b.doc_id)) :
    intersect_posting_lists L = intersect_posting_lists L' := by
  have hasc' : ∀ l ∈ L', l.Pairwise (fun a b => a.doc_id < b.doc_id) :=
    fun l hl => hasc l (hperm.mem_iff.2 hl)
  match L, L', hperm, hasc, hasc' with
  | [], L', hperm, _, _ =>
    have : L' = [] := List.Perm.nil_eq hperm |>.symm
    subst this; rfl
  | f :: r, [], hperm, _, _ => exact absurd hperm.symm.nil_eq (by simp)
  | f :: r, f' :: r', hperm, hasc, hasc' =>
    rw [intersect_eq_expected f r (fun l hl => pairwise_lt_nodup l (hasc l hl)),
      intersect_eq_expected f' r' (fun l hl => pairwise_lt_nodup l (hasc' l hl))]
    unfold expected_intersection
    rw [expected_intersection_by_ids f r f (fun p hp => List.mem_map_of_mem _ hp),
      expected_intersection_by_ids f' r' f' (fun p hp => List.mem_map_of_mem _ hp)]
    have hsum : ∀ d : Int, ((f :: r).map (fun l => doc_freq l d)).sum
        = ((f' :: r').map (fun l => doc_freq l d)).sum :=
      fun d => (hperm.map _).sum_eq
    have hcommon : ∀ d : Int, (∀ l ∈ f :: r, d ∈ l.map Posting.doc_id) ↔
        (∀ l ∈ f' :: r', d ∈ l.map Posting.doc_id) := by
      intro d
      constructor
      · intro h l hl; exact h l (hperm.mem_iff.2 hl)
      · intro h l hl; exact h l (hperm.mem_iff.1 hl)
    have hsorted : ∀ (g : List Posting) (M : List (List Posting)),
        g.Pairwise (fun a b => a.doc_id < b.doc_id) →
        ((g.map Posting.doc_id).filter
          (fun d => decide (∀ l ∈ M, d ∈ l.map Posting.doc_id))).Sorted (· < ·) := by
      intro g M hg
      apply List.Pairwise.filter
      rw [List.pairwise_map]
      exact hg
    have h1 := hsorted f (f :: r) (hasc f (List.mem_cons_self _ _))
    have h2 := hsorted f' (f' :: r') (hasc' f' (List.mem_cons_self _ _))
    have hids : (f.map Posting.doc_id).filter
          (fun d => decide (∀ l ∈ f :: r, d ∈ l.map Posting.doc_id)) =
        (f'.map Posting.doc_id).filter
          (fun d => decide (∀ l ∈ f' :: r', d ∈ l.map Posting.doc_id)) := by
      apply List.eq_of_perm_of_sorted _ h1 h2
      rw [List.perm_ext_iff_of_nodup h1.nodup h2.nodup]
      intro d
      simp only [List.mem_filter, decide_eq_true_eq]
      constructor
      · intro h
        exact ⟨(hcommon d).1 h.2 f' (List.mem_cons_self _ _), (hcommon d).1 h.2⟩
      · intro h
        exact ⟨(hcommon d).2 h.2 f (List.mem_cons_self _ _), (hcommon d).2 h.2⟩
    rw [hids]
    congr 1
    apply List.map_congr_left
    intro d _
    rw [hsum d]

/-- C34. Query-order independence: for every two posting lists `A` and `B` that are
strictly ascending in doc index, `intersect_posting_lists` on `[A, B]` and on `[B, A]`
return the same list of postings (same doc indexes, same summed freqs, same order);
and for any number of strictly ascending lists, permuting them does not change the
list returned, that is the hits and their scores. -/
theorem query_order_independence (A B : List Posting)
    (hA : A.Pairwise (fun a b => a.doc_id < b.doc_id))
    (hB : B.Pairwise (fun a b => a.doc_id < b.doc_id)) :
    intersect_posting_lists [A, B] = intersect_posting_lists [B, A] ∧
    intersect_step A B = intersect_step B A ∧
    ∀ L L' : List (List Posting), L.Perm L' →
      (∀ l ∈ L, l.Pairwise (fun a b => a.doc_id < b.doc_id)) →
      intersect_posting_lists L = intersect_posting_lists L' := by
  have hswap : intersect_posting_lists [A, B] = intersect_posting_lists [B, A] := by
    apply intersect_perm [A, B] [B, A] (List.Perm.swap B A [])
    intro l hl
    simp only [List.mem_cons, List.mem_singleton, List.not_mem_nil, or_false] at hl
    rcases hl with e | e
    · rw [e]; exact hA
    · rw [e]; exact hB
  refine ⟨hswap, ?_, fun L L' hperm hasc => intersect_perm L L' hperm hasc⟩
  simp only [intersect_posting_lists, List.foldl_cons, List.foldl_nil, copy_posting_list_eq,
    Option.some.injEq] at hswap
  exact hswap

theorem query_order_independence_witness :
    intersect_posting_lists [[⟨0, 2⟩, ⟨2, 1⟩], [⟨0, 1⟩, ⟨1, 3⟩, ⟨2, 5⟩]]
      = intersect_posting_lists [[⟨0, 1⟩, ⟨1, 3⟩, ⟨2, 5⟩], [⟨0, 2⟩, ⟨2, 1⟩]] ∧
    intersect_step [⟨0, 2⟩, ⟨2, 1⟩] [⟨0, 1⟩, ⟨1, 3⟩, ⟨2, 5⟩]
      = intersect_step [⟨0, 1⟩, ⟨1, 3⟩, ⟨2, 5⟩] [⟨0, 2⟩, ⟨2, 1⟩] :=
  ⟨(query_order_independence [⟨0, 2⟩, ⟨2, 1⟩] [⟨0, 1⟩, ⟨1, 3⟩, ⟨2, 5⟩]
      (by decide) (by decide)).1,
    (query_order_independence [⟨0, 2⟩, ⟨2, 1⟩] [⟨0, 1⟩, ⟨1, 3⟩, ⟨2, 5⟩]
      (by decide) (by decide)).2.1⟩

/-! ## The `tail` pointer under the list operations -/

theorem tail_invariant_iff {α : Type} (list : LinkedList α) :
    tail_invariant list ↔
      (list.head = [] ∧ list.tail = TailPtr.null) ∨
      (list.head ≠ [] ∧ list.tail = TailPtr.node (list.head.length - 1)) := by
  unfold tail_invariant
  cases h : list.head with
  | nil => simp
  | cons a rest => simp

theorem tail_invariant_add_head {α : Type} (list : LinkedList α) (data : α)
    (h : tail_invariant list) : tail_invariant (list.linkedlist_add_head data) := by
  unfold tail_invariant at h
  unfold tail_invariant LinkedList.linkedlist_add_head
  cases hh : list.head with
  | nil => rw [hh] at h; simp only [h]; rfl
  | cons a rest => rw [hh] at h; simp only [h]; rfl

/-- On a list that satisfies the tail invariant `linkedlist_add_tail` is defined, appends
the new node at the end of the chain and keeps the invariant. -/
theorem tail_invariant_add_tail {α : Type} (list : LinkedList α) (data : α)
    (h : tail_invariant list) :
    ∃ list', list.linkedlist_add_tail data = some list' ∧
      list'.head = linkedlist_add_tail list.head data ∧ tail_invariant list' := by
  unfold tail_invariant at h
  unfold LinkedList.linkedlist_add_tail linkedlist_add_tail
  cases hh : list.head with
  | nil =>
    rw [hh] at h
    simp only [h]
    exact ⟨_, rfl, rfl, rfl⟩
  | cons a rest =>
    rw [hh] at h
    simp only [h, List.length_cons, Nat.lt_succ_self, if_true]
    refine ⟨_, rfl, ?_, ?_⟩
    · simp only
      rw [show rest.length + 1 = (a :: rest).length from rfl, List.take_length]
    · unfold tail_invariant
      simp only
      rw [show rest.length + 1 = (a :: rest).length from rfl, List.take_length]
      simp

theorem tail_invariant_sort {α : Type} (cmp : α → α → Int) (list : LinkedList α)
    (h : tail_invariant list) : tail_invariant (LinkedList.linkedlist_sort cmp list) := by
  by_cases hne : list.head = []
  · have : LinkedList.linkedlist_sort cmp list = list := by
      unfold LinkedList.linkedlist_sort
      rw [hne]
    rw [this]; exact h
  · rw [tail_invariant_iff]
    right
    have hlen : (LinkedList.linkedlist_sort cmp list).head.length = list.head.length := by
      rw [linkedlist_sort_head]
      exact merge_sort_length cmp list.head
    refine ⟨?_, linkedlist_sort_tail cmp list hne⟩
    intro he
    rw [he] at hlen
    exact hne (List.length_eq_zero.1 hlen.symm)

theorem delete_position_lt {α : Type} (cmp : α → α → Int) (data : α) :
    ∀ (l : List α) (j : Nat), delete_position cmp data l = some j → j < l.length := by
  intro l
  induction l with
  | nil => intro j h; simp [delete_position] at h
  | cons x rest ih =>
    intro j h
    unfold delete_position at h
    by_cases hx : cmp x data = 0
    · simp only [hx, if_true, Option.some.injEq] at h
      subst h; simp
    · simp only [hx, if_false, Option.map_eq_some'] at h
      obtain ⟨i, hi, rfl⟩ := h
      have := ih i hi
      simp only [List.length_cons]
      omega

/-- On a list that satisfies the tail invariant, `linkedlist_delete_node` keeps the
invariant exactly when the node it deletes is not the last one: `tail` is never
assigned, so after the deletion of the last node it points to the freed node. -/
theorem tail_invariant_delete_node {α : Type} (cmp : α → α → Int) (list : LinkedList α)
    (data : α) (h : tail_invariant list) :
    tail_invariant (LinkedList.linkedlist_delete_node cmp list data).1 ↔
      delete_position cmp data list.head ≠ some (list.head.length - 1) := by
  unfold LinkedList.linkedlist_delete_node
  cases hd : delete_position cmp data list.head with
  | none => exact ⟨fun _ e => Option.noConfusion e, fun _ => h⟩
  | some j =>
    have hj := delete_position_lt cmp data list.head j hd
    have hne : list.head ≠ [] := by
      intro he; rw [he] at hj; simp at hj
    rcases (tail_invariant_iff list).1 h with ⟨he, -⟩ | ⟨-, ht⟩
    · exact absurd he hne
    · have hlen : (list.head.eraseIdx j).length = list.head.length - 1 :=
        List.length_eraseIdx_of_lt hj
      rw [tail_invariant_iff]
      simp only [ht, ne_eq, Option.some.injEq]
      by_cases hlast : list.head.length - 1 = j
      · simp only [hlast, if_true]
        constructor
        · rintro (⟨-, ht'⟩ | ⟨-, ht'⟩) <;> cases ht'
        · intro hn; exact absurd trivial hn
      · have hlt : j < list.head.length - 1 := by omega
        simp only [hlast, if_false, hlt, if_true]
        constructor
        · intro _ e; exact hlast e.symm
        · intro _
          right
          refine ⟨?_, by rw [hlen]⟩
          intro he
          rw [he] at hlen
          simp only [List.length_nil] at hlen
          omega

/-- The three operations that assign `tail` keep the tail invariant, and a list built by
`linkedlist_add_tail` alone, as the posting lists of the indexer are, is the chain of
the appended data with `tail` at its last node. -/
theorem tail_invariant_preserved {α : Type} (cmp : α → α → Int) (list : LinkedList α)
    (data : α) (h : tail_invariant list) :
    tail_invariant (list.linkedlist_add_head data) ∧
    (∃ list', list.linkedlist_add_tail data = some list' ∧
      list'.head = linkedlist_add_tail list.head data ∧ tail_invariant list') ∧
    tail_invariant (LinkedList.linkedlist_sort cmp list) :=
  ⟨tail_invariant_add_head list data h, tail_invariant_add_tail list data h,
    tail_invariant_sort cmp list h⟩

/-- C35. The tail invariant under `linkedlist_delete_node`: on the posting list of two
nodes `(0,1), (1,1)`, which satisfies the invariant, deleting the posting of document 1
unlinks and frees the last node and returns true, but leaves `tail` pointing to the
freed node, so the invariant is lost and the next `linkedlist_add_tail` writes through
the dangling pointer; on a list of one node the deletion leaves `head` NULL and `tail`
not NULL. Deleting the first of the two nodes keeps the invariant. -/
theorem tail_after_delete_last :
    tail_invariant (⟨[⟨0, 1⟩, ⟨1, 1⟩], TailPtr.node 1⟩ : LinkedList Posting) ∧
    (LinkedList.linkedlist_delete_node posting_cmp
        ⟨[⟨0, 1⟩, ⟨1, 1⟩], TailPtr.node 1⟩ ⟨1, 0⟩).1.head = [⟨0, 1⟩] ∧
    (LinkedList.linkedlist_delete_node posting_cmp
        ⟨[⟨0, 1⟩, ⟨1, 1⟩], TailPtr.node 1⟩ ⟨1, 0⟩).1.tail = TailPtr.freed ∧
    (LinkedList.linkedlist_delete_node posting_cmp
        ⟨[⟨0, 1⟩, ⟨1, 1⟩], TailPtr.node 1⟩ ⟨1, 0⟩).2 = true ∧
    ¬ tail_invariant (LinkedList.linkedlist_delete_node posting_cmp
        ⟨[⟨0, 1⟩, ⟨1, 1⟩], TailPtr.node 1⟩ ⟨1, 0⟩).1 ∧
    ((LinkedList.linkedlist_delete_node posting_cmp
        ⟨[⟨0, 1⟩, ⟨1, 1⟩], TailPtr.node 1⟩ ⟨1, 0⟩).1.linkedlist_add_tail ⟨2, 1⟩).isNone = true ∧
    (LinkedList.linkedlist_delete_node posting_cmp
        ⟨[⟨0, 1⟩], TailPtr.node 0⟩ ⟨0, 0⟩).1.head = [] ∧
    (LinkedList.linkedlist_delete_node posting_cmp
        ⟨[⟨0, 1⟩], TailPtr.node 0⟩ ⟨0, 0⟩).1.tail = TailPtr.freed ∧
    tail_invariant (LinkedList.linkedlist_delete_node posting_cmp
        ⟨[⟨0, 1⟩, ⟨1, 1⟩], TailPtr.node 1⟩ ⟨0, 0⟩).1 := by
  decide

/-! ## One document holding one word `n` times -/

theorem doc_words_after_id_replicate (w : List Nat) (hw : w ≠ []) (n : Nat) :
    doc_words_after_id (List.replicate n w) = [List.replicate n w] := by
  induction n with
  | zero => rfl
  | succ n ih =>
    rw [List.replicate_succ, doc_words_after_id.eq_def]
    simp only [hw, if_false, ih]

theorem indexer_loop_replicate (n : Nat) :
    ∀ k : Int, indexer_loop ⟨[bytes "A0000000000001"], node (bytes "cat") [⟨0, k⟩] BLACK nil nil, 0⟩
        (List.replicate n (bytes "cat"))
      = some ⟨[bytes "A0000000000001"], node (bytes "cat") [⟨0, k + n⟩] BLACK nil nil, 0⟩ := by
  have hs : strcmp (bytes "cat") (bytes "cat") = 0 := by decide
  have hne : bytes "cat" ≠ [] := by decide
  induction n with
  | zero => intro k; simp [indexer_loop]
  | succ n ih =>
    intro k
    have hstep : index_word
        ⟨[bytes "A0000000000001"], node (bytes "cat") [⟨0, k⟩] BLACK nil nil, 0⟩ (bytes "cat")
        = some ⟨[bytes "A0000000000001"], node (bytes "cat") [⟨0, k + 1⟩] BLACK nil nil, 0⟩ := by
      simp [index_word, rb_search, update_found, hs, bump_tail]
    rw [List.replicate_succ, indexer_loop.eq_def]
    simp only [hne, if_false, hstep]
    rw [ih (k + 1)]
    have e : k + 1 + (n : Int) = k + ((n + 1 : Nat) : Int) := by push_cast; omega
    rw [e]

theorem indexer_read_replicate (n : Nat) (hn : 0 < n) :
    indexer_read (bytes "A0000000000001" :: List.replicate n (bytes "cat"))
      = some ⟨[bytes "A0000000000001"], node (bytes "cat") [⟨0, (n : Int)⟩] BLACK nil nil, 0⟩ := by
  obtain ⟨m, rfl⟩ := Nat.exists_eq_succ_of_ne_zero (Nat.pos_iff_ne_zero.1 hn)
  have hne : bytes "cat" ≠ [] := by decide
  have hstep : index_word ⟨linkedlist_add_tail [] (bytes "A0000000000001"), nil, 0⟩ (bytes "cat")
      = some ⟨[bytes "A0000000000001"], node (bytes "cat") [⟨0, 1⟩] BLACK nil nil, 0⟩ := by
    decide
  rw [List.replicate_succ]
  unfold indexer_read
  simp only
  rw [indexer_loop.eq_def]
  simp only [hne, if_false, hstep]
  rw [indexer_loop_replicate m 1]
  have e : (1 : Int) + (m : Int) = ((m.succ : Nat) : Int) := by push_cast; omega
  rw [e]

/-- The searcher on the index of the one document `A0000000000001` holding the word
`cat` on `n` lines, for the query `cat`: the single hit has the count `n` converted to
a float as its score. -/
theorem single_word_document_search (n : Nat) (hn : 0 < n) (hn31 : n + 1 < 2 ^ 31)
    (hsize : (write_postings 0 [⟨0, (n : Int)⟩]).length < 2 ^ 31) :
    (indexer_main (bytes "A0000000000001" :: List.replicate n (bytes "cat"))).map
        (fun files => searcher_main files [bytes "cat"])
      = some (0, [⟨bytes "A0000000000001", float_of_int (n : Int)⟩]) ∧
    well_formed_stream (bytes "A0000000000001" :: List.replicate n (bytes "cat")) ∧
    expected_results (bytes "A0000000000001" :: List.replicate n (bytes "cat"))
        ([bytes "cat"].map stem) = [⟨bytes "A0000000000001", (n : Int)⟩] := by
  have hne : bytes "cat" ≠ [] := by decide
  have hstem : stem (bytes "cat") = bytes "cat" := by decide
  have hst := indexer_read_replicate n hn
  have hdw : doc_words (bytes "A0000000000001" :: List.replicate n (bytes "cat"))
      = [List.replicate n (bytes "cat")] := by
    unfold doc_words
    rw [List.tail_cons, doc_words_after_id_replicate _ hne]
  have hwf : well_formed_stream (bytes "A0000000000001" :: List.replicate n (bytes "cat")) := by
    refine ⟨List.cons_ne_nil _ _, ?_⟩
    rw [hdw]
    intro d hd w hw
    rw [List.mem_singleton] at hd
    subst hd
    rw [List.eq_of_mem_replicate hw]
    decide
  have hcs : ∀ d ∈ doc_words (bytes "A0000000000001" :: List.replicate n (bytes "cat")),
      ∀ w ∈ d, is_c_string w := by
    rw [hdw]
    intro d hd w hw
    rw [List.mem_singleton] at hd
    subst hd
    rw [List.eq_of_mem_replicate hw]
    decide
  have hlines : (bytes "A0000000000001" :: List.replicate n (bytes "cat")).length < 2 ^ 31 := by
    rw [List.length_cons, List.length_replicate]
    exact hn31
  have hhits : expected_hits (bytes "A0000000000001" :: List.replicate n (bytes "cat"))
      ([bytes "cat"].map stem) = [⟨0, (n : Int)⟩] := by
    have hocc : occurrences (bytes "A0000000000001" :: List.replicate n (bytes "cat"))
        (bytes "cat") 0 = n := by
      unfold occurrences
      rw [hdw]
      show List.count (bytes "cat") (List.replicate n (bytes "cat")) = n
      rw [List.count_replicate_self]
    have hr : List.range 1 = [0] := rfl
    unfold expected_hits
    rw [hdw, List.length_singleton, hr]
    simp only [List.map_cons, List.map_nil, hstem, List.filterMap_cons, List.filterMap_nil,
      List.mem_singleton, forall_eq, hocc, List.sum_cons, List.sum_nil, add_zero]
    rw [if_pos (show 1 ≤ n from hn)]
    rfl
  have hmain := searcher_main_indexed _ _ hst hwf hcs hlines
    (by simpa [posting_bytes, inorder, entry_bytes] using hsize) [bytes "cat"]
    (List.cons_ne_nil _ _)
  have hid : fread_at (bytes "A0000000000001") 0 DOC_ID_SIZE = bytes "A0000000000001" := by
    decide
  refine ⟨?_, hwf, ?_⟩
  · rw [indexer_main_eq _ _ hst, Option.map_some', hmain, hhits]
    simp only [calculate_rank, calculate_rank_loop, save_id_list]
    norm_num [hid, linkedlist_sort, merge_sort]
  · unfold expected_results
    rw [hhits]
    rfl

/-- C1 (as stated). For the stream of the one document `A0000000000001` whose content
is `2^24 + 1 = 16777217` lines `cat`, which is well formed, and the query `cat`, the
claim gives the one hit with the score 16777217, the number of occurrences of
`stem(cat) = cat`; the searcher prints the hit with the score 16777216, the float the
int 16777217 converts to in `result->score = posting->freq`. -/
theorem end_to_end_score_counterexample :
    well_formed_stream long_stream ∧
    stem (bytes "cat") = bytes "cat" ∧
    occurrences long_stream (bytes "cat") 0 = 16777217 ∧
    expected_results long_stream ([bytes "cat"].map stem)
      = [⟨bytes "A0000000000001", 16777217⟩] ∧
    (indexer_main long_stream).map (fun files => searcher_main files [bytes "cat"])
      = some (0, [⟨bytes "A0000000000001", 16777216⟩]) ∧
    (indexer_main long_stream).map (fun files => searcher_main files [bytes "cat"])
      ≠ some (0, linkedlist_sort cmp_search_results
          (expected_results long_stream ([bytes "cat"].map stem))) := by
  have h := single_word_document_search 16777217 (by decide) (by decide) (by decide)
  have hf : float_of_int ((16777217 : Nat) : Int) = 16777216 := by decide
  rw [hf] at h
  obtain ⟨h1, h2, h3⟩ := h
  have hocc : occurrences long_stream (bytes "cat") 0 = 16777217 := by
    unfold occurrences long_stream doc_words
    rw [List.tail_cons, doc_words_after_id_replicate _ (by decide)]
    show List.count (bytes "cat") (List.replicate 16777217 (bytes "cat")) = 16777217
    rw [List.count_replicate_self]
  refine ⟨h2, by decide, hocc, h3, h1, ?_⟩
  unfold long_stream
  rw [h1, h3]
  decide

end SearchEngine
